import Mathlib

/-!
# Open-addressing hash table (`ht.h`) and its probers

Shallow embedding of `src/ht.h`:

* `HASH_INDEX_T` (`size_t`) values are natural numbers; the one place where 64-bit
  wrap-around can change a result, the sum `start_ + numProbes_` inside
  `LinearProber::next`, is reduced modulo `2^64` explicitly.
* `std::vector<HashItem*> table_` is a list of optional items (`none` is `nullptr`).
* The `double` threshold `resizeAlpha_` and the `double` load computed by `insert`
  are exact fractions (`Frac`), compared by cross-multiplication.
* C++ exceptions are values of `HTError`; an operation that may throw returns the
  thrown error (or `none`) together with the table state it leaves behind.
* `prober_` and `totalProbes_` are `mutable` scratch members: the prober is
  re-initialised at the start of every walk and `totalProbes_` is never read, so
  neither is part of the modelled table state.
* Template defaults are modelled: `Prober = LinearProber<K>`, `KEqual = std::equal_to<K>`
  (decidable equality on `K`); the hash functor is an arbitrary function `K → Nat`.
-/

set_option autoImplicit false
set_option linter.unusedSectionVars false

/-! ## Probers -/

/-- The sentinel `Prober::npos = (HASH_INDEX_T)-1`. -/
def npos : Nat := 2 ^ 64 - 1

/-- State of `Prober<KeyType>`: `start_`, `m_`, `numProbes_`. -/
structure Prober where
  start_ : Nat
  m_ : Nat
  numProbes_ : Nat
  deriving DecidableEq

/-- Method `Prober::init(start, m, key)`: the key is ignored by the base class. -/
def Prober.init {K : Type} (start m : Nat) (_key : K) : Prober :=
  { start_ := start, m_ := m, numProbes_ := 0 }

/-- Method `LinearProber::next()`: returns the index (or `npos`) and the prober state after the call.
`start_ + numProbes_` is a `size_t` sum, hence the `% 2^64`; `numProbes_++` happens only
when `numProbes_ < m_`, so it cannot wrap for a `size_t` modulus. -/
def LinearProber.next (p : Prober) : Nat × Prober :=
  if p.numProbes_ ≥ p.m_ then (npos, p)
  else ((p.start_ + p.numProbes_) % 2 ^ 64 % p.m_, { p with numProbes_ := p.numProbes_ + 1 })

/-- Prober state after `n` calls of `next()`. -/
def LinearProber.afterCalls : Nat → Prober → Prober
  | 0, p => p
  | n + 1, p => LinearProber.afterCalls n (LinearProber.next p).2

/-- Value returned by call number `i` (counted from 0) of `next()`. -/
def LinearProber.nthNext (i : Nat) (p : Prober) : Nat :=
  (LinearProber.next (LinearProber.afterCalls i p)).1

/-! ## Table data -/

/-- Exact fraction `num / den` (with `den > 0` in every use) standing for a `double`. -/
structure Frac where
  num : Int
  den : Nat
  deriving DecidableEq

/-- Order on fractions by cross-multiplication: `a ≤ b`. -/
def Frac.le (a b : Frac) : Prop := a.num * (b.den : Int) ≤ b.num * (a.den : Int)

/-- Strict order on fractions by cross-multiplication: `a < b`. -/
def Frac.lt (a b : Frac) : Prop := a.num * (b.den : Int) < b.num * (a.den : Int)

instance : LE Frac := ⟨Frac.le⟩
instance : LT Frac := ⟨Frac.lt⟩
instance (a b : Frac) : Decidable (a ≤ b) :=
  inferInstanceAs (Decidable (a.num * (b.den : Int) ≤ b.num * (a.den : Int)))
instance (a b : Frac) : Decidable (a < b) :=
  inferInstanceAs (Decidable (a.num * (b.den : Int) < b.num * (a.den : Int)))

/-- Struct `HashTable::HashItem`: the stored pair and its `deleted` flag. -/
structure HashItem (K V : Type) where
  item : K × V
  deleted : Bool
  deriving DecidableEq

/-- Exceptions thrown by the table, plus the model's own nesting bound. -/
inductive HTError where
  /-- thrown as `std::logic_error("HashTable full")` -/
  | hashTableFull
  /-- thrown as `std::logic_error("No more capacity")` -/
  | noMoreCapacity
  /-- thrown as `std::out_of_range("Bad key")` -/
  | badKey
  /-- not a C++ exception: the recursion budget of `insertF` ran out -/
  | recursionBudget
  deriving DecidableEq

/-- The capacity ladder `HashTable::CAPACITIES`. -/
def CAPACITIES : List Nat :=
  [11, 23, 47, 97, 197, 397, 797, 1597, 3203, 6421, 12853, 25717, 51437, 102877,
   205759, 411527, 823117, 1646237, 3292489, 6584983, 13169977, 26339969,
   52679969, 105359969, 210719881, 421439783, 842879579, 1685759167]

/-- Data members of `HashTable<K,V>` (see the module comment for the two omitted ones). -/
structure HashTable (K V : Type) where
  table_ : List (Option (HashItem K V))
  resizeAlpha_ : Frac
  hash_ : K → Nat
  mIndex_ : Nat
  size_ : Nat
  deletedCount_ : Nat

namespace HashTable

variable {K V : Type} [DecidableEq K]

/-- The constructor's member initialisers and body. -/
def init (alpha : Frac) (h : K → Nat) : HashTable K V :=
  { table_ := List.replicate (CAPACITIES.getD 0 0) none
    resizeAlpha_ := alpha
    hash_ := h
    mIndex_ := 0
    size_ := 0
    deletedCount_ := 0 }

/-- Outcome of running the constructor: it contains no `throw`, so it always completes. -/
def construct (alpha : Frac) (h : K → Nat) : Except HTError (HashTable K V) :=
  Except.ok (init alpha h)

/-- Method `empty()`. -/
def empty (t : HashTable K V) : Bool := t.size_ == 0

/-- Method `size()`. -/
def size (t : HashTable K V) : Nat := t.size_

/-- The value `double(size_ + deletedCount_) / table_.size()` computed by `insert`. -/
def load (t : HashTable K V) : Frac :=
  { num := ((t.size_ + t.deletedCount_ : Nat) : Int), den := t.table_.length }

/-- The `while (loc != npos)` loop of `probe`, entered after a call of `next()`.
The first argument bounds the number of `next()` calls still able to return an index
(`m_ - numProbes_`), which makes the loop structurally terminating. -/
def probeLoop (tbl : List (Option (HashItem K V))) (key : K) :
    (n : Nat) → (p : Prober) → p.m_ - p.numProbes_ < n → Nat
  | 0, _, h => absurd h (Nat.not_lt_zero _)
  | n + 1, p, h =>
    if hnp : (LinearProber.next p).1 = npos then npos
    else
      match tbl.getD (LinearProber.next p).1 none with
      | none => (LinearProber.next p).1
      | some hi =>
        if !hi.deleted && decide (hi.item.1 = key) then (LinearProber.next p).1
        else
          probeLoop tbl key n (LinearProber.next p).2 (by
            unfold LinearProber.next at hnp ⊢
            split at hnp
            · exact absurd rfl hnp
            · rename_i hlt
              rw [if_neg hlt]
              simp only
              omega)

/-- Method `probe(key)`: the slot where the walk for `key` stops, or `npos`. -/
def probe (t : HashTable K V) (key : K) : Nat :=
  probeLoop t.table_ key (t.table_.length + 1)
    (Prober.init (t.hash_ key % t.table_.length) t.table_.length key)
    (by simp [Prober.init])

/-- Method `find(key)`: pointer to the stored pair, `none` for `nullptr`. -/
def find (t : HashTable K V) (key : K) : Option (K × V) :=
  let h := probe t key
  if h = npos then none
  else
    match t.table_.getD h none with
    | none => none
    | some hi => some hi.item

/-- Method `internalFind(key)`: the returned `HashItem*` as slot index and pointee,
`none` for `nullptr`. -/
def internalFind (t : HashTable K V) (key : K) : Option (Nat × HashItem K V) :=
  let h := probe t key
  if h = npos then none
  else
    match t.table_.getD h none with
    | none => none
    | some hi => if !hi.deleted && decide (hi.item.1 = key) then some (h, hi) else none

/-- Method `at(key)`: the value, or the thrown `std::out_of_range`. The table is not modified. -/
def at_ (t : HashTable K V) (key : K) : Except HTError V :=
  match internalFind t key with
  | none => Except.error HTError.badKey
  | some (_, hi) => Except.ok hi.item.2

/-- Method `operator[](key)`: forwards to `at`. -/
def index (t : HashTable K V) (key : K) : Except HTError V := at_ t key

/-- Method `remove(key)`. -/
def remove (t : HashTable K V) (key : K) : HashTable K V :=
  match internalFind t key with
  | none => t
  | some (h, hi) =>
    if !hi.deleted then
      { t with
        table_ := t.table_.set h (some { hi with deleted := true })
        size_ := t.size_ - 1
        deletedCount_ := t.deletedCount_ + 1 }
    else t

/-- The `while (loc != npos)` loop of `insert` followed by the final `throw`. -/
def insertLoop (t : HashTable K V) (p : K × V) :
    (n : Nat) → (pr : Prober) → pr.m_ - pr.numProbes_ < n → Option HTError × HashTable K V
  | 0, _, h => absurd h (Nat.not_lt_zero _)
  | n + 1, pr, h =>
    if hnp : (LinearProber.next pr).1 = npos then (some HTError.hashTableFull, t)
    else
      match t.table_.getD (LinearProber.next pr).1 none with
      | none =>
        (none, { t with
          table_ := t.table_.set (LinearProber.next pr).1 (some { item := p, deleted := false })
          size_ := t.size_ + 1 })
      | some hi =>
        if !hi.deleted && decide (hi.item.1 = p.1) then
          (none, { t with
            table_ := t.table_.set (LinearProber.next pr).1
              (some { hi with item := (hi.item.1, p.2) }) })
        else
          insertLoop t p n (LinearProber.next pr).2 (by
            unfold LinearProber.next at hnp ⊢
            split at hnp
            · exact absurd rfl hnp
            · rename_i hlt
              rw [if_neg hlt]
              simp only
              omega)

/-- The part of `insert` after the load check: hash, `prober_.init`, and the walk. -/
def place (t : HashTable K V) (p : K × V) : Option HTError × HashTable K V :=
  insertLoop t p (t.table_.length + 1)
    (Prober.init (t.hash_ p.1 % t.table_.length) t.table_.length p.1)
    (by simp [Prober.init])

/-- The `for (auto ptr : oldTable)` loop of `resize`, with `ins` the recursive `insert`. -/
def reinsertAll (ins : HashTable K V → K × V → Option HTError × HashTable K V) :
    List (Option (HashItem K V)) → HashTable K V → Option HTError × HashTable K V
  | [], t => (none, t)
  | none :: rest, t => reinsertAll ins rest t
  | some hi :: rest, t =>
    if !hi.deleted then
      match ins t hi.item with
      | (none, t1) => reinsertAll ins rest t1
      | (some e, t1) => (some e, t1)
    else reinsertAll ins rest t

/-- Method `resize()`, with `ins` the recursive `insert`. -/
def resizeWith (ins : HashTable K V → K × V → Option HTError × HashTable K V)
    (t : HashTable K V) : Option HTError × HashTable K V :=
  if t.mIndex_ + 1 ≥ CAPACITIES.length then (some HTError.noMoreCapacity, t)
  else
    reinsertAll ins t.table_
      { t with
        mIndex_ := t.mIndex_ + 1
        table_ := List.replicate (CAPACITIES.getD (t.mIndex_ + 1) 0) none
        size_ := 0
        deletedCount_ := 0 }

/-- Method `insert(p)` with a bound on the nesting depth of `insert → resize → insert`. -/
def insertF : Nat → HashTable K V → K × V → Option HTError × HashTable K V
  | 0, t, _ => (some HTError.recursionBudget, t)
  | n + 1, t, p =>
    match (if t.resizeAlpha_ ≤ load t then resizeWith (insertF n) t else (none, t)) with
    | (some e, t1) => (some e, t1)
    | (none, t1) => place t1 p

/-- Method `insert(p)`. Every `resize()` increments `mIndex_`, and `resize()` throws once
`mIndex_ + 1` reaches the 28 ladder entries, so a nesting budget of 28 is never used up
(theorem `insert_budget`). -/
def insert (t : HashTable K V) (p : K × V) : Option HTError × HashTable K V :=
  insertF CAPACITIES.length t p

/-- Lines written by `reportAll`: `(bucket index, key, value)` per non-null slot. -/
def reportAllFrom : Nat → List (Option (HashItem K V)) → List (Nat × K × V)
  | _, [] => []
  | i, none :: rest => reportAllFrom (i + 1) rest
  | i, some hi :: rest => (i, hi.item.1, hi.item.2) :: reportAllFrom (i + 1) rest

end HashTable


/-! ## Auxiliary definitions used by the statements -/

namespace HashTable

variable {K V : Type} [DecidableEq K]

/-- The stopping test shared by the walks of `insert` and `probe`:
the slot is `nullptr`, or holds a non-deleted item with an equal key. -/
def stopsAt (tbl : List (Option (HashItem K V))) (key : K) (loc : Nat) : Bool :=
  match tbl.getD loc none with
  | none => true
  | some hi => !hi.deleted && decide (hi.item.1 = key)

/-- What `insert` writes once its walk has stopped at slot `r`. -/
def placeAt (t : HashTable K V) (p : K × V) (r : Nat) : HashTable K V :=
  match t.table_.getD r none with
  | none =>
    { t with
      table_ := t.table_.set r (some { item := p, deleted := false })
      size_ := t.size_ + 1 }
  | some hi =>
    { t with table_ := t.table_.set r (some { hi with item := (hi.item.1, p.2) }) }

/-- An occupied, non-deleted slot. -/
def isLive (s : Option (HashItem K V)) : Bool :=
  match s with
  | none => false
  | some hi => !hi.deleted

/-- A tombstone: a non-null slot whose item is flagged `deleted`. -/
def isTomb (s : Option (HashItem K V)) : Bool :=
  match s with
  | none => false
  | some hi => hi.deleted

/-- Representation invariant of the table. -/
structure Inv (t : HashTable K V) : Prop where
  mIndex_lt : t.mIndex_ < CAPACITIES.length
  length_eq : t.table_.length = CAPACITIES.getD t.mIndex_ 0
  size_eq : t.size_ = t.table_.countP isLive
  deleted_eq : t.deletedCount_ = t.table_.countP isTomb
  reach : ∀ (i : Nat) (hi : HashItem K V), t.table_[i]? = some (some hi) →
    hi.deleted = false → probe t hi.item.1 = i

/-- Some non-deleted item of the slot list `l` carries key `k`. -/
def liveKeyIn (l : List (Option (HashItem K V))) (k : K) : Prop :=
  ∃ hi, some hi ∈ l ∧ hi.deleted = false ∧ hi.item.1 = k

/-- Non-deleted items at different positions of a slot list carry different keys. -/
def distinctLive (a b : Option (HashItem K V)) : Prop :=
  ∀ ha hb, a = some ha → b = some hb → ha.deleted = false → hb.deleted = false →
    ha.item.1 ≠ hb.item.1

/-- Effect of a returning `insert((k, v))` that takes table `t` to table `t'`. -/
structure InsertPost (t t' : HashTable K V) (k : K) (v : V) : Prop where
  inv : Inv t'
  find_self : find t' k = some (k, v)
  find_other : ∀ k', k' ≠ k → find t' k' = find t k'
  size_eq : t'.size_ = t.size_ + (if (find t k).isSome then 0 else 1)
  deleted_eq : t'.deletedCount_ = t.deletedCount_ ∨ t'.deletedCount_ = 0
  mIndex_le : t.mIndex_ ≤ t'.mIndex_
  alpha_eq : t'.resizeAlpha_ = t.resizeAlpha_
  hash_eq : t'.hash_ = t.hash_

/-- A client calling `insert` for each pair of a list in turn; an exception thrown by one
call ends the sequence. -/
def insertMany (t : HashTable K V) : List (K × V) → Option HTError × HashTable K V
  | [] => (none, t)
  | p :: ps =>
    match insert t p with
    | (none, t1) => insertMany t1 ps
    | (some e, t1) => (some e, t1)

/-- Table states reachable from a freshly constructed table (threshold `alpha`, hash
functor `h`) by calls of `insert` (whether they return or throw) and `remove`. -/
inductive Reachable (alpha : Frac) (h : K → Nat) : HashTable K V → Prop
  | init : Reachable alpha h (HashTable.init alpha h)
  | insert (t : HashTable K V) (p : K × V) :
      Reachable alpha h t → Reachable alpha h (HashTable.insert t p).2
  | remove (t : HashTable K V) (k : K) :
      Reachable alpha h t → Reachable alpha h (HashTable.remove t k)

end HashTable

/-- Sample table: default threshold 2/5, identity hash, keys 0..3 inserted. -/
def demoFour : HashTable Nat Nat :=
  (HashTable.insertMany (HashTable.init ⟨2, 5⟩ (fun k => k))
    [(0, 10), (1, 11), (2, 12), (3, 13)]).2

/-- Sample table: `demoFour` after `insert((4, 14))`. -/
def demoFive : HashTable Nat Nat := (HashTable.insert demoFour (4, 14)).2

namespace HashTable

variable {K V : Type} [DecidableEq K]

/-- Method `reportAll(out)`: the lines written, as `(bucket index, key, value)` triples in
the order of output. -/
def reportAll (t : HashTable K V) : List (Nat × K × V) := reportAllFrom 0 t.table_

end HashTable

/-- Sample table: a fresh table (threshold 2/5, identity hash) after `insert((3, 4))` and
`remove(3)`. -/
def demoRemoved : HashTable Nat Nat :=
  HashTable.remove (HashTable.insert (HashTable.init ⟨2, 5⟩ (fun k => k)) (3, 4)).2 3

/-- Sample table: threshold 1/100, identity hash, keys 0 and 1 inserted (the second insert
resizes to capacity 23). -/
def demoSmallAlpha : HashTable Nat Nat :=
  (HashTable.insertMany (HashTable.init ⟨1, 100⟩ (fun k => k)) [(0, 0), (1, 1)]).2

/-! ## The double-hash prober -/

/-- The table `DoubleHashProber::DOUBLE_HASH_MOD_VALUES`. -/
def DOUBLE_HASH_MOD_VALUES : List Nat :=
  [7, 19, 43, 89, 193, 389, 787, 1583, 3191, 6397,
   12841, 25703, 51431, 102871, 205721, 411503,
   823051, 1646221, 3292463, 6584957, 13169963,
   26339921, 52679927, 105359939, 210719881,
   421439749, 842879563, 1685759113]

/-- State of `DoubleHashProber`: the inherited `start_`, `m_`, `numProbes_`, and `dhstep_`.
The functor member `h2_` is fixed at construction and is passed to `init` as a function. -/
structure DoubleHashProber where
  start_ : Nat
  m_ : Nat
  numProbes_ : Nat
  dhstep_ : Nat
  deriving DecidableEq

/-- The `for` loop of `DoubleHashProber::init` walking the table from index 0: the running
value of `mod` is replaced while the entry is below `m`. -/
def DoubleHashProber.modLoop (m : Nat) : List Nat → Nat → Nat
  | [], mod => mod
  | v :: vs, mod => if v < m then DoubleHashProber.modLoop m vs v else mod

/-- The sub-modulus `mod` chosen by `DoubleHashProber::init` for table size `m`. -/
def DoubleHashProber.chooseMod (m : Nat) : Nat :=
  DoubleHashProber.modLoop m DOUBLE_HASH_MOD_VALUES (DOUBLE_HASH_MOD_VALUES.getD 0 0)

/-- Method `DoubleHashProber::init(start, m, key)` with secondary hash functor `h2`. -/
def DoubleHashProber.init {K : Type} (h2 : K → Nat) (start m : Nat) (key : K) :
    DoubleHashProber :=
  { start_ := start
    m_ := m
    numProbes_ := 0
    dhstep_ := DoubleHashProber.chooseMod m - (h2 key % DoubleHashProber.chooseMod m) }

/-- Method `DoubleHashProber::next()`; product and sum are `size_t` operations. -/
def DoubleHashProber.next (p : DoubleHashProber) : Nat × DoubleHashProber :=
  if p.numProbes_ ≥ p.m_ then (npos, p)
  else ((p.start_ + (p.dhstep_ * p.numProbes_) % 2 ^ 64) % 2 ^ 64 % p.m_,
    { p with numProbes_ := p.numProbes_ + 1 })

/-- Prober state after `n` calls of `DoubleHashProber::next()`. -/
def DoubleHashProber.afterCalls : Nat → DoubleHashProber → DoubleHashProber
  | 0, p => p
  | n + 1, p => DoubleHashProber.afterCalls n (DoubleHashProber.next p).2

/-- Value returned by call number `i` (counted from 0) of `DoubleHashProber::next()`. -/
def DoubleHashProber.nthNext (i : Nat) (p : DoubleHashProber) : Nat :=
  (DoubleHashProber.next (DoubleHashProber.afterCalls i p)).1

/-! ## The string hash (`hash.h`)

A `std::string` is a list of characters, each Lean `Char` standing for the C++ `char` with
the same code (so the cast to `unsigned char` is the identity); `int` values are integers,
with the one narrowing conversion `(int)k.size()` made explicit. -/

namespace MyStringHash

/-- The five debug coefficients, the initial value of `rValues`. -/
def debugRValues : List Nat := [983132572, 1468777056, 552714139, 984953261, 261934300]

/-- The conversion `(int)x` of a `size_t`: the value modulo `2^32` read in two's
complement. -/
def toInt32 (x : Nat) : Int :=
  if x % 2 ^ 32 < 2 ^ 31 then ((x % 2 ^ 32 : Nat) : Int)
  else ((x % 2 ^ 32 : Nat) : Int) - 2 ^ 32

/-- The function `std::tolower` on an `unsigned char` value, in the default "C" locale. -/
def toLower (uc : Nat) : Nat := if 65 ≤ uc ∧ uc ≤ 90 then uc + 32 else uc

/-- Method `letterDigitToNumber(ch)`; 97, 122, 48, 57 are the codes of a, z, 0, 9. -/
def letterDigitToNumber (ch : Char) : Nat :=
  if 97 ≤ toLower ch.toNat ∧ toLower ch.toNat ≤ 122 then toLower ch.toNat - 97
  else if 48 ≤ toLower ch.toNat ∧ toLower ch.toNat ≤ 57 then 26 + (toLower ch.toNat - 48)
  else 0

/-- The local table `pow36`. -/
def pow36 : List Nat :=
  [1, 36, 36 * 36, 36 * 36 * 36, 36 * 36 * 36 * 36, 36 * 36 * 36 * 36 * 36]

/-- The inner `for (pos = start; pos < end; ++pos)` loop: the value of `chunkVal` after it,
accumulated in 64 bits. -/
def chunkValue (k : List Char) (start endPos : Int) : Nat :=
  (List.range (endPos - start).toNat).foldl
    (fun (chunkVal : Nat) (i : Nat) =>
      (chunkVal +
        letterDigitToNumber (k.getD (start + (i : Int)).toNat (Char.ofNat 0)) *
          pow36.getD ((endPos - 1) - (start + (i : Int))).toNat 0) % 2 ^ 64)
    0

/-- The outer `for (c = 0; c < GROUPS; ++c)` loop over the remaining values of `c`,
updating the array `w`; the first branch is the `break`. -/
def fillChunks (k : List Char) (n : Int) : List Nat → List Nat → List Nat
  | [], w => w
  | c :: cs, w =>
    if n - (c : Int) * 6 ≤ 0 then w
    else
      fillChunks k n cs
        (w.set (5 - 1 - c)
          (chunkValue k
            (if n - (c : Int) * 6 - 6 < 0 then 0 else n - (c : Int) * 6 - 6)
            (n - (c : Int) * 6)))

/-- The array `w` when the chunk loop is done. -/
def weights (k : List Char) : List Nat :=
  fillChunks k (toInt32 k.length) [0, 1, 2, 3, 4] [0, 0, 0, 0, 0]

/-- Method `operator()(k)` with coefficients `rValues`: the final loop accumulates
`rValues[i] * w[i]` in 64 bits. -/
def hash (rValues : List Nat) (k : List Char) : Nat :=
  (List.range 5).foldl
    (fun h i => (h + (rValues.getD i 0 * (weights k).getD i 0) % 2 ^ 64) % 2 ^ 64) 0

/-- Reference definition, digit map: letters of either case to 0..25, decimal digits to
26..35, every other character to 0. -/
def digitSpec (ch : Char) : Nat :=
  if 'a'.toNat ≤ ch.toNat ∧ ch.toNat ≤ 'z'.toNat then ch.toNat - 'a'.toNat
  else if 'A'.toNat ≤ ch.toNat ∧ ch.toNat ≤ 'Z'.toNat then ch.toNat - 'A'.toNat
  else if '0'.toNat ≤ ch.toNat ∧ ch.toNat ≤ '9'.toNat then 26 + (ch.toNat - '0'.toNat)
  else 0

/-- Reference definition, chunk value `W_c`: the sum over `j` in `0..5` with
`n - 1 - 6c - j ≥ 0` of `digit(k[n - 1 - 6c - j]) * 36^j`, where `n` is the length. -/
def chunkSpec (k : List Char) (c : Nat) : Nat :=
  ((List.range 6).map (fun j =>
    if 6 * c + j < k.length then
      digitSpec (k.getD (k.length - 1 - 6 * c - j) (Char.ofNat 0)) * 36 ^ j
    else 0)).sum

/-- A chunk value in closed form: for digit function `d` on positions and end position `e`,
the sum over `j` in `0..5` with `j < e` of `d (e - 1 - j) * 36^j`. -/
def chunkNat (d : Nat → Nat) (e : Nat) : Nat :=
  ((List.range 6).map (fun j => if j < e then d (e - 1 - j) * 36 ^ j else 0)).sum

/-- Reference definition of the digest: `(sum over c in 0..4 of r[4-c] * W_c) mod 2^64`. -/
def hashSpec (r : List Nat) (k : List Char) : Nat :=
  ((List.range 5).map (fun c => r.getD (4 - c) 0 * chunkSpec k c)).sum % 2 ^ 64

end MyStringHash

/-- Trial division over the `2^d` candidate divisors `lo, lo + step, lo + 2 * step, ...`:
true when none of them divides `n`. An auxiliary checker for the primality of the capacity
ladder, split in halves so that its evaluation nests only `d` deep. -/
def noDivisorBlock (n step : Nat) : Nat → Nat → Bool
  | 0, lo => Nat.ble 1 (n % lo)
  | d + 1, lo => noDivisorBlock n step d lo && noDivisorBlock n step d (lo + step * 2 ^ d)

/-! ## The linear prober -/

theorem LinearProber.next_measure (p : Prober) (n : Nat) (h : p.m_ - p.numProbes_ < n + 1)
    (hnp : ¬ (LinearProber.next p).1 = npos) :
    (LinearProber.next p).2.m_ - (LinearProber.next p).2.numProbes_ < n := by
  unfold LinearProber.next at hnp ⊢
  split at hnp
  · exact absurd rfl hnp
  · rename_i hlt
    rw [if_neg hlt]
    simp only
    omega

theorem LinearProber.next_of_lt (p : Prober) (h : p.numProbes_ < p.m_) :
    LinearProber.next p =
      ((p.start_ + p.numProbes_) % 2 ^ 64 % p.m_, { p with numProbes_ := p.numProbes_ + 1 }) := by
  unfold LinearProber.next
  rw [if_neg (by omega)]

theorem LinearProber.next_of_ge (p : Prober) (h : p.m_ ≤ p.numProbes_) :
    LinearProber.next p = (npos, p) := by
  unfold LinearProber.next
  rw [if_pos h]

theorem LinearProber.afterCalls_eq (s m : Nat) (i j : Nat) (hj : j ≤ m) :
    LinearProber.afterCalls i { start_ := s, m_ := m, numProbes_ := j } =
      { start_ := s, m_ := m, numProbes_ := min (j + i) m } := by
  induction i generalizing j with
  | zero => simp [LinearProber.afterCalls, hj]
  | succ i ih =>
    rw [LinearProber.afterCalls]
    by_cases hlt : j < m
    · rw [LinearProber.next_of_lt _ hlt]
      simp only
      rw [ih (j + 1) hlt]
      congr 1
      omega
    · have hjm : j = m := by omega
      subst hjm
      rw [LinearProber.next_of_ge _ (Nat.le_refl _)]
      simp only
      rw [ih j (Nat.le_refl _)]
      congr 1
      omega

theorem LinearProber.nthNext_init {K : Type} (s m : Nat) (key : K) (i : Nat) :
    LinearProber.nthNext i (Prober.init s m key) =
      if i < m then (s + i) % 2 ^ 64 % m else npos := by
  unfold LinearProber.nthNext Prober.init
  rw [LinearProber.afterCalls_eq s m i 0 (Nat.zero_le _)]
  by_cases hlt : i < m
  · rw [if_pos hlt, LinearProber.next_of_lt _ (by simp; omega)]
    simp only
    congr 3
    omega
  · rw [if_neg hlt, LinearProber.next_of_ge _ (by simp; omega)]

/-- Rotation by `s` modulo `m` hits every residue: the offset at which `x` is produced. -/
theorem rotate_surj (s m x : Nat) (hs : s < m) (hx : x < m) :
    (x + m - s) % m < m ∧ (s + (x + m - s) % m) % m = x := by
  have hm : 0 < m := by omega
  refine ⟨Nat.mod_lt _ hm, ?_⟩
  by_cases hxs : s ≤ x
  · have h1 : x + m - s = (x - s) + m := by omega
    have h2 : (x + m - s) % m = x - s := by
      rw [h1, Nat.add_mod_right]
      exact Nat.mod_eq_of_lt (by omega)
    rw [h2, show s + (x - s) = x by omega]
    exact Nat.mod_eq_of_lt hx
  · have h1 : x + m - s < m := by omega
    rw [Nat.mod_eq_of_lt h1]
    rw [show s + (x + m - s) = x + m by omega, Nat.add_mod_right]
    exact Nat.mod_eq_of_lt hx

/-- Rotation by `s` modulo `m` is injective on offsets below `m`. -/
theorem rotate_inj (s m i j : Nat) (hi : i < m) (hj : j < m)
    (h : (s + i) % m = (s + j) % m) : i = j := by
  have key : ∀ a b : Nat, a ≤ b → b < m → (s + a) % m = (s + b) % m → a = b := by
    intro a b hab hb hmod
    have h1 : (s + b) % m = ((s + a) + (b - a)) % m := by congr 1; omega
    have h2 : (s + a) ≡ (s + a) + (b - a) [MOD m] := by
      unfold Nat.ModEq; rw [hmod, h1]
    have h3 : 0 ≡ (b - a) [MOD m] := by
      have := Nat.ModEq.add_left_cancel' (s + a) (a := 0) (b := b - a) (by simpa using h2)
      exact this
    have h4 : (b - a) % m = 0 := by
      unfold Nat.ModEq at h3; simpa using h3.symm
    rw [Nat.mod_eq_of_lt (by omega)] at h4
    omega
  rcases Nat.le_total i j with hij | hij
  · exact key i j hij hj h
  · exact (key j i hij hi h.symm).symm

/-- C10 (as stated, refuted): with the `size_t` modulus `m = 2^64 - 1` and start
`s = 2^64 - 2 < m`, the sum `start_ + numProbes_` wraps at the third call of `next()`:
it returns `0`, not `(s + 2) mod m = 1`, and index `0` is returned twice (calls 1 and 2). -/
theorem C10_counterexample :
    1 ≤ 2 ^ 64 - 1 ∧ 2 ^ 64 - 2 < 2 ^ 64 - 1 ∧
    LinearProber.nthNext 2 (Prober.init (2 ^ 64 - 2) (2 ^ 64 - 1) ()) = 0 ∧
    (2 ^ 64 - 2 + 2) % (2 ^ 64 - 1) = 1 ∧
    LinearProber.nthNext 1 (Prober.init (2 ^ 64 - 2) (2 ^ 64 - 1) ()) =
      LinearProber.nthNext 2 (Prober.init (2 ^ 64 - 2) (2 ^ 64 - 1) ()) := by
  simp only [LinearProber.nthNext_init]
  decide

/-- C10 (amended): for every modulus `m` and start `s < m` (hence `m ≥ 1`) with
`s + m ≤ 2^64` (no wrap-around of `start_ + numProbes_`; this covers every `m ≤ 2^63`), after
`init(s, m, key)` the first `m` calls of `next()` return `(s + i) mod m` for `i = 0..m-1`,
every index in `[0, m)` is returned by exactly one of these calls, and every later call
returns `npos`. -/
theorem C10_linear_probe_permutation {K : Type} (m s : Nat) (key : K)
    (hs : s < m) (hno : s + m ≤ 2 ^ 64) :
    (∀ i, i < m → LinearProber.nthNext i (Prober.init s m key) = (s + i) % m) ∧
    (∀ x, x < m → ∃! i, i < m ∧ LinearProber.nthNext i (Prober.init s m key) = x) ∧
    (∀ i, m ≤ i → LinearProber.nthNext i (Prober.init s m key) = npos) := by
  have hval : ∀ i, i < m → LinearProber.nthNext i (Prober.init s m key) = (s + i) % m := by
    intro i hi
    rw [LinearProber.nthNext_init, if_pos hi,
      Nat.mod_eq_of_lt (show s + i < 2 ^ 64 by omega)]
  refine ⟨hval, ?_, ?_⟩
  · intro x hx
    obtain ⟨h1, h2⟩ := rotate_surj s m x hs hx
    refine ⟨(x + m - s) % m, ⟨h1, ?_⟩, ?_⟩
    · rw [hval _ h1, h2]
    · rintro j ⟨hj, hjx⟩
      rw [hval j hj] at hjx
      exact rotate_inj s m j _ hj h1 (by rw [hjx, h2])
  · intro i hi
    rw [LinearProber.nthNext_init, if_neg (by omega)]

/-- C10 witness: modulus 11 (the initial capacity), start 7. -/
theorem C10_linear_probe_permutation_witness :
    (7 < 11 ∧ 7 + 11 ≤ 2 ^ 64) ∧
    ((∀ i, i < 11 → LinearProber.nthNext i (Prober.init 7 11 ()) = (7 + i) % 11) ∧
     (∀ x, x < 11 → ∃! i, i < 11 ∧ LinearProber.nthNext i (Prober.init 7 11 ()) = x) ∧
     (∀ i, 11 ≤ i → LinearProber.nthNext i (Prober.init 7 11 ()) = npos)) :=
  ⟨by decide, C10_linear_probe_permutation 11 7 () (by decide) (by decide)⟩

/-! ## The probe walk -/

namespace HashTable

variable {K V : Type} [DecidableEq K]

theorem stopsAt_none (tbl : List (Option (HashItem K V))) (key : K) (loc : Nat)
    (h : tbl.getD loc none = none) : stopsAt tbl key loc = true := by
  unfold stopsAt
  rw [h]

theorem stopsAt_some (tbl : List (Option (HashItem K V))) (key : K) (loc : Nat)
    (hi : HashItem K V) (h : tbl.getD loc none = some hi) :
    stopsAt tbl key loc = (!hi.deleted && decide (hi.item.1 = key)) := by
  unfold stopsAt
  rw [h]

/-- One iteration of the walk of `probe`, phrased with `stopsAt`. -/
theorem probeLoop_succ (tbl : List (Option (HashItem K V))) (key : K) (n : Nat) (p : Prober)
    (h : p.m_ - p.numProbes_ < n + 1) :
    probeLoop tbl key (n + 1) p h =
      if hnp : (LinearProber.next p).1 = npos then npos
      else if stopsAt tbl key (LinearProber.next p).1 then (LinearProber.next p).1
      else probeLoop tbl key n (LinearProber.next p).2 (LinearProber.next_measure p n h hnp) := by
  rw [probeLoop]
  split
  · rfl
  · rename_i hnp
    cases hg : tbl.getD (LinearProber.next p).1 none with
    | none => rw [if_pos (stopsAt_none tbl key _ hg)]
    | some hi => rw [stopsAt_some tbl key _ hi hg]

/-- The walk returns `npos` or a slot below the modulus at which the stopping test holds. -/
theorem probeLoop_stops (tbl : List (Option (HashItem K V))) (key : K) (n : Nat) (p : Prober)
    (h : p.m_ - p.numProbes_ < n) (hr : probeLoop tbl key n p h ≠ npos) :
    stopsAt tbl key (probeLoop tbl key n p h) = true ∧ probeLoop tbl key n p h < p.m_ := by
  induction n generalizing p with
  | zero => exact absurd h (Nat.not_lt_zero _)
  | succ n ih =>
    rw [probeLoop_succ] at hr ⊢
    split at hr
    · exact absurd rfl hr
    · rename_i hnp
      rw [dif_neg hnp]
      split at hr
      · rename_i hst
        rw [if_pos hst]
        refine ⟨hst, ?_⟩
        have hlt : p.numProbes_ < p.m_ := by
          by_contra hge
          exact hnp (by rw [LinearProber.next_of_ge p (by omega)])
        rw [LinearProber.next_of_lt p hlt]
        exact Nat.mod_lt _ (by omega)
      · rename_i hst
        rw [if_neg hst]
        have := ih (LinearProber.next p).2 (LinearProber.next_measure p n h hnp) hr
        have hm : (LinearProber.next p).2.m_ = p.m_ := by
          unfold LinearProber.next; split <;> rfl
        rw [hm] at this
        exact this

/-- The walk's result is stable under changes of the table that keep the stopping slot
stopping and make no other slot newly stopping. -/
theorem probeLoop_transfer (tbl tbl' : List (Option (HashItem K V))) (key : K) (n : Nat)
    (p : Prober) (h : p.m_ - p.numProbes_ < n) (hr : probeLoop tbl key n p h ≠ npos)
    (hstop : stopsAt tbl' key (probeLoop tbl key n p h) = true)
    (hmono : ∀ x, x ≠ probeLoop tbl key n p h → stopsAt tbl key x = false →
      stopsAt tbl' key x = false) :
    probeLoop tbl' key n p h = probeLoop tbl key n p h := by
  induction n generalizing p with
  | zero => exact absurd h (Nat.not_lt_zero _)
  | succ n ih =>
    rw [probeLoop_succ tbl key n p h] at hr hstop hmono ⊢
    rw [probeLoop_succ tbl' key n p h]
    split at hr
    · exact absurd rfl hr
    · rename_i hnp
      simp only [dif_neg hnp] at hstop hmono ⊢
      by_cases hst : stopsAt tbl key (LinearProber.next p).1 = true
      · simp only [if_pos hst] at hstop hmono ⊢
        rw [if_pos hstop]
      · simp only [if_neg hst] at hr hstop hmono ⊢
        by_cases heq : (LinearProber.next p).1 =
            probeLoop tbl key n (LinearProber.next p).2 (LinearProber.next_measure p n h hnp)
        · rw [← heq] at hstop
          rw [if_pos hstop]
          exact heq
        · have hst' : stopsAt tbl' key (LinearProber.next p).1 = false :=
            hmono _ heq (by simpa using hst)
          rw [if_neg (by simp [hst'])]
          exact ih (LinearProber.next p).2 (LinearProber.next_measure p n h hnp) hr hstop hmono

/-- If the walk returns `npos` (modulus below `2^64`), no slot it visits passes the
stopping test. -/
theorem probeLoop_npos (tbl : List (Option (HashItem K V))) (key : K) (n : Nat) (p : Prober)
    (h : p.m_ - p.numProbes_ < n) (hm : p.m_ < 2 ^ 64)
    (hr : probeLoop tbl key n p h = npos) (i : Nat) (hi1 : p.numProbes_ ≤ i) (hi2 : i < p.m_) :
    stopsAt tbl key ((p.start_ + i) % 2 ^ 64 % p.m_) = false := by
  induction n generalizing p with
  | zero => exact absurd h (Nat.not_lt_zero _)
  | succ n ih =>
    rw [probeLoop_succ] at hr
    have hlt : p.numProbes_ < p.m_ := by omega
    have hnext := LinearProber.next_of_lt p hlt
    have hnp : ¬ (LinearProber.next p).1 = npos := by
      rw [hnext]
      have : (p.start_ + p.numProbes_) % 2 ^ 64 % p.m_ < p.m_ := Nat.mod_lt _ (by omega)
      simp only [npos]
      omega
    rw [dif_neg hnp] at hr
    by_cases hst : stopsAt tbl key (LinearProber.next p).1 = true
    · rw [if_pos hst] at hr
      exact absurd hr hnp
    · rw [if_neg hst] at hr
      by_cases hieq : i = p.numProbes_
      · subst hieq
        rw [hnext] at hst
        simpa using hst
      · have := ih (LinearProber.next p).2 (LinearProber.next_measure p n h hnp)
          (by rw [hnext]; exact hm) hr (by rw [hnext]; simp only; omega)
          (by rw [hnext]; exact hi2)
        rw [hnext] at this
        exact this

end HashTable

namespace HashTable

variable {K V : Type} [DecidableEq K]

/-- The walk of `insert` stops exactly where the walk of `probe` stops. -/
theorem insertLoop_eq (t : HashTable K V) (p : K × V) (n : Nat) (pr : Prober)
    (h : pr.m_ - pr.numProbes_ < n) :
    insertLoop t p n pr h =
      if probeLoop t.table_ p.1 n pr h = npos then (some HTError.hashTableFull, t)
      else (none, placeAt t p (probeLoop t.table_ p.1 n pr h)) := by
  induction n generalizing pr with
  | zero => exact absurd h (Nat.not_lt_zero _)
  | succ n ih =>
    rw [insertLoop, probeLoop_succ]
    by_cases hnp : (LinearProber.next pr).1 = npos
    · simp only [dif_pos hnp, if_true]
    · simp only [dif_neg hnp]
      cases hg : t.table_.getD (LinearProber.next pr).1 none with
      | none =>
        simp only [if_pos (stopsAt_none t.table_ p.1 _ hg), if_neg hnp]
        simp only [placeAt, hg]
      | some hi =>
        rw [stopsAt_some t.table_ p.1 _ hi hg]
        by_cases hc : (!hi.deleted && decide (hi.item.1 = p.1)) = true
        · simp only [if_pos hc, if_neg hnp]
          simp only [placeAt, hg]
        · simp only [if_neg hc]
          exact ih (LinearProber.next pr).2 (LinearProber.next_measure pr n h hnp)

theorem probeLoop_congr (tbl : List (Option (HashItem K V))) (key : K) (n n' : Nat)
    (p p' : Prober) (h : p.m_ - p.numProbes_ < n) (h' : p'.m_ - p'.numProbes_ < n')
    (hn : n = n') (hp : p = p') :
    probeLoop tbl key n p h = probeLoop tbl key n' p' h' := by
  subst hn hp
  rfl

/-- After its load check, `insert` throws when `probe` finds no slot and otherwise writes
at the slot `probe` returns. -/
theorem place_eq (t : HashTable K V) (p : K × V) :
    place t p =
      if probe t p.1 = npos then (some HTError.hashTableFull, t)
      else (none, placeAt t p (probe t p.1)) := by
  unfold place probe
  exact insertLoop_eq t p _ _ _

theorem probe_stops (t : HashTable K V) (key : K) (hr : probe t key ≠ npos) :
    stopsAt t.table_ key (probe t key) = true ∧ probe t key < t.table_.length := by
  unfold probe at hr ⊢
  exact probeLoop_stops t.table_ key _ _ _ hr

theorem probe_transfer (t t' : HashTable K V) (key : K)
    (hlen : t'.table_.length = t.table_.length) (hh : t'.hash_ = t.hash_)
    (hr : probe t key ≠ npos)
    (hstop : stopsAt t'.table_ key (probe t key) = true)
    (hmono : ∀ x, x ≠ probe t key → stopsAt t.table_ key x = false →
      stopsAt t'.table_ key x = false) :
    probe t' key = probe t key := by
  have h1 : probe t' key = probeLoop t'.table_ key (t.table_.length + 1)
      (Prober.init (t.hash_ key % t.table_.length) t.table_.length key)
      (by simp [Prober.init]) := by
    unfold probe
    exact probeLoop_congr _ _ _ _ _ _ _ _ (by rw [hlen]) (by rw [hlen, hh])
  rw [h1]
  unfold probe at hr hstop hmono ⊢
  exact probeLoop_transfer t.table_ t'.table_ key _ _ _ hr hstop hmono

/-- In a table of positive length below `2^63`, `probe` returns `npos` exactly when no
slot passes the stopping test: the linear walk visits every slot. -/
theorem probe_eq_npos_iff (t : HashTable K V) (key : K) (hpos : 0 < t.table_.length)
    (hlt : t.table_.length < 2 ^ 63) :
    probe t key = npos ↔ ∀ x, x < t.table_.length → stopsAt t.table_ key x = false := by
  constructor
  · intro hr x hx
    have hs : t.hash_ key % t.table_.length < t.table_.length := Nat.mod_lt _ hpos
    obtain ⟨h1, h2⟩ := rotate_surj _ _ x hs hx
    unfold probe at hr
    have := probeLoop_npos t.table_ key _ _ _ (by simp only [Prober.init]; omega) hr
      ((x + t.table_.length - t.hash_ key % t.table_.length) % t.table_.length)
      (Nat.zero_le _) h1
    simp only [Prober.init] at this
    rw [Nat.mod_eq_of_lt (a := _ + _) (b := 2 ^ 64) (by omega), h2] at this
    exact this
  · intro hall
    by_contra hne
    obtain ⟨h1, h2⟩ := probe_stops t key hne
    rw [hall _ h2] at h1
    exact Bool.noConfusion h1

end HashTable

/-! ## Slot-array bookkeeping -/

theorem getD_eq_some_iff {α : Type} (l : List (Option α)) (i : Nat) (a : α) :
    l.getD i none = some a ↔ l[i]? = some (some a) := by
  rw [List.getD_eq_getElem?_getD]
  cases l[i]? with
  | none => simp
  | some x => simp

theorem getD_set_self {α : Type} (l : List (Option α)) (i : Nat) (a : Option α)
    (h : i < l.length) : (l.set i a).getD i none = a := by
  rw [List.getD_eq_getElem?_getD, List.getElem?_set, if_pos rfl, if_pos h]
  rfl

theorem getD_set_ne {α : Type} (l : List (Option α)) (i j : Nat) (a : Option α)
    (h : i ≠ j) : (l.set i a).getD j none = l.getD j none := by
  rw [List.getD_eq_getElem?_getD, List.getD_eq_getElem?_getD, List.getElem?_set_ne h]

/-- Overwriting position `i` changes a `countP` by the old and the new element only. -/
theorem countP_set {α : Type} (q : α → Bool) (l : List α) (i : Nat) (a b : α)
    (h : l[i]? = some b) :
    (l.set i a).countP q + (if q b then 1 else 0) = l.countP q + (if q a then 1 else 0) := by
  induction l generalizing i with
  | nil => simp at h
  | cons x xs ih =>
    cases i with
    | zero =>
      simp only [List.getElem?_cons_zero, Option.some.injEq] at h
      subst h
      simp only [List.set_cons_zero, List.countP_cons]
      omega
    | succ i =>
      simp only [List.getElem?_cons_succ] at h
      have := ih i h
      simp only [List.set_cons_succ, List.countP_cons]
      omega

theorem capacities_bounds :
    ∀ i, i < CAPACITIES.length → 11 ≤ CAPACITIES.getD i 0 ∧ CAPACITIES.getD i 0 ≤ 1685759167 := by
  decide

namespace HashTable

variable {K V : Type} [DecidableEq K]

theorem stopsAt_iff (tbl : List (Option (HashItem K V))) (key : K) (x : Nat) :
    stopsAt tbl key x = true ↔
      tbl.getD x none = none ∨
        ∃ hi, tbl.getD x none = some hi ∧ hi.deleted = false ∧ hi.item.1 = key := by
  unfold stopsAt
  cases tbl.getD x none with
  | none => simp
  | some hi => simp

theorem Inv.length_ge {t : HashTable K V} (hinv : Inv t) : 11 ≤ t.table_.length := by
  rw [hinv.length_eq]
  exact (capacities_bounds _ hinv.mIndex_lt).1

theorem Inv.length_le {t : HashTable K V} (hinv : Inv t) : t.table_.length ≤ 1685759167 := by
  rw [hinv.length_eq]
  exact (capacities_bounds _ hinv.mIndex_lt).2

theorem Inv.lt_npos {t : HashTable K V} (hinv : Inv t) (i : Nat) (h : i < t.table_.length) :
    i ≠ npos := by
  have := hinv.length_le
  simp only [npos]
  omega

theorem Inv.probe_npos_iff {t : HashTable K V} (hinv : Inv t) (key : K) :
    probe t key = npos ↔ ∀ x, x < t.table_.length → stopsAt t.table_ key x = false :=
  HashTable.probe_eq_npos_iff t key (by have := hinv.length_ge; omega)
    (by have := hinv.length_le; omega)

/-- Unfolding of `find`: a found pair sits in the live slot returned by `probe`. -/
theorem find_eq_some_iff (t : HashTable K V) (key : K) (it : K × V) :
    find t key = some it ↔
      probe t key ≠ npos ∧ probe t key < t.table_.length ∧
        t.table_[probe t key]? = some (some { item := it, deleted := false }) ∧
        it.1 = key := by
  unfold find
  simp only
  by_cases hr : probe t key = npos
  · simp [hr]
  · rw [if_neg hr]
    obtain ⟨hst, hlt⟩ := probe_stops t key hr
    rw [stopsAt_iff] at hst
    rcases hst with hnone | ⟨hi, hsome, hdel, hkey⟩
    · rw [hnone]
      have : t.table_[probe t key]? ≠ some (some { item := it, deleted := false }) := by
        intro hc
        rw [← getD_eq_some_iff] at hc
        rw [hnone] at hc
        exact Option.noConfusion hc
      simp [this]
    · rw [hsome]
      rw [getD_eq_some_iff] at hsome
      rw [hsome]
      obtain ⟨it', d⟩ := hi
      simp only at hdel hkey
      subst hdel
      simp only [Option.some.injEq, HashItem.mk.injEq, and_true, ne_eq, hr, not_false_eq_true,
        hlt, true_and]
      constructor
      · intro h; subst h; exact ⟨rfl, hkey⟩
      · intro h; exact h.1

theorem find_eq_none_of_npos (t : HashTable K V) (key : K) (h : probe t key = npos) :
    find t key = none := by
  unfold find
  simp [h]

/-- Under the invariant every live slot is what `find` reports for its key. -/
theorem Inv.find_of_slot {t : HashTable K V} (hinv : Inv t) (i : Nat) (hi : HashItem K V)
    (hs : t.table_[i]? = some (some hi)) (hd : hi.deleted = false) :
    find t hi.item.1 = some hi.item := by
  have hp := hinv.reach i hi hs hd
  have hlt : i < t.table_.length := by
    obtain ⟨h, _⟩ := List.getElem?_eq_some.mp hs
    exact h
  rw [find_eq_some_iff, hp]
  refine ⟨hinv.lt_npos i hlt, hlt, ?_, rfl⟩
  rw [hs]
  obtain ⟨it, d⟩ := hi
  simp only at hd
  subst hd
  rfl

/-- Under the invariant `find` misses exactly the keys held by no live slot. -/
theorem Inv.find_eq_none_iff {t : HashTable K V} (hinv : Inv t) (key : K) :
    find t key = none ↔
      ∀ (i : Nat) (hi : HashItem K V), t.table_[i]? = some (some hi) → hi.deleted = false →
        hi.item.1 ≠ key := by
  constructor
  · intro hnone i hi hs hd hk
    have := hinv.find_of_slot i hi hs hd
    rw [hk, hnone] at this
    exact Option.noConfusion this
  · intro hall
    cases hf : find t key with
    | none => rfl
    | some it =>
      rw [find_eq_some_iff] at hf
      exact absurd hf.2.2.2 (hall _ _ hf.2.2.1 rfl)

end HashTable

/-! ## Effect of overwriting one slot -/

namespace HashTable

variable {K V : Type} [DecidableEq K]

theorem stopsAt_set_ne (tbl : List (Option (HashItem K V))) (key : K) (r x : Nat)
    (s : Option (HashItem K V)) (h : x ≠ r) :
    stopsAt (tbl.set r s) key x = stopsAt tbl key x := by
  unfold stopsAt
  rw [getD_set_ne _ _ _ _ (Ne.symm h)]

theorem stopsAt_set_self (tbl : List (Option (HashItem K V))) (key : K) (r : Nat)
    (hi : HashItem K V) (h : r < tbl.length) :
    stopsAt (tbl.set r (some hi)) key r = (!hi.deleted && decide (hi.item.1 = key)) := by
  unfold stopsAt
  rw [getD_set_self _ _ _ h]

/-- Overwriting slot `r` with an item that does not stop the walk of `key` leaves the
result of `probe key` unchanged whenever that result was a slot other than `r`. -/
theorem probe_other_of_set (t t' : HashTable K V) (r : Nat) (hn : HashItem K V) (key : K)
    (htab : t'.table_ = t.table_.set r (some hn)) (hh : t'.hash_ = t.hash_)
    (hr : r < t.table_.length)
    (hnew : (!hn.deleted && decide (hn.item.1 = key)) = false)
    (hp : probe t key ≠ npos) (hpr : probe t key ≠ r) :
    probe t' key = probe t key := by
  apply probe_transfer t t' key (by rw [htab, List.length_set]) hh hp
  · rw [htab, stopsAt_set_ne _ _ _ _ _ hpr]
    exact (probe_stops t key hp).1
  · intro x _ hx
    by_cases hxr : x = r
    · subst hxr
      rw [htab, stopsAt_set_self _ _ _ _ hr]
      exact hnew
    · rw [htab, stopsAt_set_ne _ _ _ _ _ hxr]
      exact hx

theorem Inv.of_length_eq {t t' : HashTable K V} (hinv : Inv t)
    (hlen : t'.table_.length = t.table_.length) :
    0 < t'.table_.length ∧ t'.table_.length < 2 ^ 63 := by
  have h1 := hinv.length_ge
  have h2 := hinv.length_le
  omega

/-- Overwriting slot `r` (empty, or not stopping the walk of `key`) with an item that does
not stop the walk of `key` leaves `find key` unchanged. -/
theorem find_other_of_set (t t' : HashTable K V) (hinv : Inv t) (r : Nat) (hn : HashItem K V)
    (key : K) (htab : t'.table_ = t.table_.set r (some hn)) (hh : t'.hash_ = t.hash_)
    (hr : r < t.table_.length)
    (hnew : (!hn.deleted && decide (hn.item.1 = key)) = false)
    (hold : t.table_.getD r none = none ∨ stopsAt t.table_ key r = false) :
    find t' key = find t key := by
  have hlen : t'.table_.length = t.table_.length := by rw [htab, List.length_set]
  have hstop_r : stopsAt t'.table_ key r = false := by
    rw [htab, stopsAt_set_self _ _ _ _ hr]
    exact hnew
  by_cases hp : probe t key = npos
  · -- no stopping slot before, none after
    have hall := (hinv.probe_npos_iff key).mp hp
    have hp' : probe t' key = npos := by
      rw [HashTable.probe_eq_npos_iff t' key (hinv.of_length_eq hlen).1
        (hinv.of_length_eq hlen).2]
      intro x hx
      by_cases hxr : x = r
      · subst hxr; exact hstop_r
      · rw [htab, stopsAt_set_ne _ _ _ _ _ hxr]
        exact hall x (by rw [← hlen]; exact hx)
    rw [find_eq_none_of_npos t key hp, find_eq_none_of_npos t' key hp']
  · by_cases hpr : probe t key = r
    · -- the walk used to stop at the (then empty) slot `r`
      have hst := (probe_stops t key hp).1
      rw [hpr] at hst
      have hnone : t.table_.getD r none = none := by
        rcases hold with h | h
        · exact h
        · rw [h] at hst; exact Bool.noConfusion hst
      have hf : find t key = none := by
        unfold find
        simp only [hpr, hnone, ite_self]
      rw [hf]
      cases hf' : find t' key with
      | none => rfl
      | some it =>
        exfalso
        rw [find_eq_some_iff] at hf'
        obtain ⟨_, _, hslot, hkey⟩ := hf'
        have hne : probe t' key ≠ r := by
          intro hc
          rw [hc, htab, List.getElem?_set, if_pos rfl, if_pos hr] at hslot
          simp only [Option.some.injEq] at hslot
          subst hslot
          simp [hkey] at hnew
        rw [htab, List.getElem?_set_ne (Ne.symm hne)] at hslot
        have := hinv.find_of_slot _ _ hslot rfl
        simp only [hkey] at this
        rw [hf] at this
        exact Option.noConfusion this
    · have hp' := probe_other_of_set t t' r hn key htab hh hr hnew hp hpr
      unfold find
      simp only [hp', htab]
      rw [getD_set_ne _ _ _ _ (Ne.symm hpr)]

end HashTable

/-! ## Placing an entry (the walk of `insert`) -/

namespace HashTable

variable {K V : Type} [DecidableEq K]

/-- The write performed by `insert` at the slot found by its walk, in closed form. -/
theorem placeAt_probe (t : HashTable K V) (k : K) (v : V) (hp : probe t k ≠ npos) :
    placeAt t (k, v) (probe t k) =
      { t with
        table_ := t.table_.set (probe t k) (some { item := (k, v), deleted := false })
        size_ := t.size_ + (if (find t k).isSome then 0 else 1) } := by
  have hst := (probe_stops t k hp).1
  rw [stopsAt_iff] at hst
  unfold placeAt find
  simp only [if_neg hp]
  rcases hst with hnone | ⟨hi, hsome, hdel, hkey⟩
  · simp only [hnone, Option.isSome_none, Bool.false_eq_true, if_false]
  · obtain ⟨⟨k0, v0⟩, d⟩ := hi
    simp only at hdel hkey
    subst hdel hkey
    simp only [hsome, Option.isSome_some, if_true, Nat.add_zero]

theorem count_slots (l : List (Option (HashItem K V))) :
    l.countP isLive + l.countP isTomb + l.countP (fun s => s.isNone) = l.length := by
  induction l with
  | nil => rfl
  | cons x xs ih =>
    simp only [List.countP_cons, List.length_cons]
    rcases x with _ | ⟨it, d⟩
    · simp [isLive, isTomb]; omega
    · cases d <;> simp [isLive, isTomb] <;> omega

/-- With a free slot in the table the walk of `probe` finds a place to stop. -/
theorem Inv.probe_ne_npos {t : HashTable K V} (hinv : Inv t) (key : K)
    (hfree : t.size_ + t.deletedCount_ < t.table_.length) : probe t key ≠ npos := by
  intro hp
  have hall := (hinv.probe_npos_iff key).mp hp
  have hc := count_slots t.table_
  rw [← hinv.size_eq, ← hinv.deleted_eq] at hc
  have hpos : 0 < t.table_.countP (fun s => s.isNone) := by omega
  obtain ⟨a, ha, hnone⟩ := List.countP_pos_iff.mp hpos
  obtain ⟨i, hi⟩ := List.getElem?_of_mem ha
  have hlt : i < t.table_.length := (List.getElem?_eq_some.mp hi).1
  have hst : stopsAt t.table_ key i = true := by
    apply stopsAt_none
    rw [List.getD_eq_getElem?_getD, hi]
    cases a with
    | none => rfl
    | some x => simp at hnone
  rw [hall i hlt] at hst
  exact Bool.noConfusion hst

/-- The write of `insert` preserves the invariant and changes `find` at the inserted key
only. -/
theorem Inv.placeAt_post {t : HashTable K V} (hinv : Inv t) (k : K) (v : V)
    (hp : probe t k ≠ npos) :
    InsertPost t (placeAt t (k, v) (probe t k)) k v ∧
      (placeAt t (k, v) (probe t k)).mIndex_ = t.mIndex_ ∧
      (placeAt t (k, v) (probe t k)).deletedCount_ = t.deletedCount_ ∧
      (placeAt t (k, v) (probe t k)).table_ =
        t.table_.set (probe t k) (some { item := (k, v), deleted := false }) := by
  have hT := placeAt_probe t k v hp
  generalize placeAt t (k, v) (probe t k) = t' at hT ⊢
  have htab : t'.table_ =
      t.table_.set (probe t k) (some { item := (k, v), deleted := false }) := by rw [hT]
  have hsz : t'.size_ = t.size_ + (if (find t k).isSome then 0 else 1) := by rw [hT]
  have hh : t'.hash_ = t.hash_ := by rw [hT]
  have hmi : t'.mIndex_ = t.mIndex_ := by rw [hT]
  have hdc : t'.deletedCount_ = t.deletedCount_ := by rw [hT]
  have hal : t'.resizeAlpha_ = t.resizeAlpha_ := by rw [hT]
  clear hT
  obtain ⟨hst, hlt⟩ := probe_stops t k hp
  -- the walk of `k` still stops at the written slot
  have hself : probe t' k = probe t k := by
    apply probe_transfer t t' k (by rw [htab, List.length_set]) hh hp
    · rw [htab, stopsAt_set_self _ _ _ _ hlt]
      simp
    · intro x hx hxs
      rw [htab, stopsAt_set_ne _ _ _ _ _ hx]
      exact hxs
  -- what the slot held before
  have hold : ∀ k', k' ≠ k →
      t.table_.getD (probe t k) none = none ∨ stopsAt t.table_ k' (probe t k) = false := by
    intro k' hk'
    rw [stopsAt_iff] at hst
    rcases hst with hnone | ⟨hi, hsome, hdel, hkey⟩
    · exact Or.inl hnone
    · right
      rw [stopsAt_some _ _ _ hi hsome, hdel, hkey]
      simp [Ne.symm hk']
  have hnew : ∀ k', k' ≠ k →
      (!(({ item := (k, v), deleted := false } : HashItem K V)).deleted &&
        decide (({ item := (k, v), deleted := false } : HashItem K V).item.1 = k')) = false := by
    intro k' hk'
    simp [Ne.symm hk']
  refine ⟨⟨?_, ?_, ?_, hsz, Or.inl hdc, by rw [hmi], hal, hh⟩, hmi, hdc, htab⟩
  · -- invariant
    refine ⟨by rw [hmi]; exact hinv.mIndex_lt,
      by rw [htab, hmi, List.length_set]; exact hinv.length_eq, ?_, ?_, ?_⟩
    · -- live count
      rw [hsz, htab]
      have hs := hinv.size_eq
      rw [stopsAt_iff] at hst
      rcases hst with hnone | ⟨hi, hsome, hdel, hkey⟩
      · have hslot : t.table_[probe t k]? = some none := by
          have := List.getElem?_eq_getElem hlt
          rw [List.getD_eq_getElem?_getD, this] at hnone
          rw [this]
          simpa using hnone
        have hc := countP_set isLive t.table_ (probe t k)
          (some { item := (k, v), deleted := false }) none hslot
        have hf : find t k = none := by
          unfold find
          simp only [if_neg hp, hnone]
        simp [isLive] at hc
        simp only [hf, Option.isSome_none, Bool.false_eq_true, if_false]
        omega
      · have hslot := (getD_eq_some_iff _ _ _).mp hsome
        have hc := countP_set isLive t.table_ (probe t k)
          (some { item := (k, v), deleted := false }) (some hi) hslot
        have hf : (find t k).isSome = true := by
          unfold find
          simp only [if_neg hp, hsome, Option.isSome_some]
        simp [isLive, hdel] at hc
        simp only [hf, if_true]
        omega
    · -- tombstone count
      rw [hdc, htab]
      have hs := hinv.deleted_eq
      rw [stopsAt_iff] at hst
      rcases hst with hnone | ⟨hi, hsome, hdel, hkey⟩
      · have hslot : t.table_[probe t k]? = some none := by
          have := List.getElem?_eq_getElem hlt
          rw [List.getD_eq_getElem?_getD, this] at hnone
          rw [this]
          simpa using hnone
        have hc := countP_set isTomb t.table_ (probe t k)
          (some { item := (k, v), deleted := false }) none hslot
        simp [isTomb] at hc
        omega
      · have hslot := (getD_eq_some_iff _ _ _).mp hsome
        have hc := countP_set isTomb t.table_ (probe t k)
          (some { item := (k, v), deleted := false }) (some hi) hslot
        simp [isTomb, hdel] at hc
        omega
    · -- probe-reachability
      intro i hi hs hd
      rw [htab] at hs
      by_cases hir : i = probe t k
      · subst hir
        rw [List.getElem?_set, if_pos rfl, if_pos hlt] at hs
        simp only [Option.some.injEq] at hs
        subst hs
        exact hself
      · rw [List.getElem?_set_ne (Ne.symm hir)] at hs
        have hpi := hinv.reach i hi hs hd
        have hk' : hi.item.1 ≠ k := by
          intro hc
          rw [hc] at hpi
          exact hir hpi.symm
        have hilt : i < t.table_.length := (List.getElem?_eq_some.mp hs).1
        have := probe_other_of_set t t' (probe t k) { item := (k, v), deleted := false }
          hi.item.1 htab hh hlt (hnew _ hk') (by rw [hpi]; exact hinv.lt_npos i hilt)
          (by rw [hpi]; exact hir)
        rw [this, hpi]
  · -- find at the inserted key
    rw [find_eq_some_iff, hself]
    refine ⟨hp, by rw [htab, List.length_set]; exact hlt, ?_, rfl⟩
    rw [htab, List.getElem?_set, if_pos rfl, if_pos hlt]
  · -- find at other keys
    intro k' hk'
    exact find_other_of_set t t' hinv (probe t k) { item := (k, v), deleted := false } k'
      htab hh hlt (hnew k' hk') (hold k' hk')

end HashTable

/-! ## Removal -/

namespace HashTable

variable {K V : Type} [DecidableEq K]

/-- The pointer returned by `internalFind` is null exactly when the one returned by `find`
is, and otherwise points at the same live item. -/
theorem internalFind_eq (t : HashTable K V) (key : K) :
    internalFind t key =
      match find t key with
      | none => none
      | some it => some (probe t key, { item := it, deleted := false }) := by
  unfold internalFind find
  simp only
  by_cases hp : probe t key = npos
  · simp only [if_pos hp]
  · simp only [if_neg hp]
    have hst := (probe_stops t key hp).1
    cases hg : t.table_.getD (probe t key) none with
    | none => rfl
    | some hi =>
      rw [stopsAt_some _ _ _ hi hg] at hst
      simp only [hst, if_true]
      obtain ⟨it, d⟩ := hi
      simp only [Bool.and_eq_true, Bool.not_eq_true', decide_eq_true_eq] at hst
      simp only [hst.1]

/-- Closed form of `remove`. -/
theorem remove_eq (t : HashTable K V) (key : K) :
    remove t key =
      match find t key with
      | none => t
      | some it =>
        { t with
          table_ := t.table_.set (probe t key) (some { item := it, deleted := true })
          size_ := t.size_ - 1
          deletedCount_ := t.deletedCount_ + 1 } := by
  unfold remove
  rw [internalFind_eq]
  cases find t key with
  | none => rfl
  | some it => rfl

/-- Removing a live key: the invariant is kept, the key is no longer found, every other
key is found as before, and the counters move by one. -/
theorem Inv.remove_live {t : HashTable K V} (hinv : Inv t) (key : K) (it : K × V)
    (hf : find t key = some it) :
    Inv (remove t key) ∧ find (remove t key) key = none ∧
      (∀ k', k' ≠ key → find (remove t key) k' = find t k') ∧
      (remove t key).size_ + 1 = t.size_ ∧
      (remove t key).deletedCount_ = t.deletedCount_ + 1 ∧
      (remove t key).table_ =
        t.table_.set (probe t key) (some { item := it, deleted := true }) ∧
      (remove t key).mIndex_ = t.mIndex_ ∧ (remove t key).hash_ = t.hash_ ∧
      (remove t key).resizeAlpha_ = t.resizeAlpha_ := by
  have hT := remove_eq t key
  rw [hf] at hT
  simp only at hT
  generalize remove t key = t' at hT ⊢
  have htab : t'.table_ =
      t.table_.set (probe t key) (some { item := it, deleted := true }) := by rw [hT]
  have hsz : t'.size_ = t.size_ - 1 := by rw [hT]
  have hh : t'.hash_ = t.hash_ := by rw [hT]
  have hmi : t'.mIndex_ = t.mIndex_ := by rw [hT]
  have hdc : t'.deletedCount_ = t.deletedCount_ + 1 := by rw [hT]
  have hal : t'.resizeAlpha_ = t.resizeAlpha_ := by rw [hT]
  clear hT
  obtain ⟨hp, hlt, hslot, hkey⟩ := (find_eq_some_iff t key it).mp hf
  have hlen : t'.table_.length = t.table_.length := by rw [htab, List.length_set]
  have hcl := countP_set isLive t.table_ (probe t key)
    (some { item := it, deleted := true }) _ hslot
  have hct := countP_set isTomb t.table_ (probe t key)
    (some { item := it, deleted := true }) _ hslot
  simp [isLive] at hcl
  simp [isTomb] at hct
  have hs := hinv.size_eq
  have hd := hinv.deleted_eq
  have hnew : ∀ k' : K,
      (!(({ item := it, deleted := true } : HashItem K V)).deleted &&
        decide (({ item := it, deleted := true } : HashItem K V).item.1 = k')) = false := by
    intro k'
    simp
  have hold : ∀ k', k' ≠ key →
      t.table_.getD (probe t key) none = none ∨ stopsAt t.table_ k' (probe t key) = false := by
    intro k' hk'
    right
    rw [stopsAt_some _ _ _ _ ((getD_eq_some_iff _ _ _).mpr hslot)]
    simp [hkey, Ne.symm hk']
  have hinv' : Inv t' := by
    refine ⟨by rw [hmi]; exact hinv.mIndex_lt,
      by rw [hlen, hmi]; exact hinv.length_eq, ?_, ?_, ?_⟩
    · rw [hsz, htab]; omega
    · rw [hdc, htab]; omega
    · intro i hi hsi hdi
      rw [htab] at hsi
      by_cases hir : i = probe t key
      · subst hir
        rw [List.getElem?_set, if_pos rfl, if_pos hlt] at hsi
        simp only [Option.some.injEq] at hsi
        subst hsi
        exact Bool.noConfusion hdi
      · rw [List.getElem?_set_ne (Ne.symm hir)] at hsi
        have hpi := hinv.reach i hi hsi hdi
        have hilt : i < t.table_.length := (List.getElem?_eq_some.mp hsi).1
        have := probe_other_of_set t t' (probe t key) { item := it, deleted := true }
          hi.item.1 htab hh hlt (hnew _) (by rw [hpi]; exact hinv.lt_npos i hilt)
          (by rw [hpi]; exact hir)
        rw [this, hpi]
  refine ⟨hinv', ?_, ?_, by rw [hsz]; omega, hdc, htab, hmi, hh, hal⟩
  · -- the removed key is gone
    rw [hinv'.find_eq_none_iff]
    intro i hi hsi hdi hki
    rw [htab] at hsi
    by_cases hir : i = probe t key
    · subst hir
      rw [List.getElem?_set, if_pos rfl, if_pos hlt] at hsi
      simp only [Option.some.injEq] at hsi
      subst hsi
      exact Bool.noConfusion hdi
    · rw [List.getElem?_set_ne (Ne.symm hir)] at hsi
      have hpi := hinv.reach i hi hsi hdi
      rw [hki] at hpi
      exact hir hpi.symm
  · intro k' hk'
    exact find_other_of_set t t' hinv (probe t key) { item := it, deleted := true } k'
      htab hh hlt (hnew k') (hold k' hk')

theorem remove_absent (t : HashTable K V) (key : K) (hf : find t key = none) :
    remove t key = t := by
  rw [remove_eq, hf]

theorem Inv.remove_inv {t : HashTable K V} (hinv : Inv t) (key : K) : Inv (remove t key) := by
  cases hf : find t key with
  | none => rw [remove_absent t key hf]; exact hinv
  | some it => exact (hinv.remove_live key it hf).1

end HashTable

/-! ## Rebuilding the table (`resize`) -/

namespace HashTable

variable {K V : Type} [DecidableEq K]

/-- A table whose slots are all null, with zero counters, satisfies the invariant and
finds nothing. -/
theorem inv_of_empty (s : HashTable K V) (n : Nat) (htab : s.table_ = List.replicate n none)
    (hmi : s.mIndex_ < CAPACITIES.length) (hn : n = CAPACITIES.getD s.mIndex_ 0)
    (hsz : s.size_ = 0) (hdc : s.deletedCount_ = 0) :
    Inv s ∧ ∀ k, find s k = none := by
  have hslot : ∀ (i : Nat) (hi : HashItem K V), s.table_[i]? ≠ some (some hi) := by
    intro i hi hc
    rw [htab, List.getElem?_replicate] at hc
    split at hc <;> simp at hc
  have hinv : Inv s := by
    refine ⟨hmi, by rw [htab, List.length_replicate, hn], ?_, ?_, ?_⟩
    · rw [hsz, htab, List.countP_replicate]; rfl
    · rw [hdc, htab, List.countP_replicate]; rfl
    · intro i hi hs
      exact absurd hs (hslot i hi)
  refine ⟨hinv, fun k => ?_⟩
  rw [hinv.find_eq_none_iff]
  intro i hi hs
  exact absurd hs (hslot i hi)

theorem reinsertAll_nil (ins : HashTable K V → K × V → Option HTError × HashTable K V)
    (s : HashTable K V) : reinsertAll ins [] s = (none, s) := by
  rw [reinsertAll]

theorem reinsertAll_skip (ins : HashTable K V → K × V → Option HTError × HashTable K V)
    (x : Option (HashItem K V)) (rest : List (Option (HashItem K V))) (s : HashTable K V)
    (hx : isLive x = false) : reinsertAll ins (x :: rest) s = reinsertAll ins rest s := by
  cases x with
  | none => rw [reinsertAll]
  | some hi =>
    simp only [isLive, Bool.not_eq_false'] at hx
    rw [reinsertAll]
    simp [hx]

theorem reinsertAll_live (ins : HashTable K V → K × V → Option HTError × HashTable K V)
    (hi : HashItem K V) (rest : List (Option (HashItem K V))) (s : HashTable K V)
    (hd : hi.deleted = false) :
    reinsertAll ins (some hi :: rest) s =
      match ins s hi.item with
      | (none, t1) => reinsertAll ins rest t1
      | (some e, t1) => (some e, t1) := by
  rw [reinsertAll]
  simp [hd]

/-- The rebuild loop keeps the invariant, whether it completes or stops at an error. -/
theorem reinsertAll_inv (ins : HashTable K V → K × V → Option HTError × HashTable K V)
    (hins : ∀ s p, Inv s → Inv (ins s p).2)
    (l : List (Option (HashItem K V))) (s : HashTable K V) (hinv : Inv s) :
    Inv (reinsertAll ins l s).2 := by
  induction l generalizing s with
  | nil => rw [reinsertAll_nil]; exact hinv
  | cons x rest ih =>
    by_cases hx : isLive x = true
    · cases x with
      | none => simp [isLive] at hx
      | some hi =>
        simp only [isLive, Bool.not_eq_true'] at hx
        rw [reinsertAll_live ins hi rest s hx]
        have h1 := hins s hi.item hinv
        rcases hr : ins s hi.item with ⟨e, t1⟩
        rw [hr] at h1
        cases e with
        | none => exact ih t1 h1
        | some e => exact h1
    · rw [reinsertAll_skip ins x rest s (by simpa using hx)]
      exact ih s hinv

theorem liveKeyIn_cons_skip (x : Option (HashItem K V)) (rest : List (Option (HashItem K V)))
    (k : K) (hx : isLive x = false) : liveKeyIn (x :: rest) k ↔ liveKeyIn rest k := by
  unfold liveKeyIn
  constructor
  · rintro ⟨hi, hmem, hd, hk⟩
    rcases List.mem_cons.mp hmem with heq | hmem
    · subst heq
      simp [isLive, hd] at hx
    · exact ⟨hi, hmem, hd, hk⟩
  · rintro ⟨hi, hmem, hd, hk⟩
    exact ⟨hi, List.mem_cons_of_mem _ hmem, hd, hk⟩

theorem liveKeyIn_cons_live (hi : HashItem K V) (rest : List (Option (HashItem K V)))
    (k : K) (hd : hi.deleted = false) :
    liveKeyIn (some hi :: rest) k ↔ hi.item.1 = k ∨ liveKeyIn rest k := by
  unfold liveKeyIn
  constructor
  · rintro ⟨hj, hmem, hdj, hk⟩
    rcases List.mem_cons.mp hmem with heq | hmem
    · simp only [Option.some.injEq] at heq
      subst heq
      exact Or.inl hk
    · exact Or.inr ⟨hj, hmem, hdj, hk⟩
  · rintro (hk | ⟨hj, hmem, hdj, hk⟩)
    · exact ⟨hi, List.mem_cons_self _ _, hd, hk⟩
    · exact ⟨hj, List.mem_cons_of_mem _ hmem, hdj, hk⟩

/-- A completed rebuild loop over the slot list `l` (taken from table `t`) turns table `s`
into a table that finds the live keys of `l` as `t` did, finds every other key as `s` did,
and has grown by the number of live items of `l`. -/
theorem reinsertAll_post (ins : HashTable K V → K × V → Option HTError × HashTable K V)
    (t : HashTable K V)
    (hins : ∀ s k v s', Inv s → ins s (k, v) = (none, s') → InsertPost s s' k v)
    (l : List (Option (HashItem K V))) (s s' : HashTable K V) (hinv : Inv s)
    (hgood : ∀ hi, some hi ∈ l → hi.deleted = false → find t hi.item.1 = some hi.item)
    (hpw : l.Pairwise distinctLive)
    (hfresh : ∀ hi, some hi ∈ l → hi.deleted = false → find s hi.item.1 = none)
    (hrun : reinsertAll ins l s = (none, s')) :
    Inv s' ∧ (∀ k', liveKeyIn l k' → find s' k' = find t k') ∧
      (∀ k', ¬ liveKeyIn l k' → find s' k' = find s k') ∧
      s'.size_ = s.size_ + l.countP isLive ∧
      (s.deletedCount_ = 0 → s'.deletedCount_ = 0) ∧
      s.mIndex_ ≤ s'.mIndex_ ∧ s'.resizeAlpha_ = s.resizeAlpha_ ∧ s'.hash_ = s.hash_ := by
  induction l generalizing s with
  | nil =>
    rw [reinsertAll_nil] at hrun
    simp only [Prod.mk.injEq, true_and] at hrun
    subst hrun
    refine ⟨hinv, ?_, fun _ _ => rfl, by simp, fun h => h, Nat.le_refl _, rfl, rfl⟩
    rintro k' ⟨hi, hmem, _⟩
    simp at hmem
  | cons x rest ih =>
    by_cases hx : isLive x = true
    · cases x with
      | none => simp [isLive] at hx
      | some hi =>
        simp only [isLive, Bool.not_eq_true'] at hx
        rw [reinsertAll_live ins hi rest s hx] at hrun
        rcases hr : ins s hi.item with ⟨e, s1⟩
        rw [hr] at hrun
        cases e with
        | some e => simp at hrun
        | none =>
          simp only at hrun
          have hpost := hins s hi.item.1 hi.item.2 s1 hinv hr
          have hpw' := List.pairwise_cons.mp hpw
          have hfresh1 : ∀ hj, some hj ∈ rest → hj.deleted = false →
              find s1 hj.item.1 = none := by
            intro hj hmem hdj
            have hne : hj.item.1 ≠ hi.item.1 :=
              Ne.symm (hpw'.1 (some hj) hmem hi hj rfl rfl hx hdj)
            rw [hpost.find_other _ hne]
            exact hfresh hj (List.mem_cons_of_mem _ hmem) hdj
          obtain ⟨h1, h2, h3, h4, h5, h6, h7, h8⟩ := ih s1 hpost.inv
            (fun hj hmem hdj => hgood hj (List.mem_cons_of_mem _ hmem) hdj) hpw'.2 hfresh1 hrun
          have hfs : find s hi.item.1 = none := hfresh hi (List.mem_cons_self _ _) hx
          refine ⟨h1, ?_, ?_, ?_, ?_, Nat.le_trans hpost.mIndex_le h6,
            by rw [h7, hpost.alpha_eq], by rw [h8, hpost.hash_eq]⟩
          · intro k' hk'
            by_cases hin : liveKeyIn rest k'
            · exact h2 k' hin
            · rw [h3 k' hin]
              rcases (liveKeyIn_cons_live hi rest k' hx).mp hk' with hk | hk
              · subst hk
                rw [hpost.find_self]
                exact (hgood hi (List.mem_cons_self _ _) hx).symm
              · exact absurd hk hin
          · intro k' hk'
            rw [liveKeyIn_cons_live hi rest k' hx] at hk'
            rw [h3 k' (fun hc => hk' (Or.inr hc))]
            exact hpost.find_other k' (fun hc => hk' (Or.inl hc.symm))
          · rw [h4, hpost.size_eq, hfs]
            simp only [List.countP_cons, isLive, hx]
            simp
            omega
          · intro h0
            apply h5
            rcases hpost.deleted_eq with hd | hd
            · rw [hd, h0]
            · exact hd
    · have hx' : isLive x = false := by simpa using hx
      rw [reinsertAll_skip ins x rest s hx'] at hrun
      obtain ⟨h1, h2, h3, h4, h5, h6, h7, h8⟩ := ih s hinv
        (fun hj hmem hdj => hgood hj (List.mem_cons_of_mem _ hmem) hdj)
        (List.pairwise_cons.mp hpw).2
        (fun hj hmem hdj => hfresh hj (List.mem_cons_of_mem _ hmem) hdj) hrun
      refine ⟨h1, ?_, ?_, ?_, h5, h6, h7, h8⟩
      · intro k' hk'
        exact h2 k' ((liveKeyIn_cons_skip x rest k' hx').mp hk')
      · intro k' hk'
        exact h3 k' (fun hc => hk' ((liveKeyIn_cons_skip x rest k' hx').mpr hc))
      · rw [h4, List.countP_cons, hx']
        simp

end HashTable

namespace HashTable

variable {K V : Type} [DecidableEq K]

theorem Inv.mem_slot {t : HashTable K V} (hinv : Inv t) (hi : HashItem K V)
    (hmem : some hi ∈ t.table_) (hd : hi.deleted = false) :
    find t hi.item.1 = some hi.item := by
  obtain ⟨i, hs⟩ := List.getElem?_of_mem hmem
  exact hinv.find_of_slot i hi hs hd

/-- Under the invariant, live items in different slots carry different keys. -/
theorem Inv.pairwise_distinct {t : HashTable K V} (hinv : Inv t) :
    t.table_.Pairwise distinctLive := by
  rw [List.pairwise_iff_getElem]
  intro i j hi hj hij ha hb hea heb hda hdb hkey
  have h1 := hinv.reach i ha (by rw [List.getElem?_eq_getElem hi, hea]) hda
  have h2 := hinv.reach j hb (by rw [List.getElem?_eq_getElem hj, heb]) hdb
  rw [hkey, h2] at h1
  omega

theorem Inv.liveKeyIn_iff {t : HashTable K V} (hinv : Inv t) (k : K) :
    liveKeyIn t.table_ k ↔ (find t k).isSome = true := by
  constructor
  · rintro ⟨hi, hmem, hd, hk⟩
    have := hinv.mem_slot hi hmem hd
    rw [hk] at this
    rw [this]
    rfl
  · intro hsome
    cases hf : find t k with
    | none => rw [hf] at hsome; exact Bool.noConfusion hsome
    | some it =>
      obtain ⟨_, _, hslot, hkey⟩ := (find_eq_some_iff t k it).mp hf
      exact ⟨_, List.mem_iff_getElem?.mpr ⟨_, hslot⟩, rfl, hkey⟩

theorem resizeWith_inv (ins : HashTable K V → K × V → Option HTError × HashTable K V)
    (hins : ∀ s p, Inv s → Inv (ins s p).2) (t : HashTable K V) (hinv : Inv t) :
    Inv (resizeWith ins t).2 := by
  unfold resizeWith
  split
  · exact hinv
  · rename_i hg
    apply reinsertAll_inv ins hins
    exact (inv_of_empty _ _ rfl (by simp only; omega) rfl rfl rfl).1

/-- A completed `resize()` moves up the ladder, keeps every `find` result and the live
count, and leaves no tombstone. -/
theorem Inv.resizeWith_post {t : HashTable K V} (hinv : Inv t)
    (ins : HashTable K V → K × V → Option HTError × HashTable K V)
    (hins : ∀ s k v s', Inv s → ins s (k, v) = (none, s') → InsertPost s s' k v)
    (t1 : HashTable K V) (hrun : resizeWith ins t = (none, t1)) :
    Inv t1 ∧ (∀ k, find t1 k = find t k) ∧ t1.size_ = t.size_ ∧ t1.deletedCount_ = 0 ∧
      t.mIndex_ + 1 ≤ t1.mIndex_ ∧ t1.resizeAlpha_ = t.resizeAlpha_ ∧ t1.hash_ = t.hash_ := by
  unfold resizeWith at hrun
  split at hrun
  · simp at hrun
  · rename_i hg
    obtain ⟨hinv0, hfind0⟩ := inv_of_empty
      ({ t with
        mIndex_ := t.mIndex_ + 1
        table_ := List.replicate (CAPACITIES.getD (t.mIndex_ + 1) 0) none
        size_ := 0
        deletedCount_ := 0 } : HashTable K V) _ rfl (by simp only; omega) rfl rfl rfl
    obtain ⟨h1, h2, h3, h4, h5, h6, h7, h8⟩ := reinsertAll_post ins t hins t.table_ _ t1 hinv0
      (fun hi hmem hd => hinv.mem_slot hi hmem hd) hinv.pairwise_distinct
      (fun hi _ _ => hfind0 _) hrun
    refine ⟨h1, ?_, ?_, h5 rfl, h6, h7, h8⟩
    · intro k
      by_cases hk : liveKeyIn t.table_ k
      · exact h2 k hk
      · rw [h3 k hk, hfind0]
        cases hf : find t k with
        | none => rfl
        | some it =>
          exact absurd ((hinv.liveKeyIn_iff k).mpr (by rw [hf]; rfl)) hk
    · rw [h4, hinv.size_eq]
      simp

theorem Inv.place_inv {t : HashTable K V} (hinv : Inv t) (p : K × V) : Inv (place t p).2 := by
  rw [place_eq]
  split
  · exact hinv
  · rename_i hp
    exact (hinv.placeAt_post p.1 p.2 hp).1.inv

theorem Inv.place_post {t : HashTable K V} (hinv : Inv t) (k : K) (v : V) (t' : HashTable K V)
    (hrun : place t (k, v) = (none, t')) :
    InsertPost t t' k v ∧ t'.mIndex_ = t.mIndex_ ∧ t'.deletedCount_ = t.deletedCount_ ∧
      t'.table_ = t.table_.set (probe t k) (some { item := (k, v), deleted := false }) := by
  rw [place_eq] at hrun
  split at hrun
  · simp at hrun
  · rename_i hp
    simp only [Prod.mk.injEq, true_and] at hrun
    subst hrun
    exact hinv.placeAt_post k v hp

theorem insertF_succ (n : Nat) (t : HashTable K V) (p : K × V) :
    insertF (n + 1) t p =
      match (if t.resizeAlpha_ ≤ load t then resizeWith (insertF n) t else (none, t)) with
      | (some e, t1) => (some e, t1)
      | (none, t1) => place t1 p := by
  rw [insertF]

/-- `insert` keeps the invariant, whether it returns or throws. -/
theorem insertF_inv (n : Nat) (t : HashTable K V) (p : K × V) (hinv : Inv t) :
    Inv (insertF n t p).2 := by
  induction n generalizing t p with
  | zero => rw [insertF]; exact hinv
  | succ n ih =>
    rw [insertF_succ]
    by_cases hl : t.resizeAlpha_ ≤ load t
    · rw [if_pos hl]
      have h1 := resizeWith_inv (insertF n) (fun s q hs => ih s q hs) t hinv
      rcases hr : resizeWith (insertF n) t with ⟨e, t1⟩
      rw [hr] at h1
      cases e with
      | some e => exact h1
      | none => exact Inv.place_inv h1 p
    · rw [if_neg hl]
      exact hinv.place_inv p

/-- Effect of a returning `insert`, with or without a `resize()`. -/
theorem insertF_post (n : Nat) (t : HashTable K V) (k : K) (v : V) (t' : HashTable K V)
    (hinv : Inv t) (hrun : insertF n t (k, v) = (none, t')) : InsertPost t t' k v := by
  induction n generalizing t k v t' with
  | zero => rw [insertF] at hrun; simp at hrun
  | succ n ih =>
    rw [insertF_succ] at hrun
    by_cases hl : t.resizeAlpha_ ≤ load t
    · rw [if_pos hl] at hrun
      rcases hr : resizeWith (insertF n) t with ⟨e, t1⟩
      rw [hr] at hrun
      cases e with
      | some e => simp at hrun
      | none =>
        simp only at hrun
        obtain ⟨h1, h2, h3, h4, h5, h6, h7⟩ := hinv.resizeWith_post (insertF n)
          (fun s k v s' hs hrun' => ih s k v s' hs hrun') t1 hr
        obtain ⟨hpost, hmi, hdc, _⟩ := h1.place_post k v t' hrun
        refine ⟨hpost.inv, hpost.find_self, ?_, ?_, Or.inr (by rw [hdc, h4]), by omega,
          by rw [hpost.alpha_eq, h6], by rw [hpost.hash_eq, h7]⟩
        · intro k' hk'
          rw [hpost.find_other k' hk', h2]
        · rw [hpost.size_eq, h2, h3]
    · rw [if_neg hl] at hrun
      exact (hinv.place_post k v t' hrun).1

theorem inv_init (alpha : Frac) (h : K → Nat) : Inv (HashTable.init alpha h : HashTable K V) :=
  (inv_of_empty _ _ rfl (show 0 < CAPACITIES.length by decide) rfl rfl rfl).1

/-- Every reachable table satisfies the representation invariant, with the threshold and
hash functor it was constructed with. -/
theorem Reachable.inv {alpha : Frac} {h : K → Nat} {t : HashTable K V}
    (hr : Reachable alpha h t) : Inv t := by
  induction hr with
  | init => exact inv_init alpha h
  | insert t p _ ih => exact insertF_inv _ t p ih
  | remove t k _ ih => exact ih.remove_inv k

end HashTable

/-! ## When `insert` returns -/

theorem capacities_mono_aux :
    ∀ i, i < 27 → CAPACITIES.getD i 0 < CAPACITIES.getD (i + 1) 0 := by
  decide

theorem capacities_mono (i : Nat) (h : i + 1 < CAPACITIES.length) :
    CAPACITIES.getD i 0 < CAPACITIES.getD (i + 1) 0 := by
  have hlen : CAPACITIES.length = 28 := by decide
  exact capacities_mono_aux i (by omega)

namespace HashTable

variable {K V : Type} [DecidableEq K]

theorem Inv.count_le {t : HashTable K V} (hinv : Inv t) :
    t.size_ + t.deletedCount_ ≤ t.table_.length := by
  have := count_slots t.table_
  rw [← hinv.size_eq, ← hinv.deleted_eq] at this
  omega

/-- With a free slot, the walk of `insert` returns normally. -/
theorem Inv.place_ok {t : HashTable K V} (hinv : Inv t) (k : K) (v : V)
    (hfree : t.size_ + t.deletedCount_ < t.table_.length) :
    ∃ t', place t (k, v) = (none, t') ∧ InsertPost t t' k v ∧ t'.mIndex_ = t.mIndex_ ∧
      t'.deletedCount_ = t.deletedCount_ ∧
      t'.table_ = t.table_.set (probe t k) (some { item := (k, v), deleted := false }) := by
  have hp := hinv.probe_ne_npos k hfree
  refine ⟨placeAt t (k, v) (probe t k), ?_, hinv.placeAt_post k v hp⟩
  rw [place_eq, if_neg hp]

theorem insertF_no_resize (n : Nat) (t : HashTable K V) (p : K × V)
    (hl : ¬ t.resizeAlpha_ ≤ load t) : insertF (n + 1) t p = place t p := by
  rw [insertF_succ, if_neg hl]

/-- The rebuild loop completes without a nested `resize()` when the load stays below the
threshold for every count it passes through. -/
theorem reinsertAll_no_resize (n : Nat) (l : List (Option (HashItem K V)))
    (s : HashTable K V) (hinv : Inv s) (hdc : s.deletedCount_ = 0)
    (hload : ∀ j : Nat, j < s.size_ + l.countP isLive →
      ¬ s.resizeAlpha_ ≤ ({ num := (j : Int), den := s.table_.length } : Frac))
    (hroom : s.size_ + l.countP isLive ≤ s.table_.length) :
    ∃ s', reinsertAll (insertF (n + 1)) l s = (none, s') ∧ s'.mIndex_ = s.mIndex_ ∧
      s'.table_.length = s.table_.length := by
  induction l generalizing s with
  | nil => exact ⟨s, reinsertAll_nil _ s, rfl, rfl⟩
  | cons x rest ih =>
    by_cases hx : isLive x = true
    · cases x with
      | none => simp [isLive] at hx
      | some hi =>
        have hcnt : (some hi :: rest).countP isLive = rest.countP isLive + 1 := by
          rw [List.countP_cons, hx]; rfl
        rw [hcnt] at hload hroom
        simp only [isLive, Bool.not_eq_true'] at hx
        have hl : ¬ s.resizeAlpha_ ≤ load s := by
          have := hload s.size_ (by omega)
          unfold load
          rw [hdc]
          exact this
        obtain ⟨s1, hrun, hpost, hmi, hdc1, htab⟩ :=
          hinv.place_ok hi.item.1 hi.item.2 (by omega)
        have hlen : s1.table_.length = s.table_.length := by rw [htab, List.length_set]
        have hsz : s1.size_ ≤ s.size_ + 1 := by
          rw [hpost.size_eq]; split <;> omega
        obtain ⟨s', h1, h2, h3⟩ := ih s1 hpost.inv (by rw [hdc1, hdc])
          (by
            intro j hj
            rw [hpost.alpha_eq, hlen]
            exact hload j (by omega))
          (by rw [hlen]; omega)
        refine ⟨s', ?_, by rw [h2, hmi], by rw [h3, hlen]⟩
        rw [reinsertAll_live _ hi rest s hx, insertF_no_resize n s hi.item hl]
        have : place s hi.item = (none, s1) := hrun
        rw [this]
        exact h1
    · have hx' : isLive x = false := by simpa using hx
      have hcnt : (x :: rest).countP isLive = rest.countP isLive := by
        rw [List.countP_cons, hx']; rfl
      rw [hcnt] at hload hroom
      obtain ⟨s', h1, h2, h3⟩ := ih s hinv hdc hload hroom
      exact ⟨s', by rw [reinsertAll_skip _ x rest s hx']; exact h1, h2, h3⟩

/-- A `resize()` one step up the ladder completes, without nesting, when the new capacity
keeps the load of the re-inserted items below the threshold. -/
theorem Inv.resize_no_nest {t : HashTable K V} (hinv : Inv t) (n : Nat)
    (hg : t.mIndex_ + 1 < CAPACITIES.length)
    (hload : ∀ j : Nat, j < t.size_ →
      ¬ t.resizeAlpha_ ≤ ({ num := (j : Int), den := CAPACITIES.getD (t.mIndex_ + 1) 0 } : Frac)) :
    ∃ t1, resizeWith (insertF (n + 1)) t = (none, t1) ∧ t1.mIndex_ = t.mIndex_ + 1 ∧
      t1.table_.length = CAPACITIES.getD (t.mIndex_ + 1) 0 := by
  have hroom : t.size_ ≤ CAPACITIES.getD (t.mIndex_ + 1) 0 := by
    have h1 := hinv.count_le
    have h2 := capacities_mono t.mIndex_ hg
    rw [hinv.length_eq] at h1
    omega
  obtain ⟨hinv0, _⟩ := inv_of_empty
    ({ t with
      mIndex_ := t.mIndex_ + 1
      table_ := List.replicate (CAPACITIES.getD (t.mIndex_ + 1) 0) none
      size_ := 0
      deletedCount_ := 0 } : HashTable K V) _ rfl hg rfl rfl rfl
  obtain ⟨t1, h1, h2, h3⟩ := reinsertAll_no_resize n t.table_ _ hinv0 rfl
    (by
      intro j hj
      simp only [List.length_replicate]
      simp only [Nat.zero_add, ← hinv.size_eq] at hj
      exact hload j hj)
    (by
      simp only [List.length_replicate, Nat.zero_add, ← hinv.size_eq]
      exact hroom)
  refine ⟨t1, ?_, h2, by rw [h3]; simp only [List.length_replicate]⟩
  unfold resizeWith
  rw [if_neg (by omega)]
  exact h1

/-- An `insert` below the threshold returns when the table has a free slot; it keeps
capacity and tombstone count. -/
theorem Inv.insert_ok_no_resize {t : HashTable K V} (hinv : Inv t) (k : K) (v : V)
    (hl : ¬ t.resizeAlpha_ ≤ load t)
    (hfree : t.size_ + t.deletedCount_ < t.table_.length) :
    ∃ t', insert t (k, v) = (none, t') ∧ InsertPost t t' k v ∧ t'.mIndex_ = t.mIndex_ ∧
      t'.deletedCount_ = t.deletedCount_ ∧
      t'.table_ = t.table_.set (probe t k) (some { item := (k, v), deleted := false }) := by
  obtain ⟨t', h1, h2⟩ := hinv.place_ok k v hfree
  refine ⟨t', ?_, h2⟩
  unfold insert
  rw [show CAPACITIES.length = 27 + 1 by decide, insertF_no_resize 27 t (k, v) hl]
  exact h1

/-- An `insert` at or above the threshold returns after exactly one ladder step when the
next capacity keeps the load of the re-inserted items below the threshold. -/
theorem Inv.insert_ok_resize {t : HashTable K V} (hinv : Inv t) (k : K) (v : V)
    (hl : t.resizeAlpha_ ≤ load t) (hg : t.mIndex_ + 1 < CAPACITIES.length)
    (hload : ∀ j : Nat, j < t.size_ →
      ¬ t.resizeAlpha_ ≤ ({ num := (j : Int), den := CAPACITIES.getD (t.mIndex_ + 1) 0 } : Frac)) :
    ∃ t', insert t (k, v) = (none, t') ∧ InsertPost t t' k v ∧ t'.mIndex_ = t.mIndex_ + 1 ∧
      t'.deletedCount_ = 0 ∧ t'.table_.length = CAPACITIES.getD (t.mIndex_ + 1) 0 := by
  obtain ⟨t1, hrun1, hmi1, hlen1⟩ := hinv.resize_no_nest 26 hg hload
  obtain ⟨hinv1, hfind1, hsz1, hdc1, _, hal1, hh1⟩ := hinv.resizeWith_post (insertF 27)
    (fun s k v s' hs hrun' => insertF_post 27 s k v s' hs hrun') t1 hrun1
  have hfree : t1.size_ + t1.deletedCount_ < t1.table_.length := by
    have h1 := hinv.count_le
    have h2 := capacities_mono t.mIndex_ hg
    rw [hinv.length_eq] at h1
    rw [hsz1, hdc1, hlen1]
    omega
  obtain ⟨t', hrun, hpost, hmi, hdc, htab⟩ := hinv1.place_ok k v hfree
  have hins : insert t (k, v) = (none, t') := by
    unfold insert
    rw [show CAPACITIES.length = 27 + 1 by decide, insertF_succ, if_pos hl, hrun1]
    exact hrun
  refine ⟨t', hins, ?_, by rw [hmi, hmi1], by rw [hdc, hdc1],
    by rw [htab, List.length_set, hlen1]⟩
  exact insertF_post _ t k v t' hinv hins

end HashTable

/-! ## The nesting budget of `insert` is never used up -/

namespace HashTable

variable {K V : Type} [DecidableEq K]

theorem place_budget (t : HashTable K V) (p : K × V) :
    (place t p).1 ≠ some HTError.recursionBudget := by
  rw [place_eq]
  split <;> simp

theorem reinsertAll_budget (ins : HashTable K V → K × V → Option HTError × HashTable K V)
    (m0 : Nat)
    (hb : ∀ s p, Inv s → m0 ≤ s.mIndex_ → (ins s p).1 ≠ some HTError.recursionBudget)
    (hins : ∀ s k v s', Inv s → ins s (k, v) = (none, s') → InsertPost s s' k v)
    (l : List (Option (HashItem K V))) (s : HashTable K V) (hinv : Inv s)
    (hm : m0 ≤ s.mIndex_) :
    (reinsertAll ins l s).1 ≠ some HTError.recursionBudget := by
  induction l generalizing s with
  | nil => rw [reinsertAll_nil]; simp
  | cons x rest ih =>
    by_cases hx : isLive x = true
    · cases x with
      | none => simp [isLive] at hx
      | some hi =>
        simp only [isLive, Bool.not_eq_true'] at hx
        rw [reinsertAll_live ins hi rest s hx]
        have h1 := hb s hi.item hinv hm
        rcases hr : ins s hi.item with ⟨e, s1⟩
        rw [hr] at h1
        cases e with
        | some e => exact h1
        | none =>
          have hpost := hins s hi.item.1 hi.item.2 s1 hinv hr
          exact ih s1 hpost.inv (Nat.le_trans hm hpost.mIndex_le)
    · rw [reinsertAll_skip ins x rest s (by simpa using hx)]
      exact ih s hinv hm

theorem insertF_budget (n : Nat) (t : HashTable K V) (p : K × V) (hinv : Inv t)
    (h1 : 1 ≤ n) (h2 : CAPACITIES.length ≤ n + t.mIndex_) :
    (insertF n t p).1 ≠ some HTError.recursionBudget := by
  induction n generalizing t p with
  | zero => omega
  | succ n ih =>
    rw [insertF_succ]
    by_cases hl : t.resizeAlpha_ ≤ load t
    · rw [if_pos hl]
      have hres : (resizeWith (insertF n) t).1 ≠ some HTError.recursionBudget := by
        unfold resizeWith
        split
        · simp
        · rename_i hg
          apply reinsertAll_budget (insertF n) (t.mIndex_ + 1)
          · intro s q hs hm
            exact ih s q hs (by omega) (by omega)
          · intro s k v s' hs hrun
            exact insertF_post n s k v s' hs hrun
          · exact (inv_of_empty _ _ rfl (by simp only; omega) rfl rfl rfl).1
          · exact Nat.le_refl _
      have hinv1 := resizeWith_inv (insertF n) (fun s q hs => insertF_inv n s q hs) t hinv
      rcases hr : resizeWith (insertF n) t with ⟨e, t1⟩
      rw [hr] at hres hinv1
      cases e with
      | some e => exact hres
      | none => exact place_budget t1 p
    · rw [if_neg hl]
      exact place_budget t p

/-- The model's nesting bound is never what stops `insert`: each outcome of `insert` is a
normal return or one of the two C++ exceptions. -/
theorem insert_budget (t : HashTable K V) (p : K × V) (hinv : Inv t) :
    (insert t p).1 ≠ some HTError.recursionBudget :=
  insertF_budget _ t p hinv (by decide) (Nat.le_add_right _ _)

theorem insert_post (t : HashTable K V) (k : K) (v : V) (hinv : Inv t)
    (hok : (insert t (k, v)).1 = none) : InsertPost t (insert t (k, v)).2 k v := by
  apply insertF_post CAPACITIES.length t k v _ hinv
  unfold insert at hok ⊢
  rw [← hok]

/-- A returning `insert` that ran `resize()` leaves no tombstone and a larger ladder index. -/
theorem insert_resized (t : HashTable K V) (k : K) (v : V) (hinv : Inv t)
    (hl : t.resizeAlpha_ ≤ load t) (hok : (insert t (k, v)).1 = none) :
    (insert t (k, v)).2.deletedCount_ = 0 ∧ t.mIndex_ < (insert t (k, v)).2.mIndex_ := by
  unfold insert at hok ⊢
  rw [show CAPACITIES.length = 27 + 1 by decide] at hok ⊢
  rw [insertF_succ, if_pos hl] at hok ⊢
  rcases hr : resizeWith (insertF 27) t with ⟨e, t1⟩
  rw [hr] at hok
  cases e with
  | some e => simp at hok
  | none =>
    simp only at hok ⊢
    obtain ⟨h1, _, _, h4, h5, _, _⟩ := hinv.resizeWith_post (insertF 27)
      (fun s k v s' hs hrun' => insertF_post 27 s k v s' hs hrun') t1 hr
    obtain ⟨_, hmi, hdc, _⟩ := h1.place_post k v (place t1 (k, v)).2 (by rw [← hok])
    rw [hdc, hmi, h4]
    exact ⟨rfl, by omega⟩

end HashTable

/-! ## Claims -/

/-- C1: in every table state reachable from a freshly constructed table by `insert` and
`remove` calls, whenever `insert((k, v))` returns without throwing, an immediately following
`find(k)` returns a non-null item whose value is `v` (with or without a `resize()`, and
whether or not `k` was removed before). -/
theorem C1_insert_then_find {K V : Type} [DecidableEq K] (alpha : Frac) (h : K → Nat)
    (t : HashTable K V) (hr : HashTable.Reachable alpha h t) (k : K) (v : V)
    (hok : (HashTable.insert t (k, v)).1 = none) :
    ∃ it, HashTable.find (HashTable.insert t (k, v)).2 k = some it ∧ it.2 = v :=
  ⟨(k, v), (HashTable.insert_post t k v hr.inv hok).find_self, rfl⟩

/-- C1 witness: inserting `(3, 4)` into a fresh table (threshold 2/5, identity hash). -/
theorem C1_insert_then_find_witness :
    (HashTable.insert (HashTable.init ⟨2, 5⟩ (fun k : Nat => k) : HashTable Nat Nat) (3, 4)).1
        = none ∧
    ∃ it, HashTable.find
      (HashTable.insert (HashTable.init ⟨2, 5⟩ (fun k : Nat => k) : HashTable Nat Nat)
        (3, 4)).2 3 = some it ∧ it.2 = 4 :=
  ⟨by decide, C1_insert_then_find ⟨2, 5⟩ (fun k : Nat => k) _ HashTable.Reachable.init 3 4
    (by decide)⟩

/-- C2 (upsert): in every reachable table state in which `k` is live, an `insert((k, v2))`
that does not trigger a `resize()` returns normally, leaves `size_` and `deletedCount_`
unchanged, rewrites only the slot that already held `k` (so every live slot holding `k`
afterwards is that one slot), and makes `find(k)` return `v2`. -/
theorem C2_upsert {K V : Type} [DecidableEq K] (alpha : Frac) (h : K → Nat)
    (t : HashTable K V) (hr : HashTable.Reachable alpha h t) (k : K) (v2 : V)
    (hlive : (HashTable.find t k).isSome = true)
    (hnr : ¬ t.resizeAlpha_ ≤ HashTable.load t) :
    (HashTable.insert t (k, v2)).1 = none ∧
    (HashTable.insert t (k, v2)).2.size_ = t.size_ ∧
    (HashTable.insert t (k, v2)).2.deletedCount_ = t.deletedCount_ ∧
    (∃ v1, t.table_[HashTable.probe t k]? = some (some { item := (k, v1), deleted := false })) ∧
    (HashTable.insert t (k, v2)).2.table_ =
      t.table_.set (HashTable.probe t k) (some { item := (k, v2), deleted := false }) ∧
    (∀ (i : Nat) (hi : HashItem K V),
      (HashTable.insert t (k, v2)).2.table_[i]? = some (some hi) → hi.deleted = false →
      hi.item.1 = k → i = HashTable.probe t k) ∧
    HashTable.find (HashTable.insert t (k, v2)).2 k = some (k, v2) := by
  have hinv := hr.inv
  cases hf : HashTable.find t k with
  | none => rw [hf] at hlive; exact Bool.noConfusion hlive
  | some it =>
    obtain ⟨hp, hlt, hslot, hkey⟩ := (HashTable.find_eq_some_iff t k it).mp hf
    have hrun : HashTable.insert t (k, v2) =
        (none, HashTable.placeAt t (k, v2) (HashTable.probe t k)) := by
      unfold HashTable.insert
      rw [show CAPACITIES.length = 27 + 1 by decide, HashTable.insertF_no_resize 27 t _ hnr,
        HashTable.place_eq, if_neg hp]
    obtain ⟨hpost, _, hdc, htab⟩ := hinv.placeAt_post k v2 hp
    rw [hrun]
    simp only
    refine ⟨trivial, ?_, hdc, ⟨it.2, ?_⟩, htab, ?_, hpost.find_self⟩
    · rw [hpost.size_eq, hf]; rfl
    · rw [hslot]
      obtain ⟨k0, v0⟩ := it
      simp only at hkey
      subst hkey
      rfl
    · intro i hi hs hd hk
      have h1 := hpost.inv.reach i hi hs hd
      have h2 := hpost.inv.reach (HashTable.probe t k) { item := (k, v2), deleted := false }
        (by rw [htab, List.getElem?_set, if_pos rfl, if_pos hlt]) rfl
      rw [hk] at h1
      rw [← h1]
      exact h2

/-- C2 witness: key 3 is live after `insert((3, 4))` into a fresh table; then
`insert((3, 9))` runs below the threshold 2/5. -/
theorem C2_upsert_witness :
    ((HashTable.find (HashTable.insert
        (HashTable.init ⟨2, 5⟩ (fun k : Nat => k) : HashTable Nat Nat) (3, 4)).2 3).isSome = true ∧
      ¬ (HashTable.insert
        (HashTable.init ⟨2, 5⟩ (fun k : Nat => k) : HashTable Nat Nat) (3, 4)).2.resizeAlpha_ ≤
        HashTable.load (HashTable.insert
          (HashTable.init ⟨2, 5⟩ (fun k : Nat => k) : HashTable Nat Nat) (3, 4)).2) ∧
    HashTable.find (HashTable.insert (HashTable.insert
        (HashTable.init ⟨2, 5⟩ (fun k : Nat => k) : HashTable Nat Nat) (3, 4)).2 (3, 9)).2 3 =
      some (3, 9) :=
  ⟨⟨by decide, by decide⟩,
    (C2_upsert ⟨2, 5⟩ (fun k : Nat => k) _
      (HashTable.Reachable.insert _ (3, 4) HashTable.Reachable.init) 3 9
      (by decide) (by decide)).2.2.2.2.2.2⟩

/-- C7: `at(k)` (and `operator[](k)`, which forwards to it) throws `std::out_of_range`
exactly when `find(k)` returns null, and that is its only exception; when `find(k)` is
non-null, `at(k)` returns the value of the item `find(k)` points to. `find` and `at` are
functions of the table state alone: `find` has no error outcome and neither writes a slot
or a counter, so a missing key is never inserted. -/
theorem C7_at_iff_find {K V : Type} [DecidableEq K] (t : HashTable K V) (k : K) :
    (HashTable.at_ t k = Except.error HTError.badKey ↔ HashTable.find t k = none) ∧
    (∀ it, HashTable.find t k = some it → HashTable.at_ t k = Except.ok it.2) ∧
    (∀ e, HashTable.at_ t k = Except.error e → e = HTError.badKey) ∧
    HashTable.index t k = HashTable.at_ t k := by
  have hat : HashTable.at_ t k =
      match HashTable.find t k with
      | none => Except.error HTError.badKey
      | some it => Except.ok it.2 := by
    unfold HashTable.at_
    rw [HashTable.internalFind_eq]
    cases HashTable.find t k <;> rfl
  refine ⟨?_, ?_, ?_, rfl⟩
  · rw [hat]
    cases HashTable.find t k with
    | none => exact ⟨fun _ => rfl, fun _ => rfl⟩
    | some it =>
      refine ⟨fun hc => ?_, fun hc => Option.noConfusion hc⟩
      simp only at hc
      exact Except.noConfusion hc
  · intro it hit
    rw [hat, hit]
  · intro e he
    rw [hat] at he
    cases hf : HashTable.find t k with
    | none =>
      rw [hf] at he
      simp only at he
      injection he with he
      exact he.symm
    | some it =>
      rw [hf] at he
      simp only at he
      exact Except.noConfusion he

/-- C8: in every table state at the last ladder entry (`mIndex_ = 27`) whose load is at or
above the threshold, `insert((k, v))` throws `"No more capacity"` and leaves the whole
table state (slot array, `size_`, `deletedCount_`, `mIndex_`) exactly as it was. -/
theorem C8_capacity_exhausted {K V : Type} [DecidableEq K] (t : HashTable K V) (k : K) (v : V)
    (hlast : t.mIndex_ = 27) (hload : t.resizeAlpha_ ≤ HashTable.load t) :
    HashTable.insert t (k, v) = (some HTError.noMoreCapacity, t) := by
  unfold HashTable.insert
  rw [show CAPACITIES.length = 27 + 1 by decide, HashTable.insertF_succ, if_pos hload]
  unfold HashTable.resizeWith
  rw [if_pos (by rw [hlast]; decide)]

/-- C8 witness: a table at capacity 1685759167 whose slots are all tombstones. -/
theorem C8_capacity_exhausted_witness :
    (({ table_ := List.replicate 1685759167 (some { item := (0, 0), deleted := true })
        resizeAlpha_ := ⟨2, 5⟩
        hash_ := fun k => k
        mIndex_ := 27
        size_ := 0
        deletedCount_ := 1685759167 } : HashTable Nat Nat).mIndex_ = 27) ∧
    HashTable.insert
      ({ table_ := List.replicate 1685759167 (some { item := (0, 0), deleted := true })
         resizeAlpha_ := ⟨2, 5⟩
         hash_ := fun k => k
         mIndex_ := 27
         size_ := 0
         deletedCount_ := 1685759167 } : HashTable Nat Nat) (1, 1) =
      (some HTError.noMoreCapacity,
        { table_ := List.replicate 1685759167 (some { item := (0, 0), deleted := true })
          resizeAlpha_ := ⟨2, 5⟩
          hash_ := fun k => k
          mIndex_ := 27
          size_ := 0
          deletedCount_ := 1685759167 }) :=
  ⟨rfl, C8_capacity_exhausted _ 1 1 rfl (by
    show (2 : Int) * ((List.replicate 1685759167
      (some ({ item := (0, 0), deleted := true } : HashItem Nat Nat))).length : Int) ≤
      ((0 + 1685759167 : Nat) : Int) * ((5 : Nat) : Int)
    rw [List.length_replicate]
    decide)⟩

/-- C9 (as stated, refuted): the constructor completes for the threshold `alpha = 2 > 1`
and for `alpha = 0`, yielding tables that store these thresholds. -/
theorem C9_counterexample :
    (HashTable.construct ⟨2, 1⟩ (fun k : Nat => k) : Except HTError (HashTable Nat Nat)) =
      Except.ok (HashTable.init ⟨2, 1⟩ (fun k : Nat => k)) ∧
    (HashTable.init ⟨2, 1⟩ (fun k : Nat => k) : HashTable Nat Nat).resizeAlpha_ = ⟨2, 1⟩ ∧
    (⟨1, 1⟩ : Frac) < ⟨2, 1⟩ ∧
    (HashTable.construct ⟨0, 1⟩ (fun k : Nat => k) : Except HTError (HashTable Nat Nat)) =
      Except.ok (HashTable.init ⟨0, 1⟩ (fun k : Nat => k)) ∧
    (⟨0, 1⟩ : Frac) ≤ ⟨0, 1⟩ :=
  ⟨rfl, rfl, by decide, rfl, by decide⟩

/-- C9 (amended): constructing a `HashTable` completes for every threshold `alpha`,
inside or outside `(0, 1]`: the result is an empty table of capacity 11 (ladder index 0)
that stores `alpha` unchecked. -/
theorem C9_constructor_never_fails {K V : Type} (alpha : Frac) (h : K → Nat) :
    ∃ t : HashTable K V, HashTable.construct alpha h = Except.ok t ∧
      t.resizeAlpha_ = alpha ∧ t.table_ = List.replicate 11 none ∧ t.mIndex_ = 0 ∧
      t.size_ = 0 ∧ t.deletedCount_ = 0 :=
  ⟨HashTable.init alpha h, rfl, rfl, rfl, rfl, rfl, rfl⟩

namespace HashTable

variable {K V : Type} [DecidableEq K]

theorem insertMany_cons_ok (t t1 : HashTable K V) (p : K × V) (ps : List (K × V))
    (h : insert t p = (none, t1)) : insertMany t (p :: ps) = insertMany t1 ps := by
  rw [insertMany, h]

theorem insertMany_append_ok (t t1 : HashTable K V) (ps qs : List (K × V))
    (h : insertMany t ps = (none, t1)) : insertMany t (ps ++ qs) = insertMany t1 qs := by
  induction ps generalizing t with
  | nil =>
    rw [insertMany] at h
    simp only [Prod.mk.injEq, true_and] at h
    subst h
    rfl
  | cons p ps ih =>
    rw [insertMany] at h
    rw [List.cons_append, insertMany]
    rcases hr : insert t p with ⟨e, t2⟩
    rw [hr] at h
    cases e with
    | some e => simp at h
    | none => exact ih t2 h

theorem Reachable.of_insertMany {alpha : Frac} {h : K → Nat} {t : HashTable K V}
    (hr : Reachable alpha h t) (ps : List (K × V)) :
    Reachable alpha h (HashTable.insertMany t ps).2 := by
  induction ps generalizing t with
  | nil => exact hr
  | cons p ps ih =>
    rw [HashTable.insertMany]
    have h1 := Reachable.insert t p hr
    rcases hrun : HashTable.insert t p with ⟨e, t1⟩
    rw [hrun] at h1
    cases e with
    | some e => exact h1
    | none => exact ih h1

/-- With the default threshold 2/5 at capacity 11, inserting fresh pairwise distinct keys
up to a total of five entries never resizes and never throws. -/
theorem insertMany_small (t : HashTable K V) (ps : List (K × V)) (hinv : Inv t)
    (hal : t.resizeAlpha_ = ⟨2, 5⟩) (hmi : t.mIndex_ = 0) (hdc : t.deletedCount_ = 0)
    (hsz : t.size_ + ps.length ≤ 5) (hnd : (ps.map Prod.fst).Nodup)
    (hfresh : ∀ p ∈ ps, find t p.1 = none) :
    ∃ t', insertMany t ps = (none, t') ∧ Inv t' ∧ t'.resizeAlpha_ = ⟨2, 5⟩ ∧ t'.mIndex_ = 0 ∧
      t'.deletedCount_ = 0 ∧ t'.size_ = t.size_ + ps.length ∧
      (∀ k, k ∉ ps.map Prod.fst → find t' k = find t k) := by
  induction ps generalizing t with
  | nil => exact ⟨t, rfl, hinv, hal, hmi, hdc, rfl, fun _ _ => rfl⟩
  | cons p ps ih =>
    obtain ⟨k, v⟩ := p
    have hlen : t.table_.length = 11 := by rw [hinv.length_eq, hmi]; rfl
    simp only [List.length_cons] at hsz
    have hl : ¬ t.resizeAlpha_ ≤ load t := by
      rw [hal]
      show ¬ ((2 : Int) * ((t.table_.length : Nat) : Int) ≤
        ((t.size_ + t.deletedCount_ : Nat) : Int) * ((5 : Nat) : Int))
      rw [hlen, hdc]
      push_cast
      omega
    obtain ⟨t1, hrun, hpost, hmi1, hdc1, _⟩ :=
      hinv.insert_ok_no_resize k v hl (by rw [hlen, hdc]; omega)
    have hfk : find t k = none := hfresh (k, v) (List.mem_cons_self _ _)
    have hsz1 : t1.size_ = t.size_ + 1 := by rw [hpost.size_eq, hfk]; rfl
    simp only [List.map_cons, List.nodup_cons] at hnd
    obtain ⟨t', h1, h2, h3, h4, h5, h6, h7⟩ := ih t1 hpost.inv
      (by rw [hpost.alpha_eq, hal]) (by rw [hmi1, hmi]) (by rw [hdc1, hdc])
      (by rw [hsz1]; omega) hnd.2
      (by
        intro q hq
        have hne : q.1 ≠ k := by
          intro hc
          exact hnd.1 (hc ▸ List.mem_map_of_mem Prod.fst hq)
        rw [hpost.find_other _ hne]
        exact hfresh q (List.mem_cons_of_mem _ hq))
    refine ⟨t', by rw [insertMany_cons_ok t t1 (k, v) ps hrun]; exact h1, h2, h3, h4, h5,
      by rw [h6, hsz1, List.length_cons]; omega, ?_⟩
    intro k' hk'
    simp only [List.map_cons, List.mem_cons, not_or] at hk'
    rw [h7 k' hk'.2, hpost.find_other k' hk'.1]

/-- Insert, remove, insert of another key, starting from a fresh table with any threshold
and hash functor. -/
theorem insert_remove_insert (alpha : Frac) (h : K → Nat) (k1 k2 : K) (hne : k1 ≠ k2)
    (v1 v2 : V) :
    (insert (init alpha h) (k1, v1)).1 = none ∧
    (insert (remove (insert (init alpha h) (k1, v1)).2 k1) (k2, v2)).1 = none ∧
    find (insert (remove (insert (init alpha h) (k1, v1)).2 k1) (k2, v2)).2 k1 = none ∧
    find (insert (remove (insert (init alpha h) (k1, v1)).2 k1) (k2, v2)).2 k2 =
      some (k2, v2) ∧
    (insert (remove (insert (init alpha h) (k1, v1)).2 k1) (k2, v2)).2.size_ = 1 := by
  -- an insert into a table without live entries and with fewer than 11 tombstones
  have hsmall : ∀ (t : HashTable K V) (k : K) (v : V), Inv t → t.size_ = 0 →
      t.deletedCount_ < 11 → t.mIndex_ + 1 < CAPACITIES.length →
      ∃ t', insert t (k, v) = (none, t') ∧ InsertPost t t' k v ∧
        t'.mIndex_ ≤ t.mIndex_ + 1 := by
    intro t k v hinv hsz hdc hg
    by_cases hl : t.resizeAlpha_ ≤ load t
    · obtain ⟨t', h1, h2, h3, _⟩ := hinv.insert_ok_resize k v hl hg
        (by intro j hj; omega)
      exact ⟨t', h1, h2, by omega⟩
    · obtain ⟨t', h1, h2, h3, _⟩ := hinv.insert_ok_no_resize k v hl
        (by have := hinv.length_ge; omega)
      exact ⟨t', h1, h2, by omega⟩
  obtain ⟨hinv0, hfind0⟩ := inv_of_empty (HashTable.init alpha h : HashTable K V) _ rfl
    (show 0 < CAPACITIES.length by decide) rfl rfl rfl
  obtain ⟨t1, hrun1, hpost1, hmi1⟩ := hsmall (HashTable.init alpha h) k1 v1 hinv0 rfl
    (by show 0 < 11; decide) (by show 0 + 1 < CAPACITIES.length; decide)
  rw [hrun1]
  simp only
  have hdc1 : t1.deletedCount_ = 0 := by
    rcases hpost1.deleted_eq with hd | hd
    · rw [hd]; rfl
    · exact hd
  have hsz1 : t1.size_ = 1 := by
    rw [hpost1.size_eq, hfind0]; rfl
  obtain ⟨hinv2, hf2, hfo2, hsz2, hdc2, _, hmi2, _, _⟩ :=
    hpost1.inv.remove_live k1 (k1, v1) hpost1.find_self
  have hmi1' : t1.mIndex_ ≤ 1 := by
    have : (HashTable.init alpha h : HashTable K V).mIndex_ = 0 := rfl
    omega
  obtain ⟨t3, hrun3, hpost3, _⟩ := hsmall (remove t1 k1) k2 v2 hinv2 (by omega)
    (by omega) (by rw [hmi2]; have : CAPACITIES.length = 28 := by decide
                   omega)
  rw [hrun3]
  simp only
  refine ⟨trivial, trivial, ?_, hpost3.find_self, ?_⟩
  · rw [hpost3.find_other k1 hne, hf2]
  · rw [hpost3.size_eq, hfo2 k2 (Ne.symm hne), hpost1.find_other k2 (Ne.symm hne), hfind0]
    simp only [Option.isSome_none, Bool.false_eq_true, if_false]
    omega

end HashTable

/-- C3: in every reachable table state, `remove(k)` of a live key `k` decreases `size_` by
exactly 1, increases `deletedCount_` by exactly 1 and makes a following `find(k)` return
null; `remove(k)` of a key that is not live leaves the slot array, `size_` and
`deletedCount_` unchanged. In particular, from a fresh table (any threshold, any hash
functor), `insert("CAT", v1); remove("CAT"); insert("DOG", v2)` all return, and afterwards
`find("CAT")` is null, `find("DOG")` holds `v2` and `size()` is 1. -/
theorem C3_remove {K V : Type} [DecidableEq K] (alpha : Frac) (h : K → Nat)
    (t : HashTable K V) (hr : HashTable.Reachable alpha h t) (k : K) :
    ((HashTable.find t k).isSome = true →
      (HashTable.remove t k).size_ + 1 = t.size_ ∧
      (HashTable.remove t k).deletedCount_ = t.deletedCount_ + 1 ∧
      HashTable.find (HashTable.remove t k) k = none) ∧
    (HashTable.find t k = none →
      (HashTable.remove t k).table_ = t.table_ ∧
      (HashTable.remove t k).size_ = t.size_ ∧
      (HashTable.remove t k).deletedCount_ = t.deletedCount_) ∧
    (∀ (a : Frac) (hs : String → Nat) (v1 v2 : V),
      (HashTable.insert (HashTable.init a hs) ("CAT", v1)).1 = none ∧
      (HashTable.insert (HashTable.remove
        (HashTable.insert (HashTable.init a hs) ("CAT", v1)).2 "CAT") ("DOG", v2)).1 = none ∧
      HashTable.find (HashTable.insert (HashTable.remove
        (HashTable.insert (HashTable.init a hs) ("CAT", v1)).2 "CAT") ("DOG", v2)).2 "CAT"
          = none ∧
      HashTable.find (HashTable.insert (HashTable.remove
        (HashTable.insert (HashTable.init a hs) ("CAT", v1)).2 "CAT") ("DOG", v2)).2 "DOG"
          = some ("DOG", v2) ∧
      HashTable.size (HashTable.insert (HashTable.remove
        (HashTable.insert (HashTable.init a hs) ("CAT", v1)).2 "CAT") ("DOG", v2)).2 = 1) := by
  refine ⟨?_, ?_, ?_⟩
  · intro hlive
    cases hf : HashTable.find t k with
    | none => rw [hf] at hlive; exact Bool.noConfusion hlive
    | some it =>
      obtain ⟨_, h2, _, h4, h5, _⟩ := hr.inv.remove_live k it hf
      exact ⟨h4, h5, h2⟩
  · intro hf
    rw [HashTable.remove_absent t k hf]
    exact ⟨rfl, rfl, rfl⟩
  · intro a hs v1 v2
    exact HashTable.insert_remove_insert a hs "CAT" "DOG" (by decide) v1 v2

/-- C3 witness: the table reached by `insert((3, 4))` from a fresh table, key 3. -/
theorem C3_remove_witness :
    (HashTable.remove (HashTable.insert
      (HashTable.init ⟨2, 5⟩ (fun k : Nat => k) : HashTable Nat Nat) (3, 4)).2 3).size_ + 1 =
      (HashTable.insert
        (HashTable.init ⟨2, 5⟩ (fun k : Nat => k) : HashTable Nat Nat) (3, 4)).2.size_ ∧
    HashTable.find (HashTable.remove (HashTable.insert
      (HashTable.init ⟨2, 5⟩ (fun k : Nat => k) : HashTable Nat Nat) (3, 4)).2 3) 3 = none :=
  have hc := (C3_remove ⟨2, 5⟩ (fun k : Nat => k) _
    (HashTable.Reachable.insert _ (3, 4) HashTable.Reachable.init) 3).1 (by decide)
  ⟨hc.1, hc.2.2⟩

/-- C4: in every reachable table state, a returning `insert((k, v))` that triggers
`resize()` keeps every other live key found with the same item, keeps every other key that
was not found (absent or tombstoned) not found, leaves a tombstone count of 0, and leaves
`size()` equal to the number of live slots before the call, plus 1 if `k` was not live;
the ladder index has grown. -/
theorem C4_resize_preserves {K V : Type} [DecidableEq K] (alpha : Frac) (h : K → Nat)
    (t : HashTable K V) (hr : HashTable.Reachable alpha h t) (k : K) (v : V)
    (hl : t.resizeAlpha_ ≤ HashTable.load t)
    (hok : (HashTable.insert t (k, v)).1 = none) :
    (∀ k' it, k' ≠ k → HashTable.find t k' = some it →
      HashTable.find (HashTable.insert t (k, v)).2 k' = some it) ∧
    (∀ k', k' ≠ k → HashTable.find t k' = none →
      HashTable.find (HashTable.insert t (k, v)).2 k' = none) ∧
    (HashTable.insert t (k, v)).2.deletedCount_ = 0 ∧
    t.size_ = t.table_.countP HashTable.isLive ∧
    HashTable.size (HashTable.insert t (k, v)).2 =
      t.table_.countP HashTable.isLive + (if (HashTable.find t k).isSome then 0 else 1) ∧
    t.mIndex_ < (HashTable.insert t (k, v)).2.mIndex_ := by
  have hinv := hr.inv
  have hpost := HashTable.insert_post t k v hinv hok
  obtain ⟨hdc, hmi⟩ := HashTable.insert_resized t k v hinv hl hok
  refine ⟨?_, ?_, hdc, hinv.size_eq, ?_, hmi⟩
  · intro k' it hk' hf
    rw [hpost.find_other k' hk', hf]
  · intro k' hk' hf
    rw [hpost.find_other k' hk', hf]
  · unfold HashTable.size
    rw [hpost.size_eq, hinv.size_eq]

/-- C4 witness: `demoFive` (keys 0..4, capacity 11, threshold 2/5) and `insert((5, 15))`,
which resizes to capacity 23. -/
theorem C4_resize_preserves_witness :
    (demoFive.resizeAlpha_ ≤ HashTable.load demoFive ∧
      (HashTable.insert demoFive (5, 15)).1 = none) ∧
    HashTable.find (HashTable.insert demoFive (5, 15)).2 2 = some (2, 12) ∧
    (HashTable.insert demoFive (5, 15)).2.deletedCount_ = 0 ∧
    (HashTable.insert demoFive (5, 15)).2.table_.length = 23 :=
  have hc := C4_resize_preserves ⟨2, 5⟩ (fun k : Nat => k) demoFive
    (HashTable.Reachable.insert _ (4, 14)
      (HashTable.Reachable.of_insertMany HashTable.Reachable.init _)) 5 15
    (by decide) (by decide)
  ⟨⟨by decide, by decide⟩, hc.1 2 (2, 12) (by decide) (by decide), hc.2.2.1, by decide⟩

/-- C5 (as stated, refuted): `demoFour` is reachable with the default threshold 2/5 and
holds 4 live entries at capacity 11. Although `(live + tombstones + 1) / capacity = 5/11`
is at least 2/5, `insert((4, 14))` returns without running `resize()` (capacity stays 11),
and immediately afterwards `(live + tombstones) / capacity = 5/11` is not below 2/5. -/
theorem C5_counterexample :
    HashTable.Reachable ⟨2, 5⟩ (fun k : Nat => k) demoFour ∧
    (⟨2, 5⟩ : Frac) ≤
      ⟨((demoFour.size_ + demoFour.deletedCount_ + 1 : Nat) : Int), demoFour.table_.length⟩ ∧
    (HashTable.insert demoFour (4, 14)).1 = none ∧
    (HashTable.insert demoFour (4, 14)).2.table_.length = demoFour.table_.length ∧
    HashTable.load (HashTable.insert demoFour (4, 14)).2 = ⟨5, 11⟩ ∧
    ¬ HashTable.load (HashTable.insert demoFour (4, 14)).2 < ⟨2, 5⟩ :=
  ⟨HashTable.Reachable.of_insertMany HashTable.Reachable.init _,
    by decide, by decide, by decide, by decide, by decide⟩

/-- C5 (amended): `insert` compares the load counted before the new entry is placed,
`(live + tombstones) / capacity`, with `alpha`. In every reachable table state: if that
load is below `alpha`, no `resize()` runs (`"No more capacity"` is not thrown, ladder
index and capacity are unchanged) and,
when the insert returns, `(live + tombstones - 1) / capacity < alpha` holds for the new
counts; if that load is at least `alpha`, a returning insert has run `resize()` (the
ladder index has grown and no tombstone is left). -/
theorem C5_load_check {K V : Type} [DecidableEq K] (alpha : Frac) (h : K → Nat)
    (t : HashTable K V) (hr : HashTable.Reachable alpha h t) (p : K × V) :
    (¬ t.resizeAlpha_ ≤ HashTable.load t →
      (HashTable.insert t p).1 ≠ some HTError.noMoreCapacity ∧
      (HashTable.insert t p).2.mIndex_ = t.mIndex_ ∧
      (HashTable.insert t p).2.table_.length = t.table_.length ∧
      ((HashTable.insert t p).1 = none →
        ({ num := (((HashTable.insert t p).2.size_ +
              (HashTable.insert t p).2.deletedCount_ : Nat) : Int) - 1
           den := (HashTable.insert t p).2.table_.length } : Frac) < t.resizeAlpha_)) ∧
    (t.resizeAlpha_ ≤ HashTable.load t → (HashTable.insert t p).1 = none →
      t.mIndex_ < (HashTable.insert t p).2.mIndex_ ∧
      (HashTable.insert t p).2.deletedCount_ = 0) := by
  have hinv := hr.inv
  obtain ⟨k, v⟩ := p
  refine ⟨?_, ?_⟩
  · intro hl
    have hrun : HashTable.insert t (k, v) = HashTable.place t (k, v) := by
      unfold HashTable.insert
      rw [show CAPACITIES.length = 27 + 1 by decide, HashTable.insertF_no_resize 27 t _ hl]
    rw [hrun, HashTable.place_eq]
    by_cases hp : HashTable.probe t k = npos
    · rw [if_pos hp]
      refine ⟨by simp, rfl, rfl, fun hc => ?_⟩
      exact absurd hc (by simp)
    · rw [if_neg hp]
      obtain ⟨hpost, hmi, hdc, htab⟩ := hinv.placeAt_post k v hp
      refine ⟨by simp, hmi, by rw [htab, List.length_set], fun _ => ?_⟩
      rw [htab, List.length_set, hdc, hpost.size_eq]
      have hlt : ¬ (t.resizeAlpha_.num * ((t.table_.length : Nat) : Int) ≤
          ((t.size_ + t.deletedCount_ : Nat) : Int) * (t.resizeAlpha_.den : Int)) := hl
      show ((((t.size_ + (if (HashTable.find t k).isSome = true then 0 else 1) +
          t.deletedCount_ : Nat) : Int) - 1) * (t.resizeAlpha_.den : Int) <
        t.resizeAlpha_.num * ((t.table_.length : Nat) : Int))
      have hle : (((t.size_ + (if (HashTable.find t k).isSome = true then 0 else 1) +
          t.deletedCount_ : Nat) : Int) - 1) ≤ ((t.size_ + t.deletedCount_ : Nat) : Int) := by
        split <;> push_cast <;> omega
      have hden : (0 : Int) ≤ (t.resizeAlpha_.den : Int) := Int.ofNat_nonneg _
      have := Int.mul_le_mul_of_nonneg_right hle hden
      omega
  · intro hl hok
    obtain ⟨hdc, hmi⟩ := HashTable.insert_resized t k v hinv hl hok
    exact ⟨hmi, hdc⟩

/-- C5 witness: `demoFour` with `insert((4, 14))` (below the threshold) and `demoFive` with
`insert((5, 15))` (at the threshold). -/
theorem C5_load_check_witness :
    ((HashTable.insert demoFour (4, 14)).2.mIndex_ = demoFour.mIndex_ ∧
      ({ num := (((HashTable.insert demoFour (4, 14)).2.size_ +
            (HashTable.insert demoFour (4, 14)).2.deletedCount_ : Nat) : Int) - 1
         den := (HashTable.insert demoFour (4, 14)).2.table_.length } : Frac) <
        demoFour.resizeAlpha_) ∧
    demoFive.mIndex_ < (HashTable.insert demoFive (5, 15)).2.mIndex_ :=
  have h4 := (C5_load_check ⟨2, 5⟩ (fun k : Nat => k) demoFour
    (HashTable.Reachable.of_insertMany HashTable.Reachable.init _) (4, 14)).1 (by decide)
  have h5 := (C5_load_check ⟨2, 5⟩ (fun k : Nat => k) demoFive
    (HashTable.Reachable.insert _ (4, 14)
      (HashTable.Reachable.of_insertMany HashTable.Reachable.init _)) (5, 15)).2
    (by decide) (by decide)
  ⟨⟨h4.2.1, h4.2.2.2 (by decide)⟩, h5.1⟩

/-- C6: starting from a fresh table with threshold 2/5 (capacity 11, any hash functor),
inserting 4 pairwise distinct keys returns with capacity 11; inserting a 5th distinct key
returns with capacity still 11 and `size() = 5`; the load 5/11 then triggers `resize()` in
the insert of a 6th distinct key, which returns with capacity 23 (ladder index 1) and
`size() = 6`. -/
theorem C6_growth_scenario {K V : Type} [DecidableEq K] (h : K → Nat)
    (p1 p2 p3 p4 p5 p6 : K × V)
    (hd : [p1.1, p2.1, p3.1, p4.1, p5.1, p6.1].Nodup) :
    (HashTable.init ⟨2, 5⟩ h : HashTable K V).table_.length = 11 ∧
    (HashTable.insertMany (HashTable.init ⟨2, 5⟩ h) [p1, p2, p3, p4]).1 = none ∧
    (HashTable.insertMany (HashTable.init ⟨2, 5⟩ h) [p1, p2, p3, p4]).2.table_.length = 11 ∧
    (HashTable.insertMany (HashTable.init ⟨2, 5⟩ h) [p1, p2, p3, p4, p5]).1 = none ∧
    (HashTable.insertMany (HashTable.init ⟨2, 5⟩ h) [p1, p2, p3, p4, p5]).2.table_.length
      = 11 ∧
    HashTable.size (HashTable.insertMany (HashTable.init ⟨2, 5⟩ h) [p1, p2, p3, p4, p5]).2
      = 5 ∧
    (⟨2, 5⟩ : Frac) ≤
      HashTable.load (HashTable.insertMany (HashTable.init ⟨2, 5⟩ h) [p1, p2, p3, p4, p5]).2 ∧
    (HashTable.insertMany (HashTable.init ⟨2, 5⟩ h) [p1, p2, p3, p4, p5, p6]).1 = none ∧
    (HashTable.insertMany (HashTable.init ⟨2, 5⟩ h) [p1, p2, p3, p4, p5, p6]).2.mIndex_ = 1 ∧
    (HashTable.insertMany (HashTable.init ⟨2, 5⟩ h) [p1, p2, p3, p4, p5, p6]).2.table_.length
      = 23 ∧
    HashTable.size (HashTable.insertMany (HashTable.init ⟨2, 5⟩ h) [p1, p2, p3, p4, p5, p6]).2
      = 6 := by
  obtain ⟨hinv0, hfind0⟩ := HashTable.inv_of_empty
    (HashTable.init ⟨2, 5⟩ h : HashTable K V) _ rfl
    (show 0 < CAPACITIES.length by decide) rfl rfl rfl
  have hcap : ∀ t : HashTable K V, HashTable.Inv t → t.mIndex_ = 0 →
      t.table_.length = 11 := by
    intro t ht hm
    rw [ht.length_eq, hm]; rfl
  have hd4 : ([p1, p2, p3, p4].map Prod.fst).Nodup := by
    have : [p1.1, p2.1, p3.1, p4.1, p5.1, p6.1] =
        [p1, p2, p3, p4].map Prod.fst ++ [p5.1, p6.1] := rfl
    rw [this] at hd
    exact (List.nodup_append.mp hd).1
  have hd5 : ([p1, p2, p3, p4, p5].map Prod.fst).Nodup := by
    have : [p1.1, p2.1, p3.1, p4.1, p5.1, p6.1] =
        [p1, p2, p3, p4, p5].map Prod.fst ++ [p6.1] := rfl
    rw [this] at hd
    exact (List.nodup_append.mp hd).1
  have hk6 : p6.1 ∉ [p1, p2, p3, p4, p5].map Prod.fst := by
    have : [p1.1, p2.1, p3.1, p4.1, p5.1, p6.1] =
        [p1, p2, p3, p4, p5].map Prod.fst ++ [p6.1] := rfl
    rw [this] at hd
    intro hc
    exact (List.nodup_append.mp hd).2.2 hc (List.mem_singleton_self _)
  obtain ⟨t4, hrun4, hinv4, _, hmi4, _, _, _⟩ := HashTable.insertMany_small
    (HashTable.init ⟨2, 5⟩ h : HashTable K V) [p1, p2, p3, p4] hinv0 rfl rfl rfl
    (show (0 : Nat) + 4 ≤ 5 by decide) hd4 (fun p _ => hfind0 p.1)
  obtain ⟨t5, hrun5, hinv5, hal5, hmi5, hdc5, hsz5, hf5⟩ := HashTable.insertMany_small
    (HashTable.init ⟨2, 5⟩ h : HashTable K V) [p1, p2, p3, p4, p5] hinv0 rfl rfl rfl
    (show (0 : Nat) + 5 ≤ 5 by decide) hd5 (fun p _ => hfind0 p.1)
  have hsz5' : t5.size_ = 5 := by
    rw [hsz5]; rfl
  have hlen5 := hcap t5 hinv5 hmi5
  have hl5 : t5.resizeAlpha_ ≤ HashTable.load t5 := by
    rw [hal5]
    show ((2 : Int) * ((t5.table_.length : Nat) : Int) ≤
      ((t5.size_ + t5.deletedCount_ : Nat) : Int) * ((5 : Nat) : Int))
    rw [hlen5, hdc5, hsz5']
    decide
  obtain ⟨k6, v6⟩ := p6
  obtain ⟨t6, hrun6, hpost6, hmi6, _, hlen6⟩ := hinv5.insert_ok_resize k6 v6 hl5
    (by rw [hmi5]; decide)
    (by
      intro j hj
      rw [hal5, hmi5]
      show ¬ ((2 : Int) * ((23 : Nat) : Int) ≤ (j : Int) * ((5 : Nat) : Int))
      push_cast
      omega)
  have hrun6' : HashTable.insertMany (HashTable.init ⟨2, 5⟩ h) [p1, p2, p3, p4, p5, (k6, v6)] =
      (none, t6) := by
    have : [p1, p2, p3, p4, p5, (k6, v6)] = [p1, p2, p3, p4, p5] ++ [(k6, v6)] := rfl
    rw [this, HashTable.insertMany_append_ok _ t5 _ _ hrun5,
      HashTable.insertMany_cons_ok t5 t6 _ _ hrun6]
    rfl
  rw [hrun4, hrun5, hrun6']
  refine ⟨rfl, rfl, hcap t4 hinv4 hmi4, rfl, hlen5, hsz5', ?_, rfl,
    by rw [hmi6, hmi5], by rw [hlen6, hmi5]; rfl, ?_⟩
  · rw [← hal5]; exact hl5
  · show t6.size_ = 6
    rw [hpost6.size_eq, hf5 k6 hk6, hfind0, hsz5']
    rfl

/-- C6 witness: keys 0..5 with the identity hash. -/
theorem C6_growth_scenario_witness :
    [((0 : Nat), (10 : Nat)).1, ((1 : Nat), (11 : Nat)).1, ((2 : Nat), (12 : Nat)).1,
      ((3 : Nat), (13 : Nat)).1, ((4 : Nat), (14 : Nat)).1, ((5 : Nat), (15 : Nat)).1].Nodup ∧
    (HashTable.insertMany (HashTable.init ⟨2, 5⟩ (fun k : Nat => k))
      [(0, 10), (1, 11), (2, 12), (3, 13), (4, 14), ((5 : Nat), (15 : Nat))]).2.table_.length
        = 23 :=
  ⟨by decide,
    (C6_growth_scenario (fun k : Nat => k) (0, 10) (1, 11) (2, 12) (3, 13) (4, 14) (5, 15)
      (by decide)).2.2.2.2.2.2.2.2.2.1⟩

/-! ## Diagnostic dump -/

namespace HashTable

variable {K V : Type} [DecidableEq K]

/-- The dump has one line per non-null slot, live or tombstoned. -/
theorem reportAllFrom_length (i : Nat) (l : List (Option (HashItem K V))) :
    (reportAllFrom i l).length = l.countP isLive + l.countP isTomb := by
  induction l generalizing i with
  | nil => rfl
  | cons x xs ih =>
    rcases x with _ | ⟨it, d⟩
    · rw [reportAllFrom, ih]
      simp [isLive, isTomb]
    · rw [reportAllFrom, List.length_cons, ih]
      cases d <;> simp [isLive, isTomb] <;> omega

theorem Inv.reportAll_length {t : HashTable K V} (hinv : Inv t) :
    (reportAll t).length = t.size_ + t.deletedCount_ := by
  unfold reportAll
  rw [reportAllFrom_length, hinv.size_eq, hinv.deleted_eq]

end HashTable

/-- C14 (code at the failing input): `demoRemoved` is reachable (fresh table,
`insert((3, 4))`, `remove(3)`); key 3 is removed (`find(3)` is null, `size()` is 0), yet
`reportAll` writes the line for bucket 3 with key 3 and value 4, because it tests only
`table_[i]` for null and not the `deleted` flag. -/
theorem C14_reportAll_prints_tombstone :
    HashTable.Reachable ⟨2, 5⟩ (fun k : Nat => k) demoRemoved ∧
    HashTable.find demoRemoved 3 = none ∧
    HashTable.size demoRemoved = 0 ∧
    demoRemoved.table_.getD 3 none = some { item := (3, 4), deleted := true } ∧
    HashTable.reportAll demoRemoved = [(3, 3, 4)] :=
  ⟨HashTable.Reachable.remove _ 3 (HashTable.Reachable.insert _ (3, 4) HashTable.Reachable.init),
    by decide, by decide, by decide, by decide⟩

/-- C16: in every table state reachable from a freshly constructed table by `insert` and
`remove` calls (inserts that resize, re-inserts of removed keys and states left by a
throwing insert included), no two different slots hold non-deleted items with equal keys. -/
theorem C16_no_duplicate_keys {K V : Type} [DecidableEq K] (alpha : Frac) (h : K → Nat)
    (t : HashTable K V) (hr : HashTable.Reachable alpha h t) (i j : Nat)
    (hi hj : HashItem K V) (hij : i ≠ j) (hsi : t.table_[i]? = some (some hi))
    (hsj : t.table_[j]? = some (some hj)) (hdi : hi.deleted = false)
    (hdj : hj.deleted = false) : hi.item.1 ≠ hj.item.1 := by
  intro hk
  have h1 := hr.inv.reach i hi hsi hdi
  have h2 := hr.inv.reach j hj hsj hdj
  rw [hk, h2] at h1
  exact hij h1.symm

/-- C16 witness: slots 2 and 3 of `demoFive` are live and hold the keys 2 and 3. -/
theorem C16_no_duplicate_keys_witness :
    demoFive.table_[2]? = some (some { item := (2, 12), deleted := false }) ∧
    demoFive.table_[3]? = some (some { item := (3, 13), deleted := false }) ∧
    (({ item := (2, 12), deleted := false } : HashItem Nat Nat).item.1 ≠
      ({ item := (3, 13), deleted := false } : HashItem Nat Nat).item.1) :=
  ⟨by decide, by decide,
    C16_no_duplicate_keys ⟨2, 5⟩ (fun k : Nat => k) demoFive
      (HashTable.Reachable.insert _ (4, 14)
        (HashTable.Reachable.of_insertMany HashTable.Reachable.init _))
      2 3 { item := (2, 12), deleted := false } { item := (3, 13), deleted := false }
      (by decide) (by decide) (by decide) rfl rfl⟩

/-! ## The walk as a prefix of the probe sequence -/

namespace HashTable

variable {K V : Type} [DecidableEq K]

/-- A slot returned by the walk is some element of the prober's sequence, and no earlier
element of the sequence passes the stopping test. -/
theorem probeLoop_first (tbl : List (Option (HashItem K V))) (key : K) (n : Nat) (p : Prober)
    (h : p.m_ - p.numProbes_ < n) (hr : probeLoop tbl key n p h ≠ npos) :
    ∃ j, LinearProber.nthNext j p = probeLoop tbl key n p h ∧
      ∀ j', j' < j → stopsAt tbl key (LinearProber.nthNext j' p) = false := by
  induction n generalizing p with
  | zero => exact absurd h (Nat.not_lt_zero _)
  | succ n ih =>
    rw [probeLoop_succ] at hr ⊢
    by_cases hnp : (LinearProber.next p).1 = npos
    · rw [dif_pos hnp] at hr
      exact absurd rfl hr
    · rw [dif_neg hnp] at hr ⊢
      by_cases hst : stopsAt tbl key (LinearProber.next p).1 = true
      · rw [if_pos hst]
        exact ⟨0, rfl, fun j' hj' => absurd hj' (Nat.not_lt_zero _)⟩
      · rw [if_neg hst] at hr ⊢
        obtain ⟨j, hj1, hj2⟩ := ih (LinearProber.next p).2
          (LinearProber.next_measure p n h hnp) hr
        refine ⟨j + 1, hj1, ?_⟩
        intro j' hj'
        cases j' with
        | zero => simpa using hst
        | succ j' => exact hj2 j' (by omega)

end HashTable

/-- C17: in every reachable table state, a live slot `i` holding key `k` is element number
`j` (for some `j < capacity`) of the linear probe sequence initialised with
`start = hash(k) mod capacity` and `modulus = capacity`, every earlier element of that
sequence is a non-null slot (occupied or tombstone), and `probe(k)` returns `i`. -/
theorem C17_probe_reachability {K V : Type} [DecidableEq K] (alpha : Frac) (h : K → Nat)
    (t : HashTable K V) (hr : HashTable.Reachable alpha h t) (i : Nat) (hi : HashItem K V)
    (hs : t.table_[i]? = some (some hi)) (hd : hi.deleted = false) :
    ∃ j, j < t.table_.length ∧
      LinearProber.nthNext j
        (Prober.init (t.hash_ hi.item.1 % t.table_.length) t.table_.length hi.item.1) = i ∧
      (∀ j', j' < j →
        t.table_.getD (LinearProber.nthNext j'
          (Prober.init (t.hash_ hi.item.1 % t.table_.length) t.table_.length hi.item.1))
          none ≠ none) ∧
      HashTable.probe t hi.item.1 = i := by
  have hinv := hr.inv
  have hp := hinv.reach i hi hs hd
  have hlt : i < t.table_.length := (List.getElem?_eq_some.mp hs).1
  have hne : HashTable.probe t hi.item.1 ≠ npos := by
    rw [hp]; exact hinv.lt_npos i hlt
  unfold HashTable.probe at hp hne
  obtain ⟨j, hj1, hj2⟩ := HashTable.probeLoop_first t.table_ hi.item.1 _ _ _ hne
  rw [hp] at hj1
  refine ⟨j, ?_, hj1, ?_, hp⟩
  · by_contra hge
    rw [LinearProber.nthNext_init, if_neg hge] at hj1
    exact hinv.lt_npos i hlt hj1.symm
  · intro j' hj' hnone
    have := hj2 j' hj'
    rw [HashTable.stopsAt_none _ _ _ hnone] at this
    exact Bool.noConfusion this

/-- C17 witness: key 14, inserted after key 3 (identity hash, capacity 11, home slot 3 for
both), lives in slot 4, the second element of its probe sequence. -/
theorem C17_probe_reachability_witness :
    (HashTable.insertMany (HashTable.init ⟨2, 5⟩ (fun k : Nat => k) : HashTable Nat Nat)
      [(3, 4), (14, 5)]).2.table_[4]? = some (some { item := (14, 5), deleted := false }) ∧
    ∃ j, j < (HashTable.insertMany
        (HashTable.init ⟨2, 5⟩ (fun k : Nat => k) : HashTable Nat Nat)
        [(3, 4), (14, 5)]).2.table_.length ∧
      LinearProber.nthNext j
        (Prober.init
          ((HashTable.insertMany (HashTable.init ⟨2, 5⟩ (fun k : Nat => k) : HashTable Nat Nat)
            [(3, 4), (14, 5)]).2.hash_
              (({ item := (14, 5), deleted := false } : HashItem Nat Nat).item.1) %
            (HashTable.insertMany (HashTable.init ⟨2, 5⟩ (fun k : Nat => k) : HashTable Nat Nat)
              [(3, 4), (14, 5)]).2.table_.length)
          (HashTable.insertMany (HashTable.init ⟨2, 5⟩ (fun k : Nat => k) : HashTable Nat Nat)
            [(3, 4), (14, 5)]).2.table_.length
          (({ item := (14, 5), deleted := false } : HashItem Nat Nat).item.1)) = 4 :=
  have hc := C17_probe_reachability ⟨2, 5⟩ (fun k : Nat => k) _
    (HashTable.Reachable.of_insertMany HashTable.Reachable.init [(3, 4), (14, 5)])
    4 { item := (14, 5), deleted := false } (by decide) rfl
  ⟨by decide, hc.elim fun j hj => ⟨j, hj.1, hj.2.1⟩⟩

/-! ## Outcomes of `insert` -/

theorem capacities_strict_aux :
    ∀ j, j < 28 → ∀ i, i < j → CAPACITIES.getD i 0 < CAPACITIES.getD j 0 := by
  decide

theorem capacities_strict (i j : Nat) (hij : i < j) (hj : j < CAPACITIES.length) :
    CAPACITIES.getD i 0 < CAPACITIES.getD j 0 :=
  capacities_strict_aux j hj i hij

namespace HashTable

variable {K V : Type} [DecidableEq K]

theorem place_alpha (t : HashTable K V) (p : K × V) :
    (place t p).2.resizeAlpha_ = t.resizeAlpha_ := by
  rw [place_eq]
  split
  · rfl
  · unfold placeAt
    split <;> rfl

theorem reinsertAll_alpha (ins : HashTable K V → K × V → Option HTError × HashTable K V)
    (hins : ∀ s p, (ins s p).2.resizeAlpha_ = s.resizeAlpha_)
    (l : List (Option (HashItem K V))) (s : HashTable K V) :
    (reinsertAll ins l s).2.resizeAlpha_ = s.resizeAlpha_ := by
  induction l generalizing s with
  | nil => rw [reinsertAll_nil]
  | cons x rest ih =>
    by_cases hx : isLive x = true
    · cases x with
      | none => simp [isLive] at hx
      | some hi =>
        simp only [isLive, Bool.not_eq_true'] at hx
        rw [reinsertAll_live ins hi rest s hx]
        have h1 := hins s hi.item
        rcases hr : ins s hi.item with ⟨e, s1⟩
        rw [hr] at h1
        cases e with
        | some e => exact h1
        | none =>
          simp only at h1 ⊢
          rw [ih s1, h1]
    · rw [reinsertAll_skip ins x rest s (by simpa using hx)]
      exact ih s

theorem insertF_alpha (n : Nat) (t : HashTable K V) (p : K × V) :
    (insertF n t p).2.resizeAlpha_ = t.resizeAlpha_ := by
  induction n generalizing t p with
  | zero => rw [insertF]
  | succ n ih =>
    rw [insertF_succ]
    by_cases hl : t.resizeAlpha_ ≤ load t
    · rw [if_pos hl]
      have h1 : (resizeWith (insertF n) t).2.resizeAlpha_ = t.resizeAlpha_ := by
        unfold resizeWith
        split
        · rfl
        · rw [reinsertAll_alpha (insertF n) (fun s q => ih s q)]
      rcases hr : resizeWith (insertF n) t with ⟨e, t1⟩
      rw [hr] at h1
      cases e with
      | some e => exact h1
      | none =>
        simp only at h1 ⊢
        rw [place_alpha, h1]
    · rw [if_neg hl]
      exact place_alpha t p

theorem remove_alpha (t : HashTable K V) (k : K) :
    (remove t k).resizeAlpha_ = t.resizeAlpha_ := by
  rw [remove_eq]
  cases find t k <;> rfl

/-- A reachable table still carries the threshold it was constructed with. -/
theorem Reachable.alpha_eq {alpha : Frac} {h : K → Nat} {t : HashTable K V}
    (hr : Reachable alpha h t) : t.resizeAlpha_ = alpha := by
  induction hr with
  | init => rfl
  | insert t p _ ih =>
    unfold HashTable.insert
    rw [insertF_alpha, ih]
  | remove t k _ ih => rw [remove_alpha, ih]

/-- Below a threshold of at most 1 the table has a free slot. -/
theorem Inv.free_of_below {t : HashTable K V} (_hinv : Inv t)
    (hle : t.resizeAlpha_.num ≤ (t.resizeAlpha_.den : Int))
    (hl : ¬ t.resizeAlpha_ ≤ load t) : t.size_ + t.deletedCount_ < t.table_.length := by
  have hl' : ¬ (t.resizeAlpha_.num * ((t.table_.length : Nat) : Int) ≤
      ((t.size_ + t.deletedCount_ : Nat) : Int) * (t.resizeAlpha_.den : Int)) := hl
  by_contra hge
  have hge' : ((t.table_.length : Nat) : Int) ≤ ((t.size_ + t.deletedCount_ : Nat) : Int) := by
    exact_mod_cast Nat.le_of_not_lt hge
  have h1 : t.resizeAlpha_.num * ((t.table_.length : Nat) : Int) ≤
      (t.resizeAlpha_.den : Int) * ((t.table_.length : Nat) : Int) :=
    Int.mul_le_mul_of_nonneg_right hle (Int.ofNat_nonneg _)
  have h2 : ((t.table_.length : Nat) : Int) * (t.resizeAlpha_.den : Int) ≤
      ((t.size_ + t.deletedCount_ : Nat) : Int) * (t.resizeAlpha_.den : Int) :=
    Int.mul_le_mul_of_nonneg_right hge' (Int.ofNat_nonneg _)
  apply hl'
  exact le_trans h1 (by rw [Int.mul_comm]; exact h2)

theorem place_outcome (t : HashTable K V) (p : K × V) :
    (place t p).1 = none ∨ (place t p).1 = some HTError.hashTableFull := by
  rw [place_eq]
  split
  · exact Or.inr rfl
  · exact Or.inl rfl

theorem reinsertAll_not_full
    (ins : HashTable K V → K × V → Option HTError × HashTable K V) (a : Frac)
    (hins : ∀ s p, Inv s → s.resizeAlpha_ = a → (ins s p).1 ≠ some HTError.hashTableFull)
    (hinv : ∀ s p, Inv s → Inv (ins s p).2)
    (halpha : ∀ s p, (ins s p).2.resizeAlpha_ = s.resizeAlpha_)
    (l : List (Option (HashItem K V))) (s : HashTable K V) (hs : Inv s)
    (ha : s.resizeAlpha_ = a) :
    (reinsertAll ins l s).1 ≠ some HTError.hashTableFull := by
  induction l generalizing s with
  | nil => rw [reinsertAll_nil]; simp
  | cons x rest ih =>
    by_cases hx : isLive x = true
    · cases x with
      | none => simp [isLive] at hx
      | some hi =>
        simp only [isLive, Bool.not_eq_true'] at hx
        rw [reinsertAll_live ins hi rest s hx]
        have h1 := hins s hi.item hs ha
        have h2 := hinv s hi.item hs
        have h3 := halpha s hi.item
        rcases hr : ins s hi.item with ⟨e, s1⟩
        rw [hr] at h1 h2 h3
        cases e with
        | some e => exact h1
        | none => exact ih s1 h2 (by rw [← ha]; exact h3)
    · rw [reinsertAll_skip ins x rest s (by simpa using hx)]
      exact ih s hs ha

/-- With a threshold of at most 1, `insert` never throws `"HashTable full"`. -/
theorem insertF_not_full (n : Nat) (t : HashTable K V) (p : K × V) (hinv : Inv t)
    (hle : t.resizeAlpha_.num ≤ (t.resizeAlpha_.den : Int)) :
    (insertF n t p).1 ≠ some HTError.hashTableFull := by
  induction n generalizing t p with
  | zero => rw [insertF]; simp
  | succ n ih =>
    rw [insertF_succ]
    by_cases hl : t.resizeAlpha_ ≤ load t
    · rw [if_pos hl]
      have hres : (resizeWith (insertF n) t).1 ≠ some HTError.hashTableFull := by
        unfold resizeWith
        split
        · simp
        · rename_i hg
          apply reinsertAll_not_full (insertF n) t.resizeAlpha_
          · intro s q hs ha
            exact ih s q hs (by rw [ha]; exact hle)
          · intro s q hs
            exact insertF_inv n s q hs
          · intro s q
            exact insertF_alpha n s q
          · exact (inv_of_empty _ _ rfl (by simp only; omega) rfl rfl rfl).1
          · rfl
      rcases hr : resizeWith (insertF n) t with ⟨e, t1⟩
      rw [hr] at hres
      cases e with
      | some e => exact hres
      | none =>
        simp only
        obtain ⟨h1, _, h3, h4, h5, _, _⟩ := hinv.resizeWith_post (insertF n)
          (fun s k v s' hs hrun' => insertF_post n s k v s' hs hrun') t1 hr
        have hfree : t1.size_ + t1.deletedCount_ < t1.table_.length := by
          have hc := hinv.count_le
          have hm := capacities_strict t.mIndex_ t1.mIndex_ (by omega) h1.mIndex_lt
          rw [hinv.length_eq] at hc
          rw [h3, h4, h1.length_eq]
          omega
        obtain ⟨t', hrun, _⟩ := h1.place_ok p.1 p.2 hfree
        have : place t1 p = (none, t') := hrun
        rw [this]
        simp
    · rw [if_neg hl]
      obtain ⟨t', hrun, _⟩ := hinv.place_ok p.1 p.2 (hinv.free_of_below hle hl)
      have : place t p = (none, t') := hrun
      show (place t p).1 ≠ some HTError.hashTableFull
      rw [this]
      simp

theorem reinsertAll_not_badKey
    (ins : HashTable K V → K × V → Option HTError × HashTable K V)
    (hins : ∀ s p, (ins s p).1 ≠ some HTError.badKey)
    (l : List (Option (HashItem K V))) (s : HashTable K V) :
    (reinsertAll ins l s).1 ≠ some HTError.badKey := by
  induction l generalizing s with
  | nil => rw [reinsertAll_nil]; simp
  | cons x rest ih =>
    by_cases hx : isLive x = true
    · cases x with
      | none => simp [isLive] at hx
      | some hi =>
        simp only [isLive, Bool.not_eq_true'] at hx
        rw [reinsertAll_live ins hi rest s hx]
        have h1 := hins s hi.item
        rcases hr : ins s hi.item with ⟨e, s1⟩
        rw [hr] at h1
        cases e with
        | some e => exact h1
        | none => exact ih s1
    · rw [reinsertAll_skip ins x rest s (by simpa using hx)]
      exact ih s

theorem insertF_not_badKey (n : Nat) (t : HashTable K V) (p : K × V) :
    (insertF n t p).1 ≠ some HTError.badKey := by
  induction n generalizing t p with
  | zero => rw [insertF]; simp
  | succ n ih =>
    rw [insertF_succ]
    have hpl : ∀ s : HashTable K V, (place s p).1 ≠ some HTError.badKey := by
      intro s
      rcases place_outcome s p with h | h <;> rw [h] <;> simp
    by_cases hl : t.resizeAlpha_ ≤ load t
    · rw [if_pos hl]
      have hres : (resizeWith (insertF n) t).1 ≠ some HTError.badKey := by
        unfold resizeWith
        split
        · simp
        · exact reinsertAll_not_badKey (insertF n) (fun s q => ih s q) _ _
      rcases hr : resizeWith (insertF n) t with ⟨e, t1⟩
      rw [hr] at hres
      cases e with
      | some e => exact hres
      | none => exact hpl t1
    · rw [if_neg hl]
      exact hpl t

end HashTable

/-- C15: for a table constructed with `alpha` in `(0, 1]` (linear prober), in every
reachable state `insert` never throws `"HashTable full"`: it returns normally or throws
`"No more capacity"`; when no `resize()` is due, the walk of the inserted key reaches a
null slot or a live slot with an equal key before the prober is exhausted. -/
theorem C15_never_table_full {K V : Type} [DecidableEq K] (alpha : Frac) (h : K → Nat)
    (hpos : 0 < alpha.num) (hle : alpha.num ≤ (alpha.den : Int))
    (t : HashTable K V) (hr : HashTable.Reachable alpha h t) (p : K × V) :
    (HashTable.insert t p).1 ≠ some HTError.hashTableFull ∧
    ((HashTable.insert t p).1 = none ∨
      (HashTable.insert t p).1 = some HTError.noMoreCapacity) ∧
    (¬ t.resizeAlpha_ ≤ HashTable.load t →
      HashTable.probe t p.1 ≠ npos ∧
      HashTable.stopsAt t.table_ p.1 (HashTable.probe t p.1) = true) := by
  have hinv := hr.inv
  have ha := hr.alpha_eq
  have _ := hpos
  have hfull : (HashTable.insert t p).1 ≠ some HTError.hashTableFull :=
    HashTable.insertF_not_full _ t p hinv (by rw [ha]; exact hle)
  refine ⟨hfull, ?_, ?_⟩
  · have hb := HashTable.insert_budget t p hinv
    have hk : (HashTable.insert t p).1 ≠ some HTError.badKey :=
      HashTable.insertF_not_badKey _ t p
    cases hc : (HashTable.insert t p).1 with
    | none => exact Or.inl rfl
    | some e =>
      rw [hc] at hfull hb hk
      cases e with
      | hashTableFull => exact absurd rfl hfull
      | noMoreCapacity => exact Or.inr rfl
      | badKey => exact absurd rfl hk
      | recursionBudget => exact absurd rfl hb
  · intro hl
    have hp := hinv.probe_ne_npos p.1 (hinv.free_of_below (by rw [ha]; exact hle) hl)
    exact ⟨hp, (HashTable.probe_stops t p.1 hp).1⟩

/-- C15 witness: `demoFive` (threshold 2/5) and `insert((5, 15))`. -/
theorem C15_never_table_full_witness :
    ((0 : Int) < (⟨2, 5⟩ : Frac).num ∧ (⟨2, 5⟩ : Frac).num ≤ (((⟨2, 5⟩ : Frac).den : Nat) : Int)) ∧
    (HashTable.insert demoFive (5, 15)).1 ≠ some HTError.hashTableFull :=
  ⟨by decide,
    (C15_never_table_full ⟨2, 5⟩ (fun k : Nat => k) (by decide) (by decide) demoFive
      (HashTable.Reachable.insert _ (4, 14)
        (HashTable.Reachable.of_insertMany HashTable.Reachable.init _)) (5, 15)).1⟩

/-! ## Ladder steps taken by one `insert` -/

theorem capacities_gap :
    ∀ i, i < 27 → CAPACITIES.getD i 0 + 12 ≤ CAPACITIES.getD (i + 1) 0 := by
  decide

namespace HashTable

variable {K V : Type} [DecidableEq K]

theorem insert_exhausted (t : HashTable K V) (p : K × V)
    (hg : CAPACITIES.length ≤ t.mIndex_ + 1) (hl : t.resizeAlpha_ ≤ load t) :
    insert t p = (some HTError.noMoreCapacity, t) := by
  unfold insert
  rw [show CAPACITIES.length = 27 + 1 by decide, insertF_succ, if_pos hl]
  unfold resizeWith
  rw [if_pos hg]

theorem insert_below (t : HashTable K V) (p : K × V) (hl : ¬ t.resizeAlpha_ ≤ load t) :
    insert t p = place t p := by
  unfold insert
  rw [show CAPACITIES.length = 27 + 1 by decide, insertF_no_resize 27 t p hl]

/-- The load inequality used by `resize_no_nest`, from a bound on the live count. -/
theorem load_below_next (a : Frac) (c s : Nat)
    (hs : ((s : Nat) : Int) * (a.den : Int) < a.num * ((c : Nat) : Int) + (a.den : Int)) :
    ∀ j : Nat, j < s → ¬ a ≤ ({ num := (j : Int), den := c } : Frac) := by
  intro j hj hc
  have hc' : a.num * ((c : Nat) : Int) ≤ (j : Int) * (a.den : Int) := hc
  have hj' : (j : Int) + 1 ≤ (s : Int) := by exact_mod_cast hj
  have h1 : ((j : Int) + 1) * (a.den : Int) ≤ (s : Int) * (a.den : Int) :=
    Int.mul_le_mul_of_nonneg_right hj' (Int.ofNat_nonneg _)
  have h2 : ((j : Int) + 1) * (a.den : Int) = (j : Int) * (a.den : Int) + (a.den : Int) := by
    ring
  omega

/-- With a threshold `alpha ≥ 1/12` (and `alpha > 0`), every reachable table keeps
`(live + tombstones - 1) / capacity < alpha`. -/
theorem Reachable.slack {alpha : Frac} {h : K → Nat} {t : HashTable K V}
    (hpos : 0 < alpha.num) (h12 : (alpha.den : Int) ≤ 12 * alpha.num)
    (hr : Reachable alpha h t) :
    ((t.size_ + t.deletedCount_ : Nat) : Int) * (alpha.den : Int) <
      alpha.num * ((t.table_.length : Nat) : Int) + (alpha.den : Int) := by
  induction hr with
  | init =>
    show ((0 + 0 : Nat) : Int) * (alpha.den : Int) <
      alpha.num * (((List.replicate 11 none : List (Option (HashItem K V))).length : Nat) : Int)
        + (alpha.den : Int)
    rw [List.length_replicate]
    have := Int.ofNat_nonneg alpha.den
    push_cast
    omega
  | remove t k hr ih =>
    have hinv := hr.inv
    cases hf : find t k with
    | none => rw [remove_absent t k hf]; exact ih
    | some it =>
      obtain ⟨_, _, _, h4, h5, h6, _⟩ := hinv.remove_live k it hf
      rw [h6, List.length_set, h5]
      have : ((HashTable.remove t k).size_ + (t.deletedCount_ + 1) : Nat) =
          t.size_ + t.deletedCount_ := by omega
      rw [this]
      exact ih
  | insert t p hr ih =>
    have hinv := hr.inv
    have ha := hr.alpha_eq
    obtain ⟨k, v⟩ := p
    have hden := Int.ofNat_nonneg alpha.den
    by_cases hl : t.resizeAlpha_ ≤ load t
    · by_cases hg : CAPACITIES.length ≤ t.mIndex_ + 1
      · rw [insert_exhausted t (k, v) hg hl]
        exact ih
      · have hg' : t.mIndex_ + 1 < CAPACITIES.length := by omega
        have hlenC := hinv.length_eq
        have hgap := capacities_gap t.mIndex_ (by
          have : CAPACITIES.length = 28 := by decide
          omega)
        have hsz : ((t.size_ : Nat) : Int) * (alpha.den : Int) <
            alpha.num * ((CAPACITIES.getD t.mIndex_ 0 : Nat) : Int) + (alpha.den : Int) := by
          rw [← hlenC]
          have h1 : ((t.size_ : Nat) : Int) ≤ ((t.size_ + t.deletedCount_ : Nat) : Int) := by
            push_cast; omega
          have := Int.mul_le_mul_of_nonneg_right h1 hden
          omega
        have hnext : alpha.num * ((CAPACITIES.getD t.mIndex_ 0 : Nat) : Int) + (alpha.den : Int)
            ≤ alpha.num * ((CAPACITIES.getD (t.mIndex_ + 1) 0 : Nat) : Int) := by
          have h1 : ((CAPACITIES.getD t.mIndex_ 0 : Nat) : Int) + 12 ≤
              ((CAPACITIES.getD (t.mIndex_ + 1) 0 : Nat) : Int) := by exact_mod_cast hgap
          have h2 := Int.mul_le_mul_of_nonneg_left h1 (Int.le_of_lt hpos)
          have h3 : alpha.num * (((CAPACITIES.getD t.mIndex_ 0 : Nat) : Int) + 12) =
              alpha.num * ((CAPACITIES.getD t.mIndex_ 0 : Nat) : Int) + 12 * alpha.num := by
            ring
          omega
        obtain ⟨t', hrun, hpost, _, hdc, hlen⟩ := hinv.insert_ok_resize k v hl hg'
          (by
            rw [ha]
            apply load_below_next
            have h1 : alpha.num * ((CAPACITIES.getD t.mIndex_ 0 : Nat) : Int) ≤
                alpha.num * ((CAPACITIES.getD (t.mIndex_ + 1) 0 : Nat) : Int) := by omega
            omega)
        rw [hrun]
        show ((t'.size_ + t'.deletedCount_ : Nat) : Int) * (alpha.den : Int) <
          alpha.num * ((t'.table_.length : Nat) : Int) + (alpha.den : Int)
        rw [hlen, hdc, hpost.size_eq]
        have h1 : ((t.size_ + (if (find t k).isSome = true then 0 else 1) + 0 : Nat) : Int) ≤
            ((t.size_ : Nat) : Int) + 1 := by
          split <;> push_cast <;> omega
        have h2 := Int.mul_le_mul_of_nonneg_right h1 hden
        have h3 : (((t.size_ : Nat) : Int) + 1) * (alpha.den : Int) =
            ((t.size_ : Nat) : Int) * (alpha.den : Int) + (alpha.den : Int) := by ring
        omega
    · rw [insert_below t (k, v) hl, place_eq]
      split
      · exact ih
      · rename_i hp
        obtain ⟨hpost, _, hdc, htab⟩ := hinv.placeAt_post k v hp
        show ((_ + _ : Nat) : Int) * (alpha.den : Int) < alpha.num * ((_ : Nat) : Int) + _
        rw [htab, List.length_set, hdc, hpost.size_eq]
        have hl' : ¬ (alpha.num * ((t.table_.length : Nat) : Int) ≤
            ((t.size_ + t.deletedCount_ : Nat) : Int) * (alpha.den : Int)) := by
          rw [← ha]; exact hl
        have h1 : ((t.size_ + (if (find t k).isSome = true then 0 else 1) +
            t.deletedCount_ : Nat) : Int) ≤ ((t.size_ + t.deletedCount_ : Nat) : Int) + 1 := by
          split <;> push_cast <;> omega
        have h2 := Int.mul_le_mul_of_nonneg_right h1 hden
        have h3 : (((t.size_ + t.deletedCount_ : Nat) : Int) + 1) * (alpha.den : Int) =
            ((t.size_ + t.deletedCount_ : Nat) : Int) * (alpha.den : Int) + (alpha.den : Int) := by
          ring
        omega

end HashTable

/-- C19 (as stated, refuted): `demoSmallAlpha` is reachable with the threshold
`alpha = 1/100` (inside `(0, 1]`) and sits at ladder index 1 (capacity 23) with 2 live
entries; `insert((2, 2))` returns, but the re-insertion of the second old entry inside
`resize()` meets load `1/47 ≥ 1/100` and resizes again, so the call ends at ladder index 3
(capacity 97), two entries further, not at index 2. -/
theorem C19_counterexample :
    HashTable.Reachable ⟨1, 100⟩ (fun k : Nat => k) demoSmallAlpha ∧
    ((0 : Int) < (⟨1, 100⟩ : Frac).num ∧ (⟨1, 100⟩ : Frac) ≤ ⟨1, 1⟩) ∧
    demoSmallAlpha.mIndex_ = 1 ∧ demoSmallAlpha.table_.length = 23 ∧
    (HashTable.insert demoSmallAlpha (2, 2)).1 = none ∧
    (HashTable.insert demoSmallAlpha (2, 2)).2.mIndex_ = 3 ∧
    (HashTable.insert demoSmallAlpha (2, 2)).2.table_.length = 97 :=
  ⟨HashTable.Reachable.of_insertMany HashTable.Reachable.init _,
    by decide, by decide, by decide, by decide, by decide, by decide⟩

/-- C19 (amended): for every table constructed with a threshold `alpha > 0` that is at
least `1/12` (the default 2/5 included), in every reachable state one `insert` call leaves
the ladder index unchanged or moves it to exactly the next entry: below the threshold no
`resize()` runs, and at or above it (with a ladder entry left) the call returns after a
single `resize()` to the next capacity, none of whose re-insertions resizes again. -/
theorem C19_one_ladder_step {K V : Type} [DecidableEq K] (alpha : Frac) (h : K → Nat)
    (hpos : 0 < alpha.num) (h12 : (alpha.den : Int) ≤ 12 * alpha.num)
    (t : HashTable K V) (hr : HashTable.Reachable alpha h t) (p : K × V) :
    ((HashTable.insert t p).2.mIndex_ = t.mIndex_ ∨
      (HashTable.insert t p).2.mIndex_ = t.mIndex_ + 1) ∧
    (¬ t.resizeAlpha_ ≤ HashTable.load t →
      (HashTable.insert t p).2.mIndex_ = t.mIndex_) ∧
    (t.resizeAlpha_ ≤ HashTable.load t → t.mIndex_ + 1 < CAPACITIES.length →
      (HashTable.insert t p).1 = none ∧
      (HashTable.insert t p).2.mIndex_ = t.mIndex_ + 1 ∧
      (HashTable.insert t p).2.table_.length = CAPACITIES.getD (t.mIndex_ + 1) 0) := by
  have hinv := hr.inv
  have ha := hr.alpha_eq
  have hslack := hr.slack hpos h12
  obtain ⟨k, v⟩ := p
  have hbelow : ¬ t.resizeAlpha_ ≤ HashTable.load t →
      (HashTable.insert t (k, v)).2.mIndex_ = t.mIndex_ := by
    intro hl
    rw [HashTable.insert_below t (k, v) hl, HashTable.place_eq]
    split
    · rfl
    · rename_i hp
      exact (hinv.placeAt_post k v hp).2.1
  have habove : t.resizeAlpha_ ≤ HashTable.load t → t.mIndex_ + 1 < CAPACITIES.length →
      (HashTable.insert t (k, v)).1 = none ∧
      (HashTable.insert t (k, v)).2.mIndex_ = t.mIndex_ + 1 ∧
      (HashTable.insert t (k, v)).2.table_.length = CAPACITIES.getD (t.mIndex_ + 1) 0 := by
    intro hl hg
    have hmono := capacities_mono t.mIndex_ hg
    obtain ⟨t', hrun, _, hmi, _, hlen⟩ := hinv.insert_ok_resize k v hl hg
      (by
        rw [ha]
        apply HashTable.load_below_next
        have h1 : ((t.size_ : Nat) : Int) ≤ ((t.size_ + t.deletedCount_ : Nat) : Int) := by
          push_cast; omega
        have h2 := Int.mul_le_mul_of_nonneg_right h1 (Int.ofNat_nonneg alpha.den)
        have h3 : ((t.table_.length : Nat) : Int) ≤
            ((CAPACITIES.getD (t.mIndex_ + 1) 0 : Nat) : Int) := by
          rw [hinv.length_eq]; exact_mod_cast Nat.le_of_lt hmono
        have h4 := Int.mul_le_mul_of_nonneg_left h3 (Int.le_of_lt hpos)
        omega)
    rw [hrun]
    exact ⟨rfl, hmi, hlen⟩
  refine ⟨?_, hbelow, habove⟩
  by_cases hl : t.resizeAlpha_ ≤ HashTable.load t
  · by_cases hg : t.mIndex_ + 1 < CAPACITIES.length
    · exact Or.inr (habove hl hg).2.1
    · rw [HashTable.insert_exhausted t (k, v) (by omega) hl]
      exact Or.inl rfl
  · exact Or.inl (hbelow hl)

/-- C19 witness: `demoFive` (threshold 2/5, ladder index 0) and `insert((5, 15))`. -/
theorem C19_one_ladder_step_witness :
    ((0 : Int) < (⟨2, 5⟩ : Frac).num ∧
      ((((⟨2, 5⟩ : Frac).den : Nat) : Int) ≤ 12 * (⟨2, 5⟩ : Frac).num)) ∧
    ((HashTable.insert demoFive (5, 15)).2.mIndex_ = demoFive.mIndex_ ∨
      (HashTable.insert demoFive (5, 15)).2.mIndex_ = demoFive.mIndex_ + 1) :=
  ⟨by decide,
    (C19_one_ladder_step ⟨2, 5⟩ (fun k : Nat => k) (by decide) (by decide) demoFive
      (HashTable.Reachable.insert _ (4, 14)
        (HashTable.Reachable.of_insertMany HashTable.Reachable.init _)) (5, 15)).1⟩

/-! ## The double-hash prober -/

theorem double_hash_mod_sorted : List.Pairwise (fun a b => a < b) DOUBLE_HASH_MOD_VALUES := by
  decide

/-- The loop of `init` over an ascending list: the result is the start value or a list
entry, it is at least the start value, it is below `m` when the start value is, and no
list entry below `m` exceeds it. -/
theorem DoubleHashProber.modLoop_spec (m : Nat) (l : List Nat) (mod0 : Nat)
    (hs : List.Pairwise (fun a b => a < b) l) (hlow : ∀ v ∈ l, mod0 ≤ v) :
    (DoubleHashProber.modLoop m l mod0 = mod0 ∨ DoubleHashProber.modLoop m l mod0 ∈ l) ∧
    mod0 ≤ DoubleHashProber.modLoop m l mod0 ∧
    (mod0 < m → DoubleHashProber.modLoop m l mod0 < m) ∧
    (∀ v ∈ l, v < m → v ≤ DoubleHashProber.modLoop m l mod0) := by
  induction l generalizing mod0 with
  | nil =>
    refine ⟨Or.inl rfl, Nat.le_refl _, fun hlt => hlt, ?_⟩
    intro v hv
    simp at hv
  | cons v vs ih =>
    have hs' := List.pairwise_cons.mp hs
    rw [DoubleHashProber.modLoop]
    by_cases hv : v < m
    · rw [if_pos hv]
      obtain ⟨h1, h2, h3, h4⟩ := ih v hs'.2 (fun w hw => Nat.le_of_lt (hs'.1 w hw))
      refine ⟨Or.inr ?_, ?_, fun _ => h3 hv, ?_⟩
      · rcases h1 with h1 | h1
        · rw [h1]; exact List.mem_cons_self _ _
        · exact List.mem_cons_of_mem _ h1
      · exact Nat.le_trans (hlow v (List.mem_cons_self _ _)) h2
      · intro w hw hwm
        rcases List.mem_cons.mp hw with hw | hw
        · rw [hw]; exact h2
        · exact h4 w hw hwm
    · rw [if_neg hv]
      refine ⟨Or.inl rfl, Nat.le_refl _, fun hlt => hlt, ?_⟩
      intro w hw hwm
      rcases List.mem_cons.mp hw with hw | hw
      · rw [hw] at hwm; exact absurd hwm hv
      · have := hs'.1 w hw
        omega

/-- The sub-modulus chosen by `init`: a table entry, at least 7, and for `m > 7` the
largest table entry below `m`. -/
theorem DoubleHashProber.chooseMod_spec (m : Nat) :
    DoubleHashProber.chooseMod m ∈ DOUBLE_HASH_MOD_VALUES ∧
    7 ≤ DoubleHashProber.chooseMod m ∧
    (7 < m → DoubleHashProber.chooseMod m < m) ∧
    (∀ v ∈ DOUBLE_HASH_MOD_VALUES, v < m → v ≤ DoubleHashProber.chooseMod m) := by
  have hlow : ∀ v ∈ DOUBLE_HASH_MOD_VALUES, DOUBLE_HASH_MOD_VALUES.getD 0 0 ≤ v := by decide
  obtain ⟨h1, h2, h3, h4⟩ := DoubleHashProber.modLoop_spec m DOUBLE_HASH_MOD_VALUES
    (DOUBLE_HASH_MOD_VALUES.getD 0 0) double_hash_mod_sorted hlow
  have h0 : DOUBLE_HASH_MOD_VALUES.getD 0 0 = 7 := rfl
  unfold DoubleHashProber.chooseMod
  refine ⟨?_, by rw [h0] at h2; exact h2, fun hm => h3 (by rw [h0]; exact hm), h4⟩
  rcases h1 with h1 | h1
  · rw [h1, h0]; decide
  · exact h1

/-- C11: for every modulus `m`, key and secondary-hash value, `DoubleHashProber::init`
sets `dhstep_ = subModulus - (h2(key) mod subModulus)` with `1 ≤ dhstep_ ≤ subModulus`,
where `subModulus` is the entry of `DOUBLE_HASH_MOD_VALUES` its loop selects; for every
`m > 7` that entry is below `m` and no table entry below `m` is larger. -/
theorem C11_double_hash_step {K : Type} (h2 : K → Nat) (start m : Nat) (key : K) :
    DoubleHashProber.chooseMod m ∈ DOUBLE_HASH_MOD_VALUES ∧
    (DoubleHashProber.init h2 start m key).dhstep_ =
      DoubleHashProber.chooseMod m - h2 key % DoubleHashProber.chooseMod m ∧
    1 ≤ (DoubleHashProber.init h2 start m key).dhstep_ ∧
    (DoubleHashProber.init h2 start m key).dhstep_ ≤ DoubleHashProber.chooseMod m ∧
    (7 < m → DoubleHashProber.chooseMod m < m ∧
      ∀ v ∈ DOUBLE_HASH_MOD_VALUES, v < m → v ≤ DoubleHashProber.chooseMod m) := by
  obtain ⟨h1, h2', h3, h4⟩ := DoubleHashProber.chooseMod_spec m
  have hmod : h2 key % DoubleHashProber.chooseMod m < DoubleHashProber.chooseMod m :=
    Nat.mod_lt _ (by omega)
  refine ⟨h1, rfl, ?_, ?_, fun hm => ⟨h3 hm, h4⟩⟩
  · show 1 ≤ DoubleHashProber.chooseMod m - h2 key % DoubleHashProber.chooseMod m
    omega
  · show DoubleHashProber.chooseMod m - h2 key % DoubleHashProber.chooseMod m ≤ _
    omega

theorem DoubleHashProber.dh_next_of_lt (p : DoubleHashProber) (h : p.numProbes_ < p.m_) :
    DoubleHashProber.next p =
      ((p.start_ + (p.dhstep_ * p.numProbes_) % 2 ^ 64) % 2 ^ 64 % p.m_,
        { p with numProbes_ := p.numProbes_ + 1 }) := by
  unfold DoubleHashProber.next
  rw [if_neg (by omega)]

theorem DoubleHashProber.dh_next_of_ge (p : DoubleHashProber) (h : p.m_ ≤ p.numProbes_) :
    DoubleHashProber.next p = (npos, p) := by
  unfold DoubleHashProber.next
  rw [if_pos h]

theorem DoubleHashProber.dh_afterCalls_eq (s m d : Nat) (i j : Nat) (hj : j ≤ m) :
    DoubleHashProber.afterCalls i { start_ := s, m_ := m, numProbes_ := j, dhstep_ := d } =
      { start_ := s, m_ := m, numProbes_ := min (j + i) m, dhstep_ := d } := by
  induction i generalizing j with
  | zero => simp [DoubleHashProber.afterCalls, hj]
  | succ i ih =>
    rw [DoubleHashProber.afterCalls]
    by_cases hlt : j < m
    · rw [DoubleHashProber.dh_next_of_lt _ hlt]
      simp only
      rw [ih (j + 1) hlt]
      congr 1
      omega
    · have hjm : j = m := by omega
      subst hjm
      rw [DoubleHashProber.dh_next_of_ge _ (Nat.le_refl _)]
      simp only
      rw [ih j (Nat.le_refl _)]
      congr 1
      omega

/-- Closed form of the values returned by `DoubleHashProber::next()`. -/
theorem DoubleHashProber.nthNext_eq (s m d : Nat) (i : Nat) :
    DoubleHashProber.nthNext i { start_ := s, m_ := m, numProbes_ := 0, dhstep_ := d } =
      if i < m then (s + (d * i) % 2 ^ 64) % 2 ^ 64 % m else npos := by
  unfold DoubleHashProber.nthNext
  rw [DoubleHashProber.dh_afterCalls_eq s m d i 0 (Nat.zero_le _)]
  by_cases hlt : i < m
  · rw [if_pos hlt, DoubleHashProber.dh_next_of_lt _ (by simp; omega)]
    simp only
    have : min (0 + i) m = i := by omega
    rw [this]
  · rw [if_neg hlt, DoubleHashProber.dh_next_of_ge _ (by simp; omega)]

/-- C18 (code at the failing input): the ladder entry `CAPACITIES[23] = 105359969` is
`11 * 9578179`, not a prime. For this capacity `init` selects the sub-modulus 105359939,
so a key with `h2(key) = 105359928` gets `dhstep_ = 11`, which divides the capacity; then
call number 9578179 of `next()` (one of the first `m` calls) returns index 0 again, the
index already returned by call number 0. -/
theorem C18_composite_capacity :
    CAPACITIES.getD 23 0 = 105359969 ∧ 105359969 = 11 * 9578179 ∧
    DoubleHashProber.chooseMod 105359969 = 105359939 ∧
    (DoubleHashProber.init (fun _ : Unit => 105359928) 0 105359969 ()).dhstep_ = 11 ∧
    Nat.gcd (DoubleHashProber.init (fun _ : Unit => 105359928) 0 105359969 ()).dhstep_
      105359969 = 11 ∧
    9578179 < 105359969 ∧
    DoubleHashProber.nthNext 0
      (DoubleHashProber.init (fun _ : Unit => 105359928) 0 105359969 ()) = 0 ∧
    DoubleHashProber.nthNext 9578179
      (DoubleHashProber.init (fun _ : Unit => 105359928) 0 105359969 ()) = 0 := by
  have hinit : DoubleHashProber.init (fun _ : Unit => 105359928) 0 105359969 () =
      { start_ := 0, m_ := 105359969, numProbes_ := 0, dhstep_ := 11 } := by decide
  rw [hinit, DoubleHashProber.nthNext_eq, DoubleHashProber.nthNext_eq]
  decide

/-! ## The string hash -/

namespace MyStringHash

theorem letterDigitToNumber_le (ch : Char) : letterDigitToNumber ch ≤ 35 := by
  unfold letterDigitToNumber
  split
  · omega
  · split
    · omega
    · omega

/-- The digit computed by the code is the digit of the reference definition. -/
theorem letterDigitToNumber_eq (ch : Char) : letterDigitToNumber ch = digitSpec ch := by
  have ha : 'a'.toNat = 97 := rfl
  have hz : 'z'.toNat = 122 := rfl
  have hA : 'A'.toNat = 65 := rfl
  have hZ : 'Z'.toNat = 90 := rfl
  have h0 : '0'.toNat = 48 := rfl
  have h9 : '9'.toNat = 57 := rfl
  unfold letterDigitToNumber digitSpec toLower
  rw [ha, hz, hA, hZ, h0, h9]
  generalize ch.toNat = x
  split_ifs <;> omega

theorem toInt32_of_lt (x : Nat) (h : x < 2 ^ 31) : toInt32 x = (x : Int) := by
  unfold toInt32
  have h1 : x % 2 ^ 32 = x := Nat.mod_eq_of_lt (by omega)
  rw [h1, if_pos h]

theorem pow36_getD (j : Nat) (hj : j < 6) : pow36.getD j 0 = 36 ^ j := by
  interval_cases j <;> rfl

/-- The inner loop in natural-number form, for end position `e > 0` and the start position
`max (e - 6) 0` computed by the code. -/
theorem chunkValue_fold (k : List Char) (e : Nat) (he : 0 < e) :
    chunkValue k (if (e : Int) - 6 < 0 then 0 else (e : Int) - 6) (e : Int) =
      (List.range (min e 6)).foldl
        (fun chunkVal i =>
          (chunkVal + letterDigitToNumber (k.getD (e - 6 + i) (Char.ofNat 0)) *
            pow36.getD (e - 1 - (e - 6 + i)) 0) % 2 ^ 64) 0 := by
  have hstart : (if (e : Int) - 6 < 0 then 0 else (e : Int) - 6) = ((e - 6 : Nat) : Int) := by
    split <;> omega
  rw [hstart]
  unfold chunkValue
  have hlen : ((e : Int) - ((e - 6 : Nat) : Int)).toNat = min e 6 := by omega
  rw [hlen]
  refine congrArg (fun f => List.foldl f 0 (List.range (min e 6))) ?_
  funext chunkVal i
  have h1 : (((e - 6 : Nat) : Int) + (i : Int)).toNat = e - 6 + i := by omega
  have h2 : ((e : Int) - 1 - (((e - 6 : Nat) : Int) + (i : Int))).toNat = e - 1 - (e - 6 + i) := by
    omega
  rw [h1, h2]

end MyStringHash

namespace MyStringHash

/-- The inner loop computes the closed-form chunk value; its 64-bit sum never wraps. -/
theorem fold_eq_chunkNat (d : Nat → Nat) (hd : ∀ x, d x ≤ 35) (e : Nat) (he : 0 < e) :
    (List.range (min e 6)).foldl
      (fun chunkVal i =>
        (chunkVal + d (e - 6 + i) * pow36.getD (e - 1 - (e - 6 + i)) 0) % 2 ^ 64) 0 =
      chunkNat d e := by
  have h0 := hd 0
  have h1 := hd 1
  have h2 := hd 2
  have h3 := hd 3
  have h4 := hd 4
  by_cases h6 : 6 ≤ e
  · obtain ⟨e', rfl⟩ : ∃ e', e = e' + 6 := ⟨e - 6, by omega⟩
    have hmin : min (e' + 6) 6 = 6 := by omega
    rw [hmin]
    have g0 := hd e'
    have g1 := hd (e' + 1)
    have g2 := hd (e' + 2)
    have g3 := hd (e' + 3)
    have g4 := hd (e' + 4)
    have g5 := hd (e' + 5)
    simp [List.range_succ, chunkNat, pow36]
    omega
  · have hlt : e < 6 := by omega
    interval_cases e <;> simp [List.range_succ, chunkNat, pow36] <;> omega

theorem chunkNat_le (d : Nat → Nat) (hd : ∀ x, d x ≤ 35) (e : Nat) :
    chunkNat d e ≤ 36 ^ 6 - 1 := by
  have h0 := hd 0
  have h1 := hd 1
  have h2 := hd 2
  have h3 := hd 3
  have h4 := hd 4
  by_cases h6 : 6 ≤ e
  · obtain ⟨e', rfl⟩ : ∃ e', e = e' + 6 := ⟨e - 6, by omega⟩
    have g0 := hd e'
    have g1 := hd (e' + 1)
    have g2 := hd (e' + 2)
    have g3 := hd (e' + 3)
    have g4 := hd (e' + 4)
    have g5 := hd (e' + 5)
    simp [List.range_succ, chunkNat]
    omega
  · have hlt : e < 6 := by omega
    interval_cases e <;> simp [List.range_succ, chunkNat] <;> omega

/-- The value stored for a chunk with end position `e > 0`, in closed form. -/
theorem chunkValue_eq (k : List Char) (e : Nat) (he : 0 < e) :
    chunkValue k (if (e : Int) - 6 < 0 then 0 else (e : Int) - 6) (e : Int) =
      chunkNat (fun x => letterDigitToNumber (k.getD x (Char.ofNat 0))) e := by
  rw [chunkValue_fold k e he]
  exact fold_eq_chunkNat (fun x => letterDigitToNumber (k.getD x (Char.ofNat 0)))
    (fun x => letterDigitToNumber_le _) e he

/-- The reference chunk value `W_c` in closed form, for a chunk that exists. -/
theorem chunkSpec_eq (k : List Char) (c : Nat) (hc : 6 * c < k.length) :
    chunkSpec k c =
      chunkNat (fun x => letterDigitToNumber (k.getD x (Char.ofNat 0))) (k.length - 6 * c) := by
  unfold chunkSpec chunkNat
  refine congrArg List.sum (List.map_congr_left ?_)
  intro j _
  by_cases hj : 6 * c + j < k.length
  · rw [if_pos hj, if_pos (by omega)]
    show _ = letterDigitToNumber (k.getD (k.length - 6 * c - 1 - j) (Char.ofNat 0)) * 36 ^ j
    have : k.length - 6 * c - 1 - j = k.length - 1 - 6 * c - j := by omega
    rw [this, letterDigitToNumber_eq]
  · rw [if_neg hj, if_neg (by omega)]

theorem chunkSpec_zero (k : List Char) (c : Nat) (hc : k.length ≤ 6 * c) :
    chunkSpec k c = 0 := by
  unfold chunkSpec
  apply List.sum_eq_zero
  intro x hx
  obtain ⟨j, _, hj⟩ := List.mem_map.mp hx
  rw [if_neg (by omega)] at hj
  exact hj.symm

/-- One round of the chunk loop for a string length that fits `int`: either the chunk
exists and its reference value is stored in `w[4 - c]`, or the loop breaks. -/
theorem fillChunks_step (k : List Char) (c : Nat) (cs w : List Nat) :
    fillChunks k (k.length : Int) (c :: cs) w =
      if 6 * c < k.length then fillChunks k (k.length : Int) cs (w.set (5 - 1 - c) (chunkSpec k c))
      else w := by
  rw [fillChunks]
  by_cases hc : 6 * c < k.length
  · rw [if_pos hc, if_neg (by omega)]
    have he : (k.length : Int) - (c : Int) * 6 = ((k.length - 6 * c : Nat) : Int) := by omega
    rw [he, chunkValue_eq k _ (by omega), chunkSpec_eq k c hc]
  · rw [if_neg hc, if_pos (by omega)]

end MyStringHash

namespace MyStringHash

/-- For a string length that fits `int`, the array `w` holds the reference chunk values,
`w[4 - c] = W_c`. -/
theorem weights_eq (k : List Char) (hlen : k.length < 2 ^ 31) :
    weights k =
      [chunkSpec k 4, chunkSpec k 3, chunkSpec k 2, chunkSpec k 1, chunkSpec k 0] := by
  unfold weights
  rw [toInt32_of_lt _ hlen]
  have z0 := chunkSpec_zero k 0
  have z1 := chunkSpec_zero k 1
  have z2 := chunkSpec_zero k 2
  have z3 := chunkSpec_zero k 3
  have z4 := chunkSpec_zero k 4
  rw [fillChunks_step]
  by_cases h0 : 6 * 0 < k.length
  · rw [if_pos h0, fillChunks_step]
    by_cases h1 : 6 * 1 < k.length
    · rw [if_pos h1, fillChunks_step]
      by_cases h2 : 6 * 2 < k.length
      · rw [if_pos h2, fillChunks_step]
        by_cases h3 : 6 * 3 < k.length
        · rw [if_pos h3, fillChunks_step]
          by_cases h4 : 6 * 4 < k.length
          · rw [if_pos h4, fillChunks]
            rfl
          · rw [if_neg h4, z4 (by omega)]
            rfl
        · rw [if_neg h3, z4 (by omega), z3 (by omega)]
          rfl
      · rw [if_neg h2, z4 (by omega), z3 (by omega), z2 (by omega)]
        rfl
    · rw [if_neg h1, z4 (by omega), z3 (by omega), z2 (by omega), z1 (by omega)]
      rfl
  · rw [if_neg h0, z4 (by omega), z3 (by omega), z2 (by omega), z1 (by omega), z0 (by omega)]

/-- For every string shorter than `2^31` characters the code computes the reference
digest. -/
theorem hash_eq_hashSpec (r : List Nat) (k : List Char) (hlen : k.length < 2 ^ 31) :
    hash r k = hashSpec r k := by
  unfold hash hashSpec
  rw [weights_eq k hlen]
  simp only [List.range_succ, List.range_zero, List.nil_append, List.cons_append, List.foldl,
    List.map, List.sum_cons, List.sum_nil, List.getD_cons_zero, List.getD_cons_succ,
    Nat.reduceSub]
  omega
end MyStringHash

namespace MyStringHash

/-- When `(int)k.size()` is not positive the chunk loop breaks at once and the digest is 0. -/
theorem hash_of_nonpos (r : List Nat) (k : List Char) (h : toInt32 k.length ≤ 0) :
    hash r k = 0 := by
  have hw : weights k = [0, 0, 0, 0, 0] := by
    unfold weights
    rw [fillChunks, if_pos (by push_cast; omega)]
  unfold hash
  rw [hw]
  simp [List.range_succ]

theorem getD_replicate_of_lt (n i : Nat) (a d : Char) (h : i < n) :
    (List.replicate n a).getD i d = a := by
  rw [List.getD_eq_getElem?_getD, List.getElem?_replicate, if_pos h]
  rfl

/-- The reference chunk value of a string of `n` copies of one character, for a full
chunk. -/
theorem chunkSpec_replicate (n c : Nat) (a : Char) (h : 6 * c + 6 ≤ n) :
    chunkSpec (List.replicate n a) c =
      digitSpec a * (1 + 36 + 36 ^ 2 + 36 ^ 3 + 36 ^ 4 + 36 ^ 5) := by
  unfold chunkSpec
  rw [List.length_replicate]
  have hg : ∀ j, j < 6 → (List.replicate n a).getD (n - 1 - 6 * c - j) (Char.ofNat 0) = a :=
    fun j hj => getD_replicate_of_lt n _ a _ (by omega)
  simp only [List.range_succ, List.range_zero, List.nil_append, List.cons_append, List.map,
    List.sum_cons, List.sum_nil]
  rw [if_pos (by omega), if_pos (by omega), if_pos (by omega), if_pos (by omega),
    if_pos (by omega), if_pos (by omega), hg 0 (by omega), hg 1 (by omega), hg 2 (by omega),
    hg 3 (by omega), hg 4 (by omega), hg 5 (by omega)]
  ring

end MyStringHash

namespace MyStringHash

/-- The reference digest of a string of `n ≥ 30` copies of one character. -/
theorem hashSpec_replicate (r : List Nat) (n : Nat) (a : Char) (h : 30 ≤ n) :
    hashSpec r (List.replicate n a) =
      ((r.getD 4 0 + r.getD 3 0 + r.getD 2 0 + r.getD 1 0 + r.getD 0 0) *
        (digitSpec a * 62193781)) % 2 ^ 64 := by
  unfold hashSpec
  simp only [List.range_succ, List.range_zero, List.nil_append, List.cons_append, List.map,
    List.sum_cons, List.sum_nil, Nat.reduceSub]
  rw [chunkSpec_replicate n 0 a (by omega), chunkSpec_replicate n 1 a (by omega),
    chunkSpec_replicate n 2 a (by omega), chunkSpec_replicate n 3 a (by omega),
    chunkSpec_replicate n 4 a (by omega)]
  congr 1
  ring

theorem toInt32_two_pow_31 (k : List Char) (h : k.length = 2 ^ 31) :
    toInt32 k.length = -2 ^ 31 := by
  rw [h]
  decide

end MyStringHash

/-- C12 (as stated, refuted): for the string of `2^31` characters `b` the conversion
`(int)k.size()` yields `-2^31`, the chunk loop breaks before its first round and the code
returns 0 with the debug coefficients, while the reference definition gives
`(r[0] + ... + r[4]) * 62193781 = 264417564452651168`. -/
theorem C12_counterexample :
    (List.replicate (2 ^ 31) 'b').length = 2 ^ 31 ∧
    MyStringHash.toInt32 (List.replicate (2 ^ 31) 'b').length = -2 ^ 31 ∧
    MyStringHash.hash MyStringHash.debugRValues (List.replicate (2 ^ 31) 'b') = 0 ∧
    MyStringHash.hashSpec MyStringHash.debugRValues (List.replicate (2 ^ 31) 'b') =
      264417564452651168 :=
  ⟨List.length_replicate _ _,
    MyStringHash.toInt32_two_pow_31 _ (List.length_replicate _ _),
    MyStringHash.hash_of_nonpos _ _
      (le_of_eq_of_le (MyStringHash.toInt32_two_pow_31 _ (List.length_replicate _ _))
        (by decide)),
    (MyStringHash.hashSpec_replicate MyStringHash.debugRValues (2 ^ 31) 'b' (by decide)).trans
      (by decide)⟩

/-- C12 (amended): for every string `k` of length `n < 2^31` (so that `(int)k.size()` is
`n`) and all coefficients `r[0..4]`, `operator()(k)` equals the reference digest
`(sum over c in 0..4 of r[4-c] * W_c) mod 2^64`, with `W_c` the sum over `j` in `0..5` with
`n - 1 - 6c - j ≥ 0` of `digit(k[n-1-6c-j]) * 36^j`; the array `w` holds `W_c` at index
`4 - c`; and `letterDigitToNumber` is the reference digit map (letters of either case to
0..25, decimal digits to 26..35, every other character to 0). -/
theorem C12_hash_eq_reference (r : List Nat) (k : List Char) (hlen : k.length < 2 ^ 31) :
    MyStringHash.hash r k = MyStringHash.hashSpec r k ∧
    MyStringHash.weights k =
      [MyStringHash.chunkSpec k 4, MyStringHash.chunkSpec k 3, MyStringHash.chunkSpec k 2,
        MyStringHash.chunkSpec k 1, MyStringHash.chunkSpec k 0] ∧
    (∀ ch, MyStringHash.letterDigitToNumber ch = MyStringHash.digitSpec ch) :=
  ⟨MyStringHash.hash_eq_hashSpec r k hlen, MyStringHash.weights_eq k hlen,
    MyStringHash.letterDigitToNumber_eq⟩

/-- C12 witness: the seven-character string `aBc12Z9` with the debug coefficients. -/
theorem C12_hash_eq_reference_witness :
    ['a', 'B', 'c', '1', '2', 'Z', '9'].length < 2 ^ 31 ∧
    MyStringHash.hash MyStringHash.debugRValues ['a', 'B', 'c', '1', '2', 'Z', '9'] =
      MyStringHash.hashSpec MyStringHash.debugRValues ['a', 'B', 'c', '1', '2', 'Z', '9'] :=
  ⟨by decide,
    (C12_hash_eq_reference MyStringHash.debugRValues ['a', 'B', 'c', '1', '2', 'Z', '9']
      (by decide)).1⟩

namespace MyStringHash

/-- Characters in front of the last 30 do not enter any reference chunk value. -/
theorem chunkSpec_append (p s : List Char) (hs : s.length = 30) (c : Nat) (hc : c < 5) :
    chunkSpec (p ++ s) c = chunkSpec s c := by
  unfold chunkSpec
  refine congrArg List.sum (List.map_congr_left ?_)
  intro j hj
  have hj6 : j < 6 := List.mem_range.mp hj
  rw [List.length_append, hs, if_pos (by omega), if_pos (by omega),
    List.getD_append_right _ _ _ _ (by omega)]
  have : p.length + 30 - 1 - 6 * c - j - p.length = 30 - 1 - 6 * c - j := by omega
  rw [this]

theorem hashSpec_append (r : List Nat) (p s : List Char) (hs : s.length = 30) :
    hashSpec r (p ++ s) = hashSpec r s := by
  unfold hashSpec
  refine congrArg (fun x => x % 2 ^ 64) (congrArg List.sum (List.map_congr_left ?_))
  intro c hc
  rw [chunkSpec_append p s hs c (List.mem_range.mp hc)]

end MyStringHash

/-- C13 (as stated, refuted): with `s` the string of 30 characters `b` and `p` the string
of `2^31 - 30` characters `a`, the concatenation has `2^31` characters, `(int)k.size()` is
negative, and the code returns 0 for `p ++ s` but 264417564452651168 for `s` (debug
coefficients). -/
theorem C13_counterexample :
    (List.replicate 30 'b').length = 30 ∧
    MyStringHash.hash MyStringHash.debugRValues
      (List.replicate (2 ^ 31 - 30) 'a' ++ List.replicate 30 'b') = 0 ∧
    MyStringHash.hash MyStringHash.debugRValues (List.replicate 30 'b') =
      264417564452651168 :=
  ⟨List.length_replicate _ _,
    MyStringHash.hash_of_nonpos _ _
      (le_of_eq_of_le
        (MyStringHash.toInt32_two_pow_31 _
          (by rw [List.length_append, List.length_replicate, List.length_replicate]; decide))
        (by decide)),
    (MyStringHash.hash_eq_hashSpec _ _ (by rw [List.length_replicate]; decide)).trans
      ((MyStringHash.hashSpec_replicate MyStringHash.debugRValues 30 'b' (by decide)).trans
        (by decide))⟩

/-- C13 (amended): for all coefficients, every string `s` of length exactly 30 and every
string `p` with `|p| + 30 < 2^31` (so that the length of `p ++ s` fits `int`), the digest
of `p ++ s` equals the digest of `s`. -/
theorem C13_last_30_chars (r : List Nat) (p s : List Char) (hs : s.length = 30)
    (hp : p.length + 30 < 2 ^ 31) :
    MyStringHash.hash r (p ++ s) = MyStringHash.hash r s := by
  rw [MyStringHash.hash_eq_hashSpec r (p ++ s) (by rw [List.length_append, hs]; exact hp),
    MyStringHash.hash_eq_hashSpec r s (by rw [hs]; decide),
    MyStringHash.hashSpec_append r p s hs]

/-- C13 witness: a 30-character string with a 3-character prefix. -/
theorem C13_last_30_chars_witness :
    (['a', 'b', 'c', 'd', 'e', 'f', 'g', 'h', 'i', 'j', 'k', 'l', 'm', 'n', 'o',
      'p', 'q', 'r', 's', 't', 'u', 'v', 'w', 'x', 'y', 'z', '0', '1', '2', '3'].length = 30 ∧
     ['X', 'Y', 'Z'].length + 30 < 2 ^ 31) ∧
    MyStringHash.hash MyStringHash.debugRValues
      (['X', 'Y', 'Z'] ++
        ['a', 'b', 'c', 'd', 'e', 'f', 'g', 'h', 'i', 'j', 'k', 'l', 'm', 'n', 'o',
          'p', 'q', 'r', 's', 't', 'u', 'v', 'w', 'x', 'y', 'z', '0', '1', '2', '3']) =
      MyStringHash.hash MyStringHash.debugRValues
        ['a', 'b', 'c', 'd', 'e', 'f', 'g', 'h', 'i', 'j', 'k', 'l', 'm', 'n', 'o',
          'p', 'q', 'r', 's', 't', 'u', 'v', 'w', 'x', 'y', 'z', '0', '1', '2', '3'] :=
  ⟨⟨by decide, by decide⟩,
    C13_last_30_chars MyStringHash.debugRValues ['X', 'Y', 'Z']
      ['a', 'b', 'c', 'd', 'e', 'f', 'g', 'h', 'i', 'j', 'k', 'l', 'm', 'n', 'o',
        'p', 'q', 'r', 's', 't', 'u', 'v', 'w', 'x', 'y', 'z', '0', '1', '2', '3']
      (by decide) (by decide)⟩

namespace MyStringHash

theorem getD_set_le (w : List Nat) (a v b : Nat) (hv : v ≤ b) (hw : ∀ i, w.getD i 0 ≤ b)
    (i : Nat) : (w.set a v).getD i 0 ≤ b := by
  have hwi := hw i
  rw [List.getD_eq_getElem?_getD] at hwi ⊢
  rw [List.getElem?_set]
  split
  · split
    · exact hv
    · exact Nat.zero_le _
  · exact hwi

/-- Every entry of `w` stays at most `36^6 - 1` through the chunk loop, for every value of
`n` (also a wrapped one). -/
theorem fillChunks_le (k : List Char) (n : Int) (cs w : List Nat)
    (hw : ∀ i, w.getD i 0 ≤ 36 ^ 6 - 1) (i : Nat) :
    (fillChunks k n cs w).getD i 0 ≤ 36 ^ 6 - 1 := by
  induction cs generalizing w with
  | nil => rw [fillChunks]; exact hw i
  | cons c cs ih =>
    rw [fillChunks]
    split
    · exact hw i
    · rename_i hpos
      obtain ⟨e, he⟩ : ∃ e : Nat, n - (c : Int) * 6 = (e : Int) :=
        ⟨(n - (c : Int) * 6).toNat, by omega⟩
      apply ih
      intro i'
      apply getD_set_le _ _ _ _ _ hw
      rw [he, chunkValue_eq k e (by omega)]
      exact chunkNat_le _ (fun x => letterDigitToNumber_le _) e

theorem weights_le (k : List Char) (i : Nat) : (weights k).getD i 0 ≤ 36 ^ 6 - 1 := by
  unfold weights
  apply fillChunks_le
  intro j
  rw [List.getD_eq_getElem?_getD]
  rcases j with _ | _ | _ | _ | _ | _ | j <;> simp

end MyStringHash

/-- C20: with the five debug coefficients, for every string `k` each chunk value `w[i]` is
at most `36^6 - 1`, the exact sum `r[0]*w[0] + ... + r[4]*w[4]` is below `2^64`, and the
digest returned by `operator()` equals that exact sum: the 64-bit accumulation never
wraps. -/
theorem C20_debug_no_wrap (k : List Char) :
    (∀ i, (MyStringHash.weights k).getD i 0 ≤ 36 ^ 6 - 1) ∧
    ((List.range 5).map (fun i =>
      MyStringHash.debugRValues.getD i 0 * (MyStringHash.weights k).getD i 0)).sum < 2 ^ 64 ∧
    MyStringHash.hash MyStringHash.debugRValues k =
      ((List.range 5).map (fun i =>
        MyStringHash.debugRValues.getD i 0 * (MyStringHash.weights k).getD i 0)).sum := by
  have h0 := MyStringHash.weights_le k 0
  have h1 := MyStringHash.weights_le k 1
  have h2 := MyStringHash.weights_le k 2
  have h3 := MyStringHash.weights_le k 3
  have h4 := MyStringHash.weights_le k 4
  refine ⟨MyStringHash.weights_le k, ?_, ?_⟩
  · simp only [List.range_succ, List.range_zero, List.nil_append, List.cons_append, List.map,
      List.sum_cons, List.sum_nil, MyStringHash.debugRValues, List.getD_cons_zero,
      List.getD_cons_succ]
    omega
  · unfold MyStringHash.hash
    simp only [List.range_succ, List.range_zero, List.nil_append, List.cons_append, List.map,
      List.foldl, List.sum_cons, List.sum_nil, MyStringHash.debugRValues, List.getD_cons_zero,
      List.getD_cons_succ]
    omega

/-! ## Double hashing over a prime modulus -/

/-- For a prime table size `m` with `7 < m < 2^32` the double-hash sequence is a
permutation: the step is coprime to `m`, the sums never wrap, the first `m` calls of
`next()` return `(start + dhstep * i) mod m`, every index below `m` exactly once, and every
later call returns `npos`. -/
theorem DoubleHashProber.coverage_of_prime {K : Type} (h2 : K → Nat) (s m : Nat) (key : K)
    (hm : m.Prime) (h7 : 7 < m) (hs : s < m) (h32 : m < 2 ^ 32) :
    Nat.gcd (DoubleHashProber.init h2 s m key).dhstep_ m = 1 ∧
    (∀ i, i < m → s + (DoubleHashProber.init h2 s m key).dhstep_ * i < 2 ^ 64) ∧
    (∀ i, i < m → DoubleHashProber.nthNext i (DoubleHashProber.init h2 s m key) =
      (s + (DoubleHashProber.init h2 s m key).dhstep_ * i) % m) ∧
    (∀ x, x < m → ∃! i, i < m ∧
      DoubleHashProber.nthNext i (DoubleHashProber.init h2 s m key) = x) ∧
    (∀ i, m ≤ i → DoubleHashProber.nthNext i (DoubleHashProber.init h2 s m key) = npos) := by
  obtain ⟨_, hc7, hclt, _⟩ := DoubleHashProber.chooseMod_spec m
  have hmodlt := Nat.mod_lt (h2 key) (show 0 < DoubleHashProber.chooseMod m by omega)
  generalize hd : (DoubleHashProber.init h2 s m key).dhstep_ = d
  have hinit : DoubleHashProber.init h2 s m key =
      { start_ := s, m_ := m, numProbes_ := 0, dhstep_ := d } := by
    rw [← hd]; rfl
  have hd1 : 1 ≤ d := by
    rw [← hd]
    show 1 ≤ DoubleHashProber.chooseMod m - h2 key % DoubleHashProber.chooseMod m
    omega
  have hdm : d < m := by
    rw [← hd]
    show DoubleHashProber.chooseMod m - h2 key % DoubleHashProber.chooseMod m < m
    have := hclt h7
    omega
  have hcop : Nat.Coprime m d := by
    rw [Nat.Prime.coprime_iff_not_dvd hm]
    intro hdvd
    have := Nat.le_of_dvd (by omega) hdvd
    omega
  have hno : ∀ i, i < m → s + d * i < 2 ^ 64 := by
    intro i hi
    have h1 : d * i ≤ (2 ^ 32 - 1) * (2 ^ 32 - 1) := Nat.mul_le_mul (by omega) (by omega)
    have h2' : (2 ^ 32 - 1) * (2 ^ 32 - 1) + 2 ^ 32 ≤ 2 ^ 64 := by decide
    omega
  have hval : ∀ i, i < m →
      DoubleHashProber.nthNext i { start_ := s, m_ := m, numProbes_ := 0, dhstep_ := d } =
        (s + d * i) % m := by
    intro i hi
    have h1 := hno i hi
    rw [DoubleHashProber.nthNext_eq, if_pos hi,
      Nat.mod_eq_of_lt (show d * i < 2 ^ 64 by omega), Nat.mod_eq_of_lt h1]
  have hinj : ∀ i j, i < m → j < m → (s + d * i) % m = (s + d * j) % m → i = j := by
    intro i j hi hj hmod
    have h1 : d * i ≡ d * j [MOD m] := Nat.ModEq.add_left_cancel' s hmod
    have h2' : i ≡ j [MOD m] := Nat.ModEq.cancel_left_of_coprime hcop h1
    exact Nat.ModEq.eq_of_lt_of_lt h2' hi hj
  have hsurj : ∀ x, x < m → ∃ i, i < m ∧ (s + d * i) % m = x := by
    intro x hx
    have himg : (Finset.range m).image (fun i => (s + d * i) % m) = Finset.range m := by
      apply Finset.eq_of_subset_of_card_le
      · intro y hy
        obtain ⟨i, _, rfl⟩ := Finset.mem_image.mp hy
        exact Finset.mem_range.mpr (Nat.mod_lt _ (by omega))
      · rw [Finset.card_image_of_injOn]
        intro i hi j hj hij
        exact hinj i j (Finset.mem_range.mp hi) (Finset.mem_range.mp hj) hij
    have hxm : x ∈ (Finset.range m).image (fun i => (s + d * i) % m) := by
      rw [himg]; exact Finset.mem_range.mpr hx
    obtain ⟨i, hi, hix⟩ := Finset.mem_image.mp hxm
    exact ⟨i, Finset.mem_range.mp hi, hix⟩
  rw [hinit]
  refine ⟨Nat.Coprime.symm hcop, hno, hval, ?_, ?_⟩
  · intro x hx
    obtain ⟨i, hi, hix⟩ := hsurj x hx
    refine ⟨i, ⟨hi, by rw [hval i hi, hix]⟩, ?_⟩
    rintro j ⟨hj, hjx⟩
    rw [hval j hj] at hjx
    exact hinj j i hj hi (by rw [hjx, hix])
  · intro i hi
    rw [DoubleHashProber.nthNext_eq, if_neg (by omega)]

/-! ## Primality of the capacity ladder -/

theorem noDivisorBlock_spec (n step : Nat) (d lo : Nat)
    (h : noDivisorBlock n step d lo = true) (k : Nat) (hk : k < 2 ^ d) :
    n % (lo + step * k) ≠ 0 := by
  induction d generalizing lo k with
  | zero =>
    have : k = 0 := by simp at hk; omega
    subst this
    rw [noDivisorBlock, Nat.ble_eq] at h
    simp only [Nat.mul_zero, Nat.add_zero]
    omega
  | succ d ih =>
    rw [noDivisorBlock, Bool.and_eq_true] at h
    by_cases hk2 : k < 2 ^ d
    · exact ih lo h.1 k hk2
    · have := ih (lo + step * 2 ^ d) h.2 (k - 2 ^ d) (by rw [pow_succ] at hk; omega)
      have e : lo + step * 2 ^ d + step * (k - 2 ^ d) = lo + step * k := by
        rw [Nat.add_assoc, ← Nat.mul_add]
        congr 2
        omega
      rwa [e] at this

/-- An odd number `n ≥ 2` below `(2 * 2^d)^2` that none of the `2^d` odd numbers from 3 on
divides is prime. -/
theorem prime_of_noDivisorBlock (n d : Nat) (h2 : 2 ≤ n) (hodd : n % 2 = 1)
    (hd : n < (2 * 2 ^ d) * (2 * 2 ^ d)) (h : noDivisorBlock n 2 d 3 = true) : n.Prime := by
  rw [Nat.prime_def_le_sqrt]
  refine ⟨h2, fun m hm hs hdvd => ?_⟩
  have hlt : m < 2 * 2 ^ d := by
    have := Nat.sqrt_lt.mpr hd
    omega
  have hmodd : m % 2 = 1 := by
    rcases Nat.mod_two_eq_zero_or_one m with h0 | h1
    · exfalso
      have : 2 ∣ n := Nat.dvd_trans (Nat.dvd_of_mod_eq_zero h0) hdvd
      omega
    · exact h1
  have hspec := noDivisorBlock_spec n 2 d 3 h ((m - 3) / 2) (by omega)
  have e : 3 + 2 * ((m - 3) / 2) = m := by omega
  rw [e] at hspec
  exact hspec (Nat.mod_eq_zero_of_dvd hdvd)

/-- Every entry of the capacity ladder other than `CAPACITIES[23]` is a prime. -/
theorem capacities_prime (i : Nat) (hi : i < 28) (h23 : i ≠ 23) :
    (CAPACITIES.getD i 0).Prime := by
  interval_cases i
  · exact prime_of_noDivisorBlock 11 1 (by decide) (by decide) (by decide) (by decide!)
  · exact prime_of_noDivisorBlock 23 2 (by decide) (by decide) (by decide) (by decide!)
  · exact prime_of_noDivisorBlock 47 2 (by decide) (by decide) (by decide) (by decide!)
  · exact prime_of_noDivisorBlock 97 3 (by decide) (by decide) (by decide) (by decide!)
  · exact prime_of_noDivisorBlock 197 3 (by decide) (by decide) (by decide) (by decide!)
  · exact prime_of_noDivisorBlock 397 4 (by decide) (by decide) (by decide) (by decide!)
  · exact prime_of_noDivisorBlock 797 4 (by decide) (by decide) (by decide) (by decide!)
  · exact prime_of_noDivisorBlock 1597 5 (by decide) (by decide) (by decide) (by decide!)
  · exact prime_of_noDivisorBlock 3203 5 (by decide) (by decide) (by decide) (by decide!)
  · exact prime_of_noDivisorBlock 6421 6 (by decide) (by decide) (by decide) (by decide!)
  · exact prime_of_noDivisorBlock 12853 6 (by decide) (by decide) (by decide) (by decide!)
  · exact prime_of_noDivisorBlock 25717 7 (by decide) (by decide) (by decide) (by decide!)
  · exact prime_of_noDivisorBlock 51437 7 (by decide) (by decide) (by decide) (by decide!)
  · exact prime_of_noDivisorBlock 102877 8 (by decide) (by decide) (by decide) (by decide!)
  · exact prime_of_noDivisorBlock 205759 8 (by decide) (by decide) (by decide) (by decide!)
  · exact prime_of_noDivisorBlock 411527 9 (by decide) (by decide) (by decide) (by decide!)
  · exact prime_of_noDivisorBlock 823117 9 (by decide) (by decide) (by decide) (by decide!)
  · exact prime_of_noDivisorBlock 1646237 10 (by decide) (by decide) (by decide) (by decide!)
  · exact prime_of_noDivisorBlock 3292489 10 (by decide) (by decide) (by decide) (by decide!)
  · exact prime_of_noDivisorBlock 6584983 11 (by decide) (by decide) (by decide) (by decide!)
  · exact prime_of_noDivisorBlock 13169977 11 (by decide) (by decide) (by decide) (by decide!)
  · exact prime_of_noDivisorBlock 26339969 12 (by decide) (by decide) (by decide) (by decide!)
  · exact prime_of_noDivisorBlock 52679969 12 (by decide) (by decide) (by decide) (by decide!)
  · exact absurd rfl h23
  · exact prime_of_noDivisorBlock 210719881 13 (by decide) (by decide) (by decide) (by decide!)
  · exact prime_of_noDivisorBlock 421439783 14 (by decide) (by decide) (by decide) (by decide!)
  · exact prime_of_noDivisorBlock 842879579 14 (by decide) (by decide) (by decide) (by decide!)
  · exact prime_of_noDivisorBlock 1685759167 15 (by decide) (by decide) (by decide) (by decide!)

theorem capacities_range :
    ∀ i, i < 28 → 7 < CAPACITIES.getD i 0 ∧ CAPACITIES.getD i 0 < 2 ^ 32 := by
  decide

/-- On every ladder entry other than `CAPACITIES[23]` the double-hash sequence covers the
table: the step is coprime to the capacity, the sums never wrap, and the first `m` calls of
`next()` return every index below `m` exactly once before `npos`. -/
theorem DoubleHashProber.coverage_on_ladder {K : Type} (h2 : K → Nat) (idx s : Nat) (key : K)
    (hi : idx < 28) (h23 : idx ≠ 23) (hs : s < CAPACITIES.getD idx 0) :
    Nat.gcd (DoubleHashProber.init h2 s (CAPACITIES.getD idx 0) key).dhstep_
      (CAPACITIES.getD idx 0) = 1 ∧
    (∀ i, i < CAPACITIES.getD idx 0 →
      s + (DoubleHashProber.init h2 s (CAPACITIES.getD idx 0) key).dhstep_ * i < 2 ^ 64) ∧
    (∀ x, x < CAPACITIES.getD idx 0 → ∃! i, i < CAPACITIES.getD idx 0 ∧
      DoubleHashProber.nthNext i (DoubleHashProber.init h2 s (CAPACITIES.getD idx 0) key) = x) ∧
    (∀ i, CAPACITIES.getD idx 0 ≤ i →
      DoubleHashProber.nthNext i (DoubleHashProber.init h2 s (CAPACITIES.getD idx 0) key) =
        npos) := by
  obtain ⟨h7, h32⟩ := capacities_range idx hi
  obtain ⟨hg, hno, _, hc, hn⟩ :=
    DoubleHashProber.coverage_of_prime h2 s _ key (capacities_prime idx hi h23) h7 hs h32
  exact ⟨hg, hno, hc, hn⟩
